import Mathlib

/-!
# upmpdcli: `upmpdutils.cxx`

A shallow embedding of the MPD-state-to-UPnP translation helpers of
`src/upmpd/upmpdutils.cxx` (`xmlquote`, `percentodbvalue`, `dbvaluetopercent`,
`upnpduration`, `upnpdurationtos`, `mapget`, `didlmake`) and the properties
proved about them.

Conventions of the embedding:

* a `std::string` is a list of characters (`Str`); every non-reserved
  character, ASCII or not, is an opaque value of type `Char`;
* an `ostringstream` and `string::operator+=` are list append;
* a C `int` is an integer; `wrap32` is applied where a computed value is stored
  in a 32-bit `int` and may leave its range;
* `float` and `double` are IEEE-754 binary32 and binary64 with round to nearest,
  ties to even, every operation rounded to the type of its C expression; the
  finite values are rationals (`Fp.fin`), the sign of zero is not tracked;
* the functions `log10` and `exp10` of the C library are parameters (`Libm`); where
  a property depends on their accuracy, their rational values are compared with
  the exact functions `Real.logb 10` and `10 ^ x` on the reals;
* a conversion from floating point to `int` whose value does not fit is
  undefined in C++ and is `none` here.
-/

namespace Upmpd

/-! ## Strings -/

/-- A `std::string`: a sequence of characters. -/
abbrev Str := List Char

/-- The characters of a `std::string` seen through `c_str()` by a C function: the
characters before the first NUL. -/
def c_str (s : Str) : Str := s.takeWhile (fun c => c != '\x00')

/-! ## Machine integers -/

/-- The value of an integer stored in a 32-bit two's complement `int`. -/
def wrap32 (x : Int) : Int := (x + 2147483648) % 4294967296 - 2147483648

/-! ## `xmlquote` -/

/-- One iteration of the loop body of `xmlquote`: the `switch (in[i])` that appends the
entity of a reserved character, or the character itself, to `out`. -/
def xmlquoteStep (out : Str) (c : Char) : Str :=
  if c = '"' then out ++ "&quot;".toList
  else if c = '&' then out ++ "&amp;".toList
  else if c = '<' then out ++ "&lt;".toList
  else if c = '>' then out ++ "&gt;".toList
  else if c = '\'' then out ++ "&apos;".toList
  else out ++ [c]

/-- The function `xmlquote` of the source: `out` starts empty and the loop
`for (i = 0; i < in.size(); i++)` runs the `switch` on `in[0]`, `in[1]`, ... in order
(the index is an `unsigned int`: the model covers strings of fewer than `2^32`
characters). -/
def xmlquote (inp : Str) : Str :=
  inp.foldl xmlquoteStep []

/-- The image of one character under XML escaping, as the specification words it. -/
def escapeChar (c : Char) : Str :=
  if c = '"' then "&quot;".toList
  else if c = '&' then "&amp;".toList
  else if c = '<' then "&lt;".toList
  else if c = '>' then "&gt;".toList
  else if c = '\'' then "&apos;".toList
  else [c]

/-- The five characters reserved in XML text. -/
def isReserved (c : Char) : Bool :=
  c = '"' || c = '&' || c = '<' || c = '>' || c = '\''

/-! ## Floating point -/

/-- A value of an IEEE-754 binary format: a finite rational, an infinity or a NaN. -/
inductive Fp where
  | fin (q : ℚ)
  | pinf
  | ninf
  | nan
  deriving DecidableEq

/-- A binary floating-point format: precision in bits and largest exponent. -/
structure Fmt where
  prec : Nat
  emax : Int

/-- The C type `float`. -/
def binary32 : Fmt := ⟨24, 127⟩

/-- The C type `double`. -/
def binary64 : Fmt := ⟨53, 1023⟩

/-- The power `2 ^ e` for an integer exponent. -/
def pow2 (e : Int) : ℚ :=
  if 0 ≤ e then ((2 ^ e.toNat : ℕ) : ℚ) else 1 / ((2 ^ (-e).toNat : ℕ) : ℚ)

/-- Loop of `natLog2`. -/
def log2Fuel : Nat → Nat → Nat
  | 0, _ => 0
  | k + 1, n => if 2 ≤ n then log2Fuel k (n / 2) + 1 else 0

/-- The integer part of the binary logarithm of a positive natural number. -/
def natLog2 (n : Nat) : Nat := log2Fuel n n

/-- Loop of `natSqrt`: Newton iteration from above. -/
def sqrtFuel : Nat → Nat → Nat → Nat
  | 0, _, g => g
  | k + 1, n, g =>
    let g1 := (g + n / g) / 2
    if g1 < g then sqrtFuel k n g1 else g

/-- The integer part of the square root of a natural number. -/
def natSqrt (n : Nat) : Nat := if n ≤ 1 then n else sqrtFuel n n (n / 2)

/-- The integer part of the binary logarithm of a positive rational. -/
def ilog2 (q : ℚ) : Int :=
  let e0 : Int := (natLog2 q.num.natAbs : Int) - (natLog2 q.den : Int)
  if pow2 e0 ≤ q then e0 else e0 - 1

/-- Rounding of a rational to the nearest integer, ties to even. -/
def roundNE (q : ℚ) : Int :=
  let f := Rat.floor q
  let r := q - f
  if r < 1 / 2 then f
  else if 1 / 2 < r then f + 1
  else if f % 2 = 0 then f else f + 1

/-- Rounding of an exact result to a format: nearest representable value, ties to even,
gradual underflow, overflow to an infinity. -/
def roundFmt (f : Fmt) (q : ℚ) : Fp :=
  if q = 0 then Fp.fin 0
  else
    let e := max (ilog2 |q|) (1 - f.emax)
    let ulp := pow2 (e - (f.prec - 1))
    let r := (roundNE (q / ulp) : ℚ) * ulp
    if pow2 (f.emax + 1) ≤ |r| then (if 0 < q then Fp.pinf else Fp.ninf) else Fp.fin r

/-- Conversion of an `int` to a floating-point type. -/
def Fp.ofInt (f : Fmt) (v : Int) : Fp := roundFmt f v

/-- Conversion of a floating-point value to the format `f` (exact from `float` to
`double`, rounded from `double` to `float`). -/
def Fp.round (f : Fmt) : Fp → Fp
  | Fp.fin q => roundFmt f q
  | x => x

/-- Multiplication in the format `f`. -/
def Fp.mul (f : Fmt) : Fp → Fp → Fp
  | Fp.nan, _ => Fp.nan
  | _, Fp.nan => Fp.nan
  | Fp.fin a, Fp.fin b => roundFmt f (a * b)
  | Fp.fin a, Fp.pinf => if 0 < a then Fp.pinf else if a < 0 then Fp.ninf else Fp.nan
  | Fp.fin a, Fp.ninf => if 0 < a then Fp.ninf else if a < 0 then Fp.pinf else Fp.nan
  | Fp.pinf, Fp.fin b => if 0 < b then Fp.pinf else if b < 0 then Fp.ninf else Fp.nan
  | Fp.ninf, Fp.fin b => if 0 < b then Fp.ninf else if b < 0 then Fp.pinf else Fp.nan
  | Fp.pinf, Fp.pinf => Fp.pinf
  | Fp.pinf, Fp.ninf => Fp.ninf
  | Fp.ninf, Fp.pinf => Fp.ninf
  | Fp.ninf, Fp.ninf => Fp.pinf

/-- Division in the format `f` by a positive constant `c` of that format (every division
of the source is by one of the constants `10000.0`, `256.0` and `10`). -/
def Fp.divPos (f : Fmt) (x : Fp) (c : ℚ) : Fp :=
  match x with
  | Fp.fin a => roundFmt f (a / c)
  | y => y

/-- Correctly rounded square root of a positive rational in the format `f`. -/
def roundSqrt (f : Fmt) (q : ℚ) : Fp :=
  let e := max (Int.fdiv (ilog2 q) 2) (1 - f.emax)
  let ulp := pow2 (e - (f.prec - 1))
  let x := q / (ulp * ulp)
  let m := natSqrt (Rat.floor x).toNat
  let h : ℚ := (m : ℚ) + 1 / 2
  let m1 : Nat := if x < h * h then m else if h * h < x then m + 1
    else if m % 2 = 0 then m else m + 1
  let r := (m1 : ℚ) * ulp
  if pow2 (f.emax + 1) ≤ r then Fp.pinf else Fp.fin r

/-- The function `sqrt` in the format `f`. -/
def Fp.sqrt (f : Fmt) : Fp → Fp
  | Fp.fin q => if q < 0 then Fp.nan else if q = 0 then Fp.fin 0 else roundSqrt f q
  | Fp.pinf => Fp.pinf
  | Fp.ninf => Fp.nan
  | Fp.nan => Fp.nan

/-- The function `floor`. -/
def Fp.floor : Fp → Fp
  | Fp.fin q => Fp.fin (Rat.floor q)
  | x => x

/-- Conversion of a floating-point value to `int`: truncation toward zero; undefined
(`none`) when the truncated value is not an `int`, for an infinity and for a NaN. -/
def Fp.toInt : Fp → Option Int
  | Fp.fin q =>
    let t := Int.tdiv q.num q.den
    if -2147483648 ≤ t ∧ t ≤ 2147483647 then some t else none
  | _ => none

/-- The functions of the C library used by the volume conversions: `log10` at type
`float` and the GNU function `exp10` at type `double`. -/
structure Libm where
  log10f : Fp → Fp
  exp10 : Fp → Fp

/-- A coarse C library, used to show that the assumptions made on `log10` and `exp10`
can be met: exact at the arguments `1` and `0`, overflow to infinity and underflow to
zero far from them, and the constant `1` in between. -/
def coarseLibm : Libm where
  log10f := fun x =>
    match x with
    | Fp.fin q => if q < 0 then Fp.nan else if q = 0 then Fp.ninf else Fp.fin 0
    | Fp.pinf => Fp.pinf
    | _ => Fp.nan
  exp10 := fun x =>
    match x with
    | Fp.fin q => if 309 ≤ q then Fp.pinf else if q ≤ -324 then Fp.fin 0 else Fp.fin 1
    | Fp.pinf => Fp.pinf
    | Fp.ninf => Fp.fin 0
    | Fp.nan => Fp.nan

/-! ## Volume conversions -/

/-- The function `percentodbvalue` of the source: `ratio` is `float(value)*value / 10000.0`
(a product in `float`, a quotient in `double`, stored in a `float`), `db` is
`10 * log10(ratio)` in `float`, and the result is the conversion `int(256 * db)`. -/
def percentodbvalue (L : Libm) (value : Int) : Option Int :=
  if value = 0 then some (-10240)
  else
    let ratio : Fp := Fp.round binary32
      (Fp.divPos binary64 (Fp.mul binary32 (Fp.ofInt binary32 value) (Fp.ofInt binary32 value))
        10000)
    let db : Fp := Fp.mul binary32 (Fp.ofInt binary32 10) (L.log10f ratio)
    Fp.toInt (Fp.mul binary32 (Fp.ofInt binary32 256) db)

/-- The function `dbvaluetopercent` of the source: `db` is `float(dbvalue) / 256.0` (a
quotient in `double`, stored in a `float`), `vol` is `exp10(db/10)` (a quotient in `float`,
the function in `double`, stored in a `float`), `percent` is the conversion to `int` of
`floor(sqrt(vol * 10000.0))`, computed in `double`, and the two tests clamp it. -/
def dbvaluetopercent (L : Libm) (dbvalue : Int) : Option Int :=
  let db : Fp := Fp.round binary32 (Fp.divPos binary64 (Fp.ofInt binary32 dbvalue) 256)
  let vol : Fp := Fp.round binary32 (L.exp10 (Fp.divPos binary32 db 10))
  match Fp.toInt (Fp.floor (Fp.sqrt binary64 (Fp.mul binary64 vol (Fp.fin 10000)))) with
  | none => none
  | some percent =>
    let percent1 := if percent < 0 then 0 else percent
    let percent2 := if percent1 > 100 then 100 else percent1
    some percent2

/-! ## Durations -/

/-- The decimal digits printed by `printf` for the magnitude of an integer. -/
def fmtDigits (v : Int) : Str := Nat.toDigits 10 v.natAbs

/-- The conversion `%d` of `printf`. -/
def fmt_d (v : Int) : Str :=
  if v < 0 then '-' :: fmtDigits v else fmtDigits v

/-- The conversion `%02d` of `printf`: zeros between the sign and the digits up to a
width of two characters. -/
def fmt_02d (v : Int) : Str :=
  let sign : Str := if v < 0 then ['-'] else []
  let ds := fmtDigits v
  sign ++ List.replicate (2 - (sign.length + ds.length)) '0' ++ ds

/-- The function `upnpduration` of the source: the three fields are split off by truncated
division (for an `int` argument no intermediate value leaves the `int` range) and printed
by `sprintf(cbuf, "%d:%02d:%02d", hours, minutes, secs)`. -/
def upnpduration (ms : Int) : Str :=
  let hours := Int.tdiv ms (3600 * 1000)
  let ms1 := ms - hours * 3600 * 1000
  let minutes := Int.tdiv ms1 (60 * 1000)
  let ms2 := ms1 - minutes * 60 * 1000
  let secs := Int.tdiv ms2 1000
  fmt_d hours ++ ":".toList ++ fmt_02d minutes ++ ":".toList ++ fmt_02d secs

/-- The unpadded decimal rendering of a natural number. -/
def dec (n : Nat) : Str := (Nat.repr n).toList

/-- The decimal rendering of a natural number, zero-padded to two digits. -/
def pad2 (n : Nat) : Str := if n < 10 then '0' :: dec n else dec n

/-- The decimal rendering of `n` preceded by `k` zeros. -/
def decZ (k n : Nat) : Str := List.replicate k '0' ++ dec n

/-- The function `isspace` of C. -/
def isspace (c : Char) : Bool :=
  c = ' ' || c = '\t' || c = '\n' || c = '\x0b' || c = '\x0c' || c = '\r'

/-- The function `isdigit` of C. -/
def isdigit (c : Char) : Bool := decide ('0' ≤ c) && decide (c ≤ '9')

/-- The value of a decimal digit. -/
def digitVal (c : Char) : Nat := c.toNat - '0'.toNat

/-- The value of a sequence of decimal digits. -/
def digitsVal (ds : Str) : Nat := ds.foldl (fun a c => 10 * a + digitVal c) 0

/-- One conversion `%d` of `scanf`: white space is skipped, then an optional sign and a
non-empty maximal run of digits are read. The result is the value stored and the rest of
the input, or `none` when no digit is found (the conversion fails and nothing is stored).
The value is stored in an `int`: C leaves the result undefined when it does not fit, the
model keeps its low 32 bits. -/
def scanInt (s : Str) : Option (Int × Str) :=
  let s1 := s.dropWhile isspace
  let neg : Bool := s1.head? = some '-'
  let s2 := if s1.head? = some '-' ∨ s1.head? = some '+' then s1.tail else s1
  let ds := s2.takeWhile isdigit
  if ds = [] then none
  else some (wrap32 (if neg then -(digitsVal ds : Int) else digitsVal ds), s2.dropWhile isdigit)

/-- The call `sscanf(s, "%d:%d:%d", &hours, &minutes, &seconds)`: the final values of the
three variables, given their values before the call. The scan stops at the first
conversion or literal `:` that does not match; the variables not reached keep their
value. -/
def sscanf3 (s : Str) (hours minutes seconds : Int) : Int × Int × Int :=
  match scanInt s with
  | none => (hours, minutes, seconds)
  | some (h, r1) =>
    match r1 with
    | ':' :: r2 =>
      match scanInt r2 with
      | none => (h, minutes, seconds)
      | some (m, r3) =>
        match r3 with
        | ':' :: r4 =>
          match scanInt r4 with
          | none => (h, m, seconds)
          | some (sec, _) => (h, m, sec)
        | _ => (h, m, seconds)
    | _ => (h, minutes, seconds)

/-- The function `upnpdurationtos` of the source. The locals `hours`, `minutes` and
`seconds` are declared without an initialiser: `hours0`, `minutes0` and `seconds0` are
the indeterminate values they hold before the call of `sscanf`. -/
def upnpdurationtos (hours0 minutes0 seconds0 : Int) (dur : Str) : Int :=
  match sscanf3 (c_str dur) hours0 minutes0 seconds0 with
  | (hours, minutes, seconds) => wrap32 (3600 * hours + 60 * minutes + seconds)

/-! ## DIDL fragment -/

/-- A tag map (`unordered_map<string, string>`): a list of bindings, looked up by key. -/
abbrev SongMap := List (Str × Str)

/-- The function `mapget` of the source: the value bound to `k`, the empty string when
there is none. -/
def mapget (im : SongMap) (k : Str) : Str :=
  match im.lookup k with
  | none => []
  | some v => v

/-- Modelled from the spec: the type `MpdStatus` is declared in `mpdcli.hxx`; these are
the three fields read by `didlmake`, the two tag maps and the song length in
milliseconds as the `int` received by `upnpduration`. -/
structure MpdStatus where
  currentsong : SongMap
  nextsong : SongMap
  songlenms : Int

/-- The tag map selected by `didlmake`. -/
def songmapOf (mpds : MpdStatus) (next : Bool) : SongMap :=
  if next then mpds.nextsong else mpds.currentsong

/-- The opening of the fragment. -/
def didlHead : Str :=
  ("<DIDL-Lite xmlns:dc=\"http://purl.org/dc/elements/1.1/\" " ++
    "xmlns:upnp=\"urn:schemas-upnp-org:metadata-1-0/upnp/\" " ++
    "xmlns=\"urn:schemas-upnp-org:metadata-1-0/DIDL-Lite/\" " ++
    "xmlns:dlna=\"urn:schemas-dlna-org:metadata-1-0/\">" ++
    "<item restricted=\"1\">").toList

/-- The block of `didlmake` for `dc:title`. -/
def didlTitle (songmap : SongMap) : Str :=
  "<dc:title>".toList ++ xmlquote (mapget songmap "dc:title".toList) ++ "</dc:title>".toList

/-- The block of `didlmake` for `upnp:artist`. -/
def didlArtist (songmap : SongMap) : Str :=
  let val := mapget songmap "upnp:artist".toList
  if val ≠ [] then
    let a := xmlquote val
    "<dc:creator>".toList ++ a ++ "</dc:creator>".toList ++
      "<upnp:artist>".toList ++ a ++ "</upnp:artist>".toList
  else []

/-- The block of `didlmake` for `upnp:album`. -/
def didlAlbum (songmap : SongMap) : Str :=
  let val := mapget songmap "upnp:album".toList
  if val ≠ [] then "<upnp:album>".toList ++ xmlquote val ++ "</upnp:album>".toList
  else []

/-- The block of `didlmake` for `upnp:genre`. -/
def didlGenre (songmap : SongMap) : Str :=
  let val := mapget songmap "upnp:genre".toList
  if val ≠ [] then "<upnp:genre>".toList ++ xmlquote val ++ "</upnp:genre>".toList
  else []

/-- The block of `didlmake` for `upnp:originalTrackNumber`. -/
def didlTrack (songmap : SongMap) : Str :=
  let val := mapget songmap "upnp:originalTrackNumber".toList
  if val ≠ [] then
    "<upnp:originalTrackNumber>".toList ++ val ++ "</upnp:originalTrackNumber>".toList
  else []

/-- The `res` element and the closing tags written by `didlmake`. -/
def didlRes (songmap : SongMap) (songlenms : Int) : Str :=
  "<res ".toList ++ "duration=\"".toList ++ upnpduration songlenms ++ "\" ".toList ++
    "sampleFrequency=\"44100\" audioChannels=\"2\" ".toList ++
    ("protocolInfo=\"http-get:*:audio/mpeg:DLNA.ORG_PN=MP3;DLNA.ORG_OP=01;DLNA.ORG_CI=0;" ++
      "DLNA.ORG_FLAGS=01700000000000000000000000000000\"").toList ++
    ">".toList ++ xmlquote (mapget songmap "uri".toList) ++ "</res>".toList ++
    "</item></DIDL-Lite>".toList

/-- The function `didlmake` of the source: the stream `ss` receives the blocks in order. -/
def didlmake (mpds : MpdStatus) (next : Bool) : Str :=
  let songmap := songmapOf mpds next
  didlHead ++ didlTitle songmap ++
    "<upnp:class>object.item.audioItem.musicTrack</upnp:class>".toList ++
    didlArtist songmap ++ didlAlbum songmap ++ didlGenre songmap ++ didlTrack songmap ++
    didlRes songmap mpds.songlenms

/-- A snapshot whose current song has the track number `<1>`. -/
def badTrack : MpdStatus :=
  ⟨[("upnp:originalTrackNumber".toList, "<1>".toList)], [], 0⟩

/-! ## Occurrences of a pattern -/

/-- The number of positions of a string at which the pattern `pat` occurs. -/
def occurrences (pat : Str) : Str → Nat
  | [] => if pat.isPrefixOf [] then 1 else 0
  | c :: s => (if pat.isPrefixOf (c :: s) then 1 else 0) + occurrences pat s

/-- The pattern and the string differ at a position that both have. -/
def clashB : Str → Str → Bool
  | p :: pat, c :: s => p != c || clashB pat s
  | _, _ => false

/-- At every position of `lit`, the pattern either occurs within `lit` or differs from it
within `lit`: what follows `lit` has no part in the occurrences that start in `lit`. -/
def decidedB (pat : Str) : Str → Bool
  | [] => true
  | c :: s => (pat.isPrefixOf (c :: s) || clashB pat (c :: s)) && decidedB pat s

/-- The pattern does not occur in `lit`, nor across the end of `lit`. -/
def quietB (pat lit : Str) : Bool := decidedB pat lit && occurrences pat lit == 0

/-! ## Ranges of floating-point values -/

/-- The value is finite and lies between `lo` and `hi`. -/
def Fp.within (lo hi : ℚ) : Fp → Bool
  | Fp.fin q => decide (lo ≤ q) && decide (q ≤ hi)
  | _ => false

/-- The power `10 ^ e` for an integer exponent. -/
def pow10 (e : Int) : ℚ :=
  if 0 ≤ e then ((10 ^ e.toNat : ℕ) : ℚ) else 1 / ((10 ^ (-e).toNat : ℕ) : ℚ)

/-- A C library whose `exp10` is correctly rounded at the integers, used to show that the
assumptions made on `exp10` at `0` and at `-4` can be met; elsewhere it is `coarseLibm`. -/
def decadeLibm : Libm where
  log10f := coarseLibm.log10f
  exp10 := fun x =>
    match x with
    | Fp.fin q =>
      if q.den = 1 then roundFmt binary64 (pow10 q.num) else coarseLibm.exp10 (Fp.fin q)
    | y => coarseLibm.exp10 y

/-! ## Sample snapshots -/

/-- A snapshot whose current song has no `upnp:album` tag and the track number
`<upnp:album>x</upnp:album>`. -/
def albumInTrack : MpdStatus :=
  ⟨[("upnp:originalTrackNumber".toList, "<upnp:album>x</upnp:album>".toList)], [], 0⟩

/-- The snapshot of a song with the title `Song`, the URI `http://x/y.mp3` and a length of
125000 milliseconds. -/
def songOnly : MpdStatus :=
  ⟨[("dc:title".toList, "Song".toList), ("uri".toList, "http://x/y.mp3".toList)], [], 125000⟩

/-- A snapshot whose next song has a numeric track number and tag values that look like
markup. -/
def markupTags : MpdStatus :=
  ⟨[], [("dc:title".toList, "<item></item>".toList),
    ("upnp:artist".toList, "</item></DIDL-Lite>".toList),
    ("upnp:originalTrackNumber".toList, "12".toList),
    ("uri".toList, "http://x/<item>".toList)], 1000⟩

/-! ## Truncation -/

/-- Truncation of a rational toward zero, as the specification words the conversion of a
floating-point value to `int`: the floor of a non-negative value, the ceiling of a
negative one. -/
def truncQ (w : ℚ) : Int := if 0 ≤ w then Rat.floor w else -Rat.floor (-w)

/-! ## A library that is accurate at one quarter -/

/-- A C library whose `log10` returns at `1/4` the value of type `float` nearest to the
logarithm of `1/4`, used to show that the assumption made on `log10` at the volume `50`
can be met; elsewhere it is `coarseLibm`. -/
def quarterLibm : Libm where
  log10f := fun x =>
    if x = Fp.fin (1 / 4) then Fp.fin (-10100891 / 16777216) else coarseLibm.log10f x
  exp10 := coarseLibm.exp10

/-! ## A library computed by series -/

/-- Partial sum of the series of `-log (1 - x)`: twelve terms. -/
def logSeries (x : ℚ) : ℚ :=
  Finset.sum (Finset.range 12) (fun i => x ^ (i + 1) / ((i : ℚ) + 1))

/-- Partial sum of the exponential series: eight terms. -/
def expSeries (x : ℚ) : ℚ :=
  Finset.sum (Finset.range 8) (fun m => x ^ m / (m.factorial : ℚ))

/-- A C library whose `log10` and `exp10` are computed by series, used to show that the
accuracy assumed of `log10` and `exp10` for the round trip of the volume can be met. The
logarithm of `q = 2 ^ k * m` with `m` in `[1/2, 1)` is `k * log10 2 + log10 e * log m`, the
power `10 ^ x` is `2 ^ j * exp (f * log 2)` with `j + f = x * log2 10` and `f` in `[0, 1)`;
the constants are decimal approximations and the results are not rounded. -/
def seriesLibm : Libm where
  log10f := fun a =>
    match a with
    | Fp.fin q =>
      if q < 0 then Fp.nan else if q = 0 then Fp.ninf
      else Fp.fin (((ilog2 q + 1 : Int) : ℚ) * (30103 / 100000) -
        43429 / 100000 * logSeries (1 - q / pow2 (ilog2 q + 1)))
    | Fp.pinf => Fp.pinf
    | _ => Fp.nan
  exp10 := fun a =>
    match a with
    | Fp.fin x =>
      if 309 ≤ x then Fp.pinf else if x ≤ -324 then Fp.fin 0
      else Fp.fin (pow2 (Rat.floor (x * (33219 / 10000))) *
        expSeries ((x * (33219 / 10000) - (Rat.floor (x * (33219 / 10000)) : ℚ)) *
          (6931 / 10000)))
    | Fp.pinf => Fp.pinf
    | Fp.ninf => Fp.fin 0
    | Fp.nan => Fp.nan

/-! ## Lemmas on `xmlquote` -/

theorem xmlquoteStep_eq (out : Str) (c : Char) :
    xmlquoteStep out c = out ++ escapeChar c := by
  unfold xmlquoteStep escapeChar
  split_ifs <;> rfl

theorem foldl_xmlquoteStep (s out : Str) :
    s.foldl xmlquoteStep out = out ++ s.flatMap escapeChar := by
  induction s generalizing out with
  | nil => simp
  | cons c cs ih =>
    rw [List.foldl_cons, ih, xmlquoteStep_eq, List.flatMap_cons, List.append_assoc]

theorem xmlquote_eq_flatMap (s : Str) : xmlquote s = s.flatMap escapeChar := by
  unfold xmlquote
  rw [foldl_xmlquoteStep, List.nil_append]

/-! ## Lemmas on the integer logarithm and square root -/

theorem log2Fuel_eq (k : Nat) : ∀ n : Nat, n ≤ k → log2Fuel k n = Nat.log2 n := by
  induction k with
  | zero =>
    intro n hn
    obtain rfl : n = 0 := by omega
    rw [Nat.log2]; rfl
  | succ k ih =>
    intro n hn
    rw [Nat.log2, log2Fuel]
    by_cases h : 2 ≤ n
    · rw [if_pos h, if_pos h, ih (n / 2) (by omega)]
    · rw [if_neg h, if_neg h]

theorem natLog2_eq (n : Nat) : natLog2 n = Nat.log2 n := log2Fuel_eq n n (le_refl n)

theorem sqrtFuel_eq (n k : Nat) : ∀ g : Nat, g ≤ k → sqrtFuel k n g = Nat.sqrt.iter n g := by
  induction k with
  | zero =>
    intro g hg
    obtain rfl : g = 0 := by omega
    rw [Nat.sqrt.iter]; simp [sqrtFuel]
  | succ k ih =>
    intro g hg
    rw [Nat.sqrt.iter, sqrtFuel]
    by_cases h : (g + n / g) / 2 < g
    · simp only [h, if_true, dif_pos]
      exact ih _ (by omega)
    · simp only [h, if_false, dif_neg, not_false_eq_true]

theorem natSqrt_eq (n : Nat) : natSqrt n = Nat.sqrt n := by
  unfold natSqrt Nat.sqrt
  by_cases h : n ≤ 1
  · rw [if_pos h, if_pos h]
  · rw [if_neg h, if_neg h, sqrtFuel_eq n n (n / 2) (by omega)]

/-! ## Lemmas on rounding

The rounding of the model is checked against IEEE-754: a finite result is within half a
unit in the last place of the exact value, the values of the format are left unchanged,
and some known values of `float` and `double` are recomputed. -/

theorem pow2_eq_zpow (e : Int) : pow2 e = (2 : ℚ) ^ e := by
  unfold pow2
  by_cases h : 0 ≤ e
  · rw [if_pos h]
    obtain ⟨n, rfl⟩ := Int.eq_ofNat_of_zero_le h
    simp
  · rw [if_neg h]
    obtain ⟨n, rfl⟩ : ∃ n : Nat, e = -(n : Int) := ⟨(-e).toNat, by omega⟩
    simp

theorem pow2_pos (e : Int) : 0 < pow2 e := by
  rw [pow2_eq_zpow]; positivity

theorem natLog2_spec (n : Nat) (h : n ≠ 0) :
    2 ^ natLog2 n ≤ n ∧ n < 2 ^ (natLog2 n + 1) := by
  rw [natLog2_eq]
  exact ⟨Nat.log2_self_le h, Nat.lt_log2_self⟩

/-- The function `ilog2` brackets a positive rational between two consecutive powers of
two. -/
theorem ilog2_spec (q : ℚ) (hq : 0 < q) : pow2 (ilog2 q) ≤ q ∧ q < pow2 (ilog2 q + 1) := by
  have hnum : 0 < q.num := Rat.num_pos.mpr hq
  have hn0 : q.num.natAbs ≠ 0 := by omega
  obtain ⟨ha1, ha2⟩ := natLog2_spec q.num.natAbs hn0
  obtain ⟨hb1, hb2⟩ := natLog2_spec q.den q.den_nz
  set a := natLog2 q.num.natAbs with ha
  set b := natLog2 q.den with hb
  have hqe : q = (q.num.natAbs : ℚ) / (q.den : ℚ) := by
    have h1 : ((q.num.natAbs : ℤ) : ℚ) = (q.num : ℚ) := by
      rw [Int.natAbs_of_nonneg hnum.le]
    have h2 : (q.num.natAbs : ℚ) = (q.num : ℚ) := by
      rw [← h1, Int.cast_natCast]
    rw [h2, Rat.num_div_den]
  have hd : (0 : ℚ) < q.den := by exact_mod_cast q.den_pos
  have ha1' : (2 : ℚ) ^ a ≤ q.num.natAbs := by exact_mod_cast ha1
  have ha2' : (q.num.natAbs : ℚ) < 2 ^ (a + 1) := by exact_mod_cast ha2
  have hb1' : (2 : ℚ) ^ b ≤ q.den := by exact_mod_cast hb1
  have hb2' : (q.den : ℚ) < 2 ^ (b + 1) := by exact_mod_cast hb2
  have e1 : pow2 ((a : Int) - b - 1) * 2 ^ (b + 1) = 2 ^ a := by
    rw [pow2_eq_zpow, ← zpow_natCast (2 : ℚ) (b + 1), ← zpow_add₀ (by norm_num : (2 : ℚ) ≠ 0),
      ← zpow_natCast (2 : ℚ) a]
    congr 1; push_cast; ring
  have e2 : pow2 ((a : Int) - b + 1) * 2 ^ b = 2 ^ (a + 1) := by
    rw [pow2_eq_zpow, ← zpow_natCast (2 : ℚ) b, ← zpow_add₀ (by norm_num : (2 : ℚ) ≠ 0),
      ← zpow_natCast (2 : ℚ) (a + 1)]
    congr 1; push_cast; ring
  have lo : pow2 ((a : Int) - b - 1) ≤ q := by
    rw [hqe, le_div_iff₀ hd]
    calc pow2 ((a : Int) - b - 1) * q.den
        ≤ pow2 ((a : Int) - b - 1) * 2 ^ (b + 1) :=
          mul_le_mul_of_nonneg_left hb2'.le (pow2_pos _).le
      _ = 2 ^ a := e1
      _ ≤ q.num.natAbs := ha1'
  have hi : q < pow2 ((a : Int) - b + 1) := by
    rw [hqe, div_lt_iff₀ hd]
    calc (q.num.natAbs : ℚ) < 2 ^ (a + 1) := ha2'
      _ = pow2 ((a : Int) - b + 1) * 2 ^ b := e2.symm
      _ ≤ pow2 ((a : Int) - b + 1) * q.den :=
          mul_le_mul_of_nonneg_left hb1' (pow2_pos _).le
  unfold ilog2
  simp only [← ha, ← hb]
  by_cases hc : pow2 ((a : Int) - b) ≤ q
  · rw [if_pos hc]; exact ⟨hc, hi⟩
  · rw [if_neg hc]
    refine ⟨lo, ?_⟩
    rw [sub_add_cancel]
    exact not_le.mp hc

/-- The function `roundNE` returns an integer at distance at most one half. -/
theorem roundNE_spec (q : ℚ) : |(roundNE q : ℚ) - q| ≤ 1 / 2 := by
  have h1 : ((Rat.floor q : ℤ) : ℚ) ≤ q := by
    exact Int.floor_le q
  have h2 : q < (Rat.floor q : ℤ) + 1 := by
    exact Int.lt_floor_add_one q
  unfold roundNE
  simp only
  rw [abs_le]
  split_ifs with c1 c2 c3
  · constructor <;> linarith
  · push_cast; constructor <;> linarith
  · have : q - (Rat.floor q : ℤ) = 1 / 2 := le_antisymm (not_lt.mp c2) (not_lt.mp c1)
    constructor <;> linarith
  · have : q - (Rat.floor q : ℤ) = 1 / 2 := le_antisymm (not_lt.mp c2) (not_lt.mp c1)
    push_cast; constructor <;> linarith

/-- A finite result of `roundFmt` lies within half a unit in the last place of the exact
value. -/
theorem roundFmt_error (f : Fmt) (q r : ℚ) (hq : q ≠ 0) (h : roundFmt f q = Fp.fin r) :
    |r - q| ≤ pow2 (max (ilog2 |q|) (1 - f.emax) - (f.prec - 1)) / 2 := by
  unfold roundFmt at h
  rw [if_neg hq] at h
  simp only at h
  split_ifs at h with c1 c2
  rw [Fp.fin.injEq] at h
  rw [← h]
  set ulp := pow2 (max (ilog2 |q|) (1 - f.emax) - (f.prec - 1)) with hulp
  have hpos : 0 < ulp := pow2_pos _
  have := roundNE_spec (q / ulp)
  have e : (roundNE (q / ulp) : ℚ) * ulp - q = ((roundNE (q / ulp) : ℚ) - q / ulp) * ulp := by
    field_simp
  rw [e, abs_mul, abs_of_pos hpos]
  calc |(roundNE (q / ulp) : ℚ) - q / ulp| * ulp ≤ 1 / 2 * ulp :=
        mul_le_mul_of_nonneg_right this hpos.le
    _ = ulp / 2 := by ring

theorem roundNE_intCast (k : Int) : roundNE (k : ℚ) = k := by
  have hf : Rat.floor (k : ℚ) = k := @Int.floor_intCast ℚ _ _ k
  unfold roundNE
  simp only [hf, sub_self]
  rw [if_pos (by norm_num)]

theorem pow2_lt_pow2 (a b : Int) (h : pow2 a < pow2 b) : a < b := by
  rw [pow2_eq_zpow, pow2_eq_zpow] at h
  exact (zpow_lt_zpow_iff_right₀ (by norm_num : (1 : ℚ) < 2)).mp h

/-- Rounding is the identity on the values of the format: `m * 2 ^ e` with `m` of at most
`prec` bits, `e` not below the exponent of the subnormal numbers, and a magnitude below
`2 ^ (emax + 1)`. -/
theorem roundFmt_exact (f : Fmt) (m e : Int) (hm : m.natAbs < 2 ^ f.prec)
    (he : (1 - f.emax) - (f.prec - 1) ≤ e) (hmax : |(m : ℚ) * pow2 e| < pow2 (f.emax + 1)) :
    roundFmt f ((m : ℚ) * pow2 e) = Fp.fin ((m : ℚ) * pow2 e) := by
  by_cases hm0 : m = 0
  · subst hm0; simp [roundFmt]
  have hq0 : (m : ℚ) * pow2 e ≠ 0 :=
    mul_ne_zero (by exact_mod_cast hm0) (pow2_pos e).ne'
  have habs : 0 < |(m : ℚ) * pow2 e| := abs_pos.mpr hq0
  obtain ⟨hE1, -⟩ := ilog2_spec _ habs
  set E := ilog2 |(m : ℚ) * pow2 e| with hE
  have hmq : |(m : ℚ)| < pow2 (f.prec : Int) := by
    have h1 : |(m : ℚ)| = ((m.natAbs : ℕ) : ℚ) := by
      rw [← Int.cast_abs, Int.abs_eq_natAbs, Int.cast_natCast]
    rw [h1, pow2_eq_zpow, zpow_natCast]
    exact_mod_cast hm
  have hlt : pow2 E < pow2 ((f.prec : Int) + e) := by
    calc pow2 E ≤ |(m : ℚ) * pow2 e| := hE1
      _ = |(m : ℚ)| * pow2 e := by rw [abs_mul, abs_of_pos (pow2_pos e)]
      _ < pow2 (f.prec : Int) * pow2 e := mul_lt_mul_of_pos_right hmq (pow2_pos e)
      _ = pow2 ((f.prec : Int) + e) := by
          rw [pow2_eq_zpow, pow2_eq_zpow, pow2_eq_zpow, zpow_add₀ (by norm_num : (2 : ℚ) ≠ 0)]
  have hEle : E < (f.prec : Int) + e := pow2_lt_pow2 _ _ hlt
  have hX : max E (1 - f.emax) - ((f.prec : Int) - 1) ≤ e := by
    rcases max_cases E (1 - f.emax) with ⟨h, -⟩ | ⟨h, -⟩ <;> rw [h] <;> omega
  obtain ⟨d, hd⟩ : ∃ d : Nat, e = max E (1 - f.emax) - ((f.prec : Int) - 1) + d :=
    ⟨(e - (max E (1 - f.emax) - ((f.prec : Int) - 1))).toNat, by omega⟩
  have hdiv : (m : ℚ) * pow2 e / pow2 (max E (1 - f.emax) - ((f.prec : Int) - 1)) =
      ((m * 2 ^ d : Int) : ℚ) := by
    rw [div_eq_iff (pow2_pos _).ne']
    conv_lhs => rw [hd]
    rw [pow2_eq_zpow, pow2_eq_zpow, zpow_add₀ (by norm_num : (2 : ℚ) ≠ 0), zpow_natCast]
    push_cast; ring
  unfold roundFmt
  rw [if_neg hq0]
  simp only [← hE]
  rw [hdiv, roundNE_intCast, ← hdiv,
    div_mul_cancel₀ _ (pow2_pos (max E (1 - f.emax) - ((f.prec : Int) - 1))).ne',
    if_neg (not_le.mpr hmax)]

theorem roundFmt_known_values :
    roundFmt binary32 (1 / 10) = Fp.fin (13421773 / 134217728) ∧
    roundFmt binary64 (1 / 10) = Fp.fin (3602879701896397 / 36028797018963968) ∧
    roundFmt binary32 16777217 = Fp.fin 16777216 ∧
    roundFmt binary32 16777219 = Fp.fin 16777220 ∧
    roundFmt binary32 (2 ^ 128 - 2 ^ 103) = Fp.pinf ∧
    roundFmt binary32 (2 ^ 128 - 2 ^ 103 - 1) = Fp.fin ((2 ^ 24 - 1) * 2 ^ 104) ∧
    roundFmt binary32 (3 * pow2 (-150)) = Fp.fin (pow2 (-148)) ∧
    roundFmt binary32 (pow2 (-150)) = Fp.fin 0 ∧
    Fp.sqrt binary64 (Fp.fin 2) = Fp.fin (6369051672525773 / 4503599627370496) ∧
    Fp.sqrt binary32 (Fp.fin 3) = Fp.fin (14529495 / 8388608) := by
  refine ⟨?_, ?_, ?_, ?_, ?_, ?_, ?_, ?_, ?_, ?_⟩ <;> decide!

/-! ## Lemmas on the volume conversions -/

theorem ratio_100 :
    Fp.round binary32 (Fp.divPos binary64
      (Fp.mul binary32 (Fp.ofInt binary32 100) (Fp.ofInt binary32 100)) 10000) = Fp.fin 1 := by
  decide!

theorem encode_zero :
    Fp.toInt (Fp.mul binary32 (Fp.ofInt binary32 256)
      (Fp.mul binary32 (Fp.ofInt binary32 10) (Fp.fin 0))) = some 0 := by
  decide!

theorem db_intmax :
    Fp.divPos binary32 (Fp.round binary32 (Fp.divPos binary64 (Fp.ofInt binary32 2147483647) 256))
      10 = Fp.fin (3355443.25 / 4) := by
  decide!

theorem clamp_range (L : Libm) (dbvalue r : Int) (h : dbvaluetopercent L dbvalue = some r) :
    0 ≤ r ∧ r ≤ 100 := by
  unfold dbvaluetopercent at h
  dsimp only at h
  split at h
  · exact absurd h (by simp)
  · rw [Option.some.injEq] at h
    subst h
    split_ifs <;> omega


/-! ## Lemmas on decimal digits -/

theorem toDigitsCore_acc (fuel n : Nat) (ds : Str) :
    Nat.toDigitsCore 10 fuel n ds = Nat.toDigitsCore 10 fuel n [] ++ ds := by
  induction fuel generalizing n ds with
  | zero => simp [Nat.toDigitsCore]
  | succ k ih =>
    simp only [Nat.toDigitsCore]
    split_ifs with h
    · simp
    · rw [ih (n / 10) (Nat.digitChar (n % 10) :: ds), ih (n / 10) [Nat.digitChar (n % 10)]]
      simp

theorem toDigitsCore_fuel (n : Nat) : ∀ fuel1 fuel2 : Nat, n < fuel1 → n < fuel2 →
    Nat.toDigitsCore 10 fuel1 n [] = Nat.toDigitsCore 10 fuel2 n [] := by
  induction n using Nat.strong_induction_on with
  | _ n ih =>
    intro fuel1 fuel2 h1 h2
    obtain ⟨k1, rfl⟩ : ∃ k, fuel1 = k + 1 := ⟨fuel1 - 1, by omega⟩
    obtain ⟨k2, rfl⟩ : ∃ k, fuel2 = k + 1 := ⟨fuel2 - 1, by omega⟩
    simp only [Nat.toDigitsCore]
    split_ifs with h
    · rfl
    · rw [toDigitsCore_acc k1, toDigitsCore_acc k2,
        ih (n / 10) (by omega) k1 k2 (by omega) (by omega)]

theorem toDigits_small (n : Nat) (h : n < 10) : Nat.toDigits 10 n = [Nat.digitChar n] := by
  unfold Nat.toDigits
  simp only [Nat.toDigitsCore]
  rw [if_pos (by omega), Nat.mod_eq_of_lt h]

theorem toDigits_step (n : Nat) (h : 10 ≤ n) :
    Nat.toDigits 10 n = Nat.toDigits 10 (n / 10) ++ [Nat.digitChar (n % 10)] := by
  have key : Nat.toDigitsCore 10 (n + 1) n [] =
      Nat.toDigitsCore 10 (n / 10 + 1) (n / 10) [] ++ [Nat.digitChar (n % 10)] := by
    rw [Nat.toDigitsCore, if_neg (by omega), toDigitsCore_acc,
      toDigitsCore_fuel (n / 10) n (n / 10 + 1) (by omega) (by omega)]
  exact key

theorem dec_eq (n : Nat) : dec n = Nat.toDigits 10 n := rfl

theorem toDigits_length_one (n : Nat) (h : n < 10) : (Nat.toDigits 10 n).length = 1 := by
  rw [toDigits_small n h]; rfl

theorem toDigits_length_two (n : Nat) (h1 : 10 ≤ n) (h2 : n < 100) :
    (Nat.toDigits 10 n).length = 2 := by
  rw [toDigits_step n h1, toDigits_small (n / 10) (by omega)]; rfl

theorem fmt_d_nonneg (v : Int) (h : 0 ≤ v) : fmt_d v = dec v.toNat := by
  unfold fmt_d fmtDigits
  rw [if_neg (by omega), dec_eq]
  congr 1
  omega

theorem fmt_02d_small (v : Int) (h0 : 0 ≤ v) (h1 : v < 100) : fmt_02d v = pad2 v.toNat := by
  have hn : v.natAbs = v.toNat := by omega
  unfold fmt_02d fmtDigits pad2
  rw [hn, dec_eq]
  simp only [if_neg (not_lt.mpr h0), List.length_nil, Nat.zero_add, List.nil_append]
  by_cases h : v.toNat < 10
  · rw [if_pos h, toDigits_length_one _ h]; rfl
  · rw [if_neg h, toDigits_length_two _ (by omega) (by omega)]; rfl

theorem upnpduration_fields (ms : Int) (h0 : 0 ≤ ms) :
    upnpduration ms = dec (ms / 3600000).toNat ++ ":".toList ++
      pad2 ((ms / 60000) % 60).toNat ++ ":".toList ++ pad2 ((ms / 1000) % 60).toNat := by
  have hh : Int.tdiv ms (3600 * 1000) = ms / 3600000 := by
    rw [Int.tdiv_eq_ediv h0 (by norm_num)]; norm_num
  have hm : Int.tdiv (ms - ms / 3600000 * 3600 * 1000) (60 * 1000) = (ms / 60000) % 60 := by
    rw [Int.tdiv_eq_ediv (by omega) (by norm_num)]; omega
  have hs : Int.tdiv (ms - ms / 3600000 * 3600 * 1000 - (ms / 60000) % 60 * 60 * 1000) 1000
      = (ms / 1000) % 60 := by
    rw [Int.tdiv_eq_ediv (by omega) (by norm_num)]; omega
  unfold upnpduration
  simp only [hh, hm, hs]
  rw [fmt_d_nonneg _ (by omega), fmt_02d_small _ (by omega) (by omega),
    fmt_02d_small _ (by omega) (by omega)]

theorem digitChar_props (n : Nat) (h : n < 10) :
    isdigit (Nat.digitChar n) = true ∧ digitVal (Nat.digitChar n) = n := by
  interval_cases n <;> exact ⟨by decide, by decide⟩

theorem toDigits_all_digits (n : Nat) : ∀ c ∈ Nat.toDigits 10 n, isdigit c = true := by
  induction n using Nat.strong_induction_on with
  | _ n ih =>
    intro c hc
    by_cases h : n < 10
    · rw [toDigits_small n h, List.mem_singleton] at hc
      rw [hc]; exact (digitChar_props n h).1
    · rw [toDigits_step n (by omega), List.mem_append, List.mem_singleton] at hc
      rcases hc with hc | hc
      · exact ih (n / 10) (by omega) c hc
      · rw [hc]; exact (digitChar_props (n % 10) (by omega)).1

theorem digitsVal_snoc (ds : Str) (c : Char) :
    digitsVal (ds ++ [c]) = 10 * digitsVal ds + digitVal c := by
  simp [digitsVal, List.foldl_append]

theorem digitsVal_toDigits (n : Nat) : digitsVal (Nat.toDigits 10 n) = n := by
  induction n using Nat.strong_induction_on with
  | _ n ih =>
    by_cases h : n < 10
    · rw [toDigits_small n h]
      simpa [digitsVal] using (digitChar_props n h).2
    · rw [toDigits_step n (by omega), digitsVal_snoc, ih (n / 10) (by omega),
        (digitChar_props (n % 10) (by omega)).2]
      omega

theorem toDigits_ne_nil (n : Nat) : Nat.toDigits 10 n ≠ [] := by
  by_cases h : n < 10
  · rw [toDigits_small n h]; simp
  · rw [toDigits_step n (by omega)]; simp

theorem digitsVal_zeros (k : Nat) (ds : Str) :
    digitsVal (List.replicate k '0' ++ ds) = digitsVal ds := by
  induction k with
  | zero => simp
  | succ k ih =>
    rw [List.replicate_succ, List.cons_append]
    have : digitsVal ('0' :: (List.replicate k '0' ++ ds)) =
        digitsVal (List.replicate k '0' ++ ds) := by
      simp [digitsVal, digitVal]
    rw [this, ih]

theorem decZ_all_digits (k n : Nat) : ∀ c ∈ decZ k n, isdigit c = true := by
  intro c hc
  unfold decZ at hc
  rw [List.mem_append] at hc
  rcases hc with hc | hc
  · rw [(List.mem_replicate.mp hc).2]; decide
  · exact toDigits_all_digits n c hc

theorem decZ_ne_nil (k n : Nat) : decZ k n ≠ [] := by
  unfold decZ
  intro h
  exact toDigits_ne_nil n (List.append_eq_nil.mp h).2

theorem digitsVal_decZ (k n : Nat) : digitsVal (decZ k n) = n := by
  unfold decZ
  rw [digitsVal_zeros, dec_eq, digitsVal_toDigits]

/-! ## Lemmas on scanning -/

theorem isspace_of_isdigit (c : Char) (h : isdigit c = true) : isspace c = false := by
  by_contra hs
  rw [Bool.not_eq_false] at hs
  unfold isspace at hs
  simp only [Bool.or_eq_true, decide_eq_true_eq] at hs
  rcases hs with ((((hs | hs) | hs) | hs) | hs) | hs <;> rw [hs] at h <;> exact absurd h (by decide)

theorem takeWhile_digits (ds rest : Str) (hds : ∀ c ∈ ds, isdigit c = true)
    (hrest : ∀ c ∈ rest.head?, isdigit c = false) :
    (ds ++ rest).takeWhile isdigit = ds ∧ (ds ++ rest).dropWhile isdigit = rest := by
  induction ds with
  | nil =>
    cases rest with
    | nil => simp
    | cons r rs =>
      have hr : isdigit r = false := hrest r (by simp)
      simp [List.takeWhile, List.dropWhile, hr]
  | cons d ds ih =>
    have hd : isdigit d = true := hds d (by simp)
    obtain ⟨h1, h2⟩ := ih (fun c hc => hds c (List.mem_cons_of_mem d hc))
    simp [List.takeWhile, List.dropWhile, hd, h1, h2]

theorem wrap32_of_fits (x : Int) (h0 : -2147483648 ≤ x) (h1 : x < 2147483648) : wrap32 x = x := by
  unfold wrap32; omega

/-- Scanning a run of digits that is followed by a non-digit (or by the end of the input)
stores the value of the run and leaves the rest of the input. -/
theorem scanInt_digits (ds rest : Str) (hne : ds ≠ []) (hds : ∀ c ∈ ds, isdigit c = true)
    (hrest : ∀ c ∈ rest.head?, isdigit c = false) :
    scanInt (ds ++ rest) = some (wrap32 (digitsVal ds), rest) := by
  obtain ⟨d, ds1, rfl⟩ := List.exists_cons_of_ne_nil hne
  have hd : isdigit d = true := hds d (by simp)
  have hsp : isspace d = false := isspace_of_isdigit d hd
  have hm : d ≠ '-' := by rintro rfl; exact absurd hd (by decide)
  have hp : d ≠ '+' := by rintro rfl; exact absurd hd (by decide)
  obtain ⟨h1, h2⟩ := takeWhile_digits (d :: ds1) rest hds hrest
  have hdrop : (d :: ds1 ++ rest).dropWhile isspace = d :: ds1 ++ rest := by
    simp [List.dropWhile, hsp]
  unfold scanInt
  simp only [hdrop]
  simp only [List.cons_append, List.head?_cons, Option.some.injEq, hm, hp, or_self, if_false,
    decide_False]
  rw [← List.cons_append, h1, h2]
  simp

theorem c_str_of_no_nul (s : Str) (h : ∀ c ∈ s, c ≠ '\x00') : c_str s = s := by
  unfold c_str
  rw [List.takeWhile_eq_self_iff]
  intro c hc
  simpa using h c hc

theorem isdigit_ne_nul (c : Char) (h : isdigit c = true) : c ≠ '\x00' := by
  rintro rfl; exact absurd h (by decide)

theorem scanInt_decZ (k n : Nat) (rest : Str) (hrest : ∀ c ∈ rest.head?, isdigit c = false) :
    scanInt (decZ k n ++ rest) = some (wrap32 n, rest) := by
  rw [scanInt_digits (decZ k n) rest (decZ_ne_nil k n) (decZ_all_digits k n) hrest,
    digitsVal_decZ]

theorem upnpdurationtos_fields (hours0 minutes0 seconds0 : Int) (a b c H M S : Nat)
    (hfit : 3600 * H + 60 * M + S < 2147483648) :
    upnpdurationtos hours0 minutes0 seconds0
      (decZ a H ++ ':' :: (decZ b M ++ ':' :: decZ c S)) = 3600 * H + 60 * M + S := by
  have hcolon : ∀ (t : Str), ∀ x ∈ (':' :: t).head?, isdigit x = false := by
    intro t x hx
    simp only [List.head?_cons, Option.mem_def, Option.some.injEq] at hx
    rw [← hx]; decide
  have hnul : ∀ x ∈ decZ a H ++ ':' :: (decZ b M ++ ':' :: decZ c S), x ≠ '\x00' := by
    intro x hx
    simp only [List.mem_append, List.mem_cons] at hx
    rcases hx with hx | hx | hx | hx | hx
    · exact isdigit_ne_nul x (decZ_all_digits a H x hx)
    · rw [hx]; decide
    · exact isdigit_ne_nul x (decZ_all_digits b M x hx)
    · rw [hx]; decide
    · exact isdigit_ne_nul x (decZ_all_digits c S x hx)
  have h3 : scanInt (decZ c S) = some (wrap32 S, []) := by
    have := scanInt_decZ c S [] (by simp)
    rwa [List.append_nil] at this
  unfold upnpdurationtos sscanf3
  rw [c_str_of_no_nul _ hnul, scanInt_decZ a H _ (hcolon _)]
  simp only [scanInt_decZ b M _ (hcolon _), h3]
  rw [wrap32_of_fits (H : Int) (by omega) (by omega), wrap32_of_fits (M : Int) (by omega) (by omega),
    wrap32_of_fits (S : Int) (by omega) (by omega)]
  exact wrap32_of_fits _ (by omega) (by omega)

/-! ## Lemmas on `didlmake` -/

theorem mapget_eq_getD (im : SongMap) (k : Str) : mapget im k = (im.lookup k).getD [] := by
  unfold mapget
  cases im.lookup k <;> rfl

theorem didlmake_eq (mpds : MpdStatus) (next : Bool) :
    didlmake mpds next = didlHead ++ (didlTitle (songmapOf mpds next) ++
      ("<upnp:class>object.item.audioItem.musicTrack</upnp:class>".toList ++
      (didlArtist (songmapOf mpds next) ++ (didlAlbum (songmapOf mpds next) ++
      (didlGenre (songmapOf mpds next) ++ (didlTrack (songmapOf mpds next) ++
      didlRes (songmapOf mpds next) mpds.songlenms)))))) := by
  simp only [didlmake, List.append_assoc]

theorem didlTitle_infix (mpds : MpdStatus) (next : Bool) :
    didlTitle (songmapOf mpds next) <:+: didlmake mpds next := by
  rw [didlmake_eq]
  exact List.infix_append' _ _ _

theorem didlArtist_infix (mpds : MpdStatus) (next : Bool) :
    didlArtist (songmapOf mpds next) <:+: didlmake mpds next := by
  rw [didlmake_eq]
  iterate 2 rw [← List.append_assoc]
  exact List.infix_append' _ _ _

theorem didlTrack_infix (mpds : MpdStatus) (next : Bool) :
    didlTrack (songmapOf mpds next) <:+: didlmake mpds next := by
  rw [didlmake_eq]
  iterate 5 rw [← List.append_assoc]
  exact List.infix_append' _ _ _

/-! ## Escaping -/

/-- C1: for every string `s`, `xmlquote s` is the in-order concatenation of the images of
the characters of `s`, where `"` maps to `&quot;`, `&` to `&amp;`, `<` to `&lt;`, `>` to
`&gt;`, `'` to `&apos;` and every other character maps to itself; and
`xmlquote "a\"b&c<d>e'f"` is `"a&quot;b&amp;c&lt;d&gt;e&apos;f"`. -/
theorem xmlquote_spec :
    (∀ s : Str, xmlquote s = (s.map escapeChar).flatten) ∧
    escapeChar '"' = "&quot;".toList ∧ escapeChar '&' = "&amp;".toList ∧
    escapeChar '<' = "&lt;".toList ∧ escapeChar '>' = "&gt;".toList ∧
    escapeChar '\'' = "&apos;".toList ∧
    (∀ c : Char, c = '"' ∨ c = '&' ∨ c = '<' ∨ c = '>' ∨ c = '\'' ∨ escapeChar c = [c]) ∧
    xmlquote "a\"b&c<d>e'f".toList = "a&quot;b&amp;c&lt;d&gt;e&apos;f".toList := by
  refine ⟨fun s => ?_, by decide, by decide, by decide, by decide, by decide, ?_, by decide⟩
  · rw [xmlquote_eq_flatMap, List.flatMap]
  · intro c
    by_cases h1 : c = '"'
    · exact Or.inl h1
    by_cases h2 : c = '&'
    · exact Or.inr (Or.inl h2)
    by_cases h3 : c = '<'
    · exact Or.inr (Or.inr (Or.inl h3))
    by_cases h4 : c = '>'
    · exact Or.inr (Or.inr (Or.inr (Or.inl h4)))
    by_cases h5 : c = '\''
    · exact Or.inr (Or.inr (Or.inr (Or.inr (Or.inl h5))))
    · exact Or.inr (Or.inr (Or.inr (Or.inr (Or.inr (by simp [escapeChar, h1, h2, h3, h4, h5])))))

/-- C2, at the input where the source departs from it: for the snapshot `badTrack`, whose
current song has the track number `<1>`, `didlmake` writes the value as it is between the
`upnp:originalTrackNumber` tags, while `xmlquote` of the value is `&lt;1&gt;`, and the
fragment has no `upnp:originalTrackNumber` element holding the escaped value. -/
theorem didlmake_track_number_raw :
    didlmake badTrack false =
      ("<DIDL-Lite xmlns:dc=\"http://purl.org/dc/elements/1.1/\" " ++
        "xmlns:upnp=\"urn:schemas-upnp-org:metadata-1-0/upnp/\" " ++
        "xmlns=\"urn:schemas-upnp-org:metadata-1-0/DIDL-Lite/\" " ++
        "xmlns:dlna=\"urn:schemas-dlna-org:metadata-1-0/\">" ++
        "<item restricted=\"1\"><dc:title></dc:title>" ++
        "<upnp:class>object.item.audioItem.musicTrack</upnp:class>" ++
        "<upnp:originalTrackNumber><1></upnp:originalTrackNumber>" ++
        "<res duration=\"0:00:00\" sampleFrequency=\"44100\" audioChannels=\"2\" " ++
        "protocolInfo=\"http-get:*:audio/mpeg:DLNA.ORG_PN=MP3;DLNA.ORG_OP=01;DLNA.ORG_CI=0;" ++
        "DLNA.ORG_FLAGS=01700000000000000000000000000000\"></res></item></DIDL-Lite>").toList ∧
    xmlquote "<1>".toList = "&lt;1&gt;".toList ∧
    ¬ ("<upnp:originalTrackNumber>&lt;1&gt;</upnp:originalTrackNumber>".toList <:+:
        didlmake badTrack false) := by
  refine ⟨by decide!, by decide, by decide!⟩

/-! ## Durations -/

/-- C3: for every `ms` with `0 ≤ ms < 2^31`, `upnpduration ms` is the unpadded decimal
rendering of `ms / 3600000`, a colon, `(ms / 60000) mod 60` zero-padded to two digits, a
colon and `(ms / 1000) mod 60` zero-padded to two digits; and `upnpduration` maps `0` to
`0:00:00`, `3661000` to `1:01:01` and `7325000` to `2:02:05`. -/
theorem upnpduration_spec (ms : Nat) (hms : ms < 2147483648) :
    upnpduration (ms : Int) =
      dec (ms / 3600000) ++ ":".toList ++ pad2 (ms / 60000 % 60) ++ ":".toList ++
        pad2 (ms / 1000 % 60) ∧
    upnpduration 0 = "0:00:00".toList ∧ upnpduration 3661000 = "1:01:01".toList ∧
    upnpduration 7325000 = "2:02:05".toList := by
  refine ⟨?_, by decide, by decide, by decide⟩
  have h1 : ((ms : Int) / 3600000).toNat = ms / 3600000 := by omega
  have h2 : ((ms : Int) / 60000 % 60).toNat = ms / 60000 % 60 := by omega
  have h3 : ((ms : Int) / 1000 % 60).toNat = ms / 1000 % 60 := by omega
  rw [upnpduration_fields (ms : Int) (by omega), h1, h2, h3]

theorem upnpduration_spec_witness :
    (125000 : Nat) < 2147483648 ∧
    (upnpduration ((125000 : Nat) : Int) =
      dec (125000 / 3600000) ++ ":".toList ++ pad2 (125000 / 60000 % 60) ++ ":".toList ++
        pad2 (125000 / 1000 % 60) ∧
    upnpduration 0 = "0:00:00".toList ∧ upnpduration 3661000 = "1:01:01".toList ∧
    upnpduration 7325000 = "2:02:05".toList) :=
  ⟨by decide, upnpduration_spec 125000 (by decide)⟩

/-! ## Volume -/

/-- C6, at the input where the source departs from it: for the largest `int`, with a C
library whose `exp10` overflows to infinity from the argument `309` on, the value that
`dbvaluetopercent` converts to `int` is infinite: the conversion is undefined and no
clamping to `100` takes place. -/
theorem dbvaluetopercent_intmax (L : Libm)
    (hover : ∀ q : ℚ, 309 ≤ q → L.exp10 (Fp.fin q) = Fp.pinf) :
    dbvaluetopercent L 2147483647 = none := by
  unfold dbvaluetopercent
  simp only [db_intmax]
  rw [hover _ (by norm_num)]
  rfl

theorem dbvaluetopercent_intmax_witness :
    (∀ q : ℚ, 309 ≤ q → coarseLibm.exp10 (Fp.fin q) = Fp.pinf) ∧
    dbvaluetopercent coarseLibm 2147483647 = none :=
  ⟨fun q hq => by simp [coarseLibm, hq],
    dbvaluetopercent_intmax coarseLibm (fun q hq => by simp [coarseLibm, hq])⟩

/-! ## Parsing a duration -/

/-- C7: for all natural numbers `H`, `M`, `S` with `3600 * H + 60 * M + S < 2^31`, and
whatever the locals hold before the scan, `upnpdurationtos` applied to the decimal
renderings of `H`, `M` and `S`, each preceded by any number of zeros and separated by
colons, returns `3600 * H + 60 * M + S`; it maps `1:01:01` to `3661` and `0:00:00`
to `0`. -/
theorem upnpdurationtos_spec (hours0 minutes0 seconds0 : Int) (a b c H M S : Nat)
    (hfit : 3600 * H + 60 * M + S < 2147483648) :
    upnpdurationtos hours0 minutes0 seconds0
      (decZ a H ++ ":".toList ++ decZ b M ++ ":".toList ++ decZ c S) =
        ((3600 * H + 60 * M + S : Nat) : Int) ∧
    upnpdurationtos hours0 minutes0 seconds0 "1:01:01".toList = 3661 ∧
    upnpdurationtos hours0 minutes0 seconds0 "0:00:00".toList = 0 := by
  refine ⟨?_, ?_, ?_⟩
  · have e : decZ a H ++ ":".toList ++ decZ b M ++ ":".toList ++ decZ c S =
        decZ a H ++ ':' :: (decZ b M ++ ':' :: decZ c S) := by
      simp [List.append_assoc]
    rw [e, upnpdurationtos_fields hours0 minutes0 seconds0 a b c H M S hfit]
    push_cast
    rfl
  · have e : "1:01:01".toList = decZ 0 1 ++ ':' :: (decZ 1 1 ++ ':' :: decZ 1 1) := by decide
    rw [e, upnpdurationtos_fields hours0 minutes0 seconds0 0 1 1 1 1 1 (by decide)]
    rfl
  · have e : "0:00:00".toList = decZ 0 0 ++ ':' :: (decZ 1 0 ++ ':' :: decZ 1 0) := by decide
    rw [e, upnpdurationtos_fields hours0 minutes0 seconds0 0 1 1 0 0 0 (by decide)]
    rfl

theorem upnpdurationtos_spec_witness :
    3600 * 12 + 60 * 5 + 7 < 2147483648 ∧
    (upnpdurationtos (-1) 77 123456
      (decZ 2 12 ++ ":".toList ++ decZ 0 5 ++ ":".toList ++ decZ 3 7) =
        ((3600 * 12 + 60 * 5 + 7 : Nat) : Int) ∧
    upnpdurationtos (-1) 77 123456 "1:01:01".toList = 3661 ∧
    upnpdurationtos (-1) 77 123456 "0:00:00".toList = 0) :=
  ⟨by decide, upnpdurationtos_spec (-1) 77 123456 2 0 3 12 5 7 (by decide)⟩

/-- C8, at the inputs where the source departs from it: on the empty text no field is
scanned and `upnpdurationtos` returns `3600 * hours + 60 * minutes + seconds` computed
from the values the uninitialised locals happen to hold, which is `1` and not `0` when
they hold `0`, `0`, `1`; on `5` and on `5:3` the fields that are missing keep those values
too. -/
theorem upnpdurationtos_missing_fields :
    (∀ hours0 minutes0 seconds0 : Int, upnpdurationtos hours0 minutes0 seconds0 [] =
      wrap32 (3600 * hours0 + 60 * minutes0 + seconds0)) ∧
    upnpdurationtos 0 0 1 [] = 1 ∧
    upnpdurationtos 0 1 0 "5".toList = 3600 * 5 + 60 ∧
    upnpdurationtos 0 0 1 "5:3".toList = 3600 * 5 + 60 * 3 + 1 := by
  refine ⟨fun hours0 minutes0 seconds0 => rfl, by decide, by decide, by decide⟩

/-! ## The fragment -/

/-- C9: for every snapshot and either value of `next`, the fragment returned by `didlmake`
contains `<dc:title>`, the escaped `dc:title` value of the selected tag map (the empty
string when the key is absent) and `</dc:title>`; when the key is absent the fragment
contains `<dc:title></dc:title>`. -/
theorem didlmake_title (mpds : MpdStatus) (next : Bool) :
    ("<dc:title>".toList ++
        xmlquote (((songmapOf mpds next).lookup "dc:title".toList).getD []) ++
        "</dc:title>".toList) <:+: didlmake mpds next ∧
    ((songmapOf mpds next).lookup "dc:title".toList = none →
      "<dc:title></dc:title>".toList <:+: didlmake mpds next) := by
  have h := didlTitle_infix mpds next
  unfold didlTitle at h
  rw [mapget_eq_getD] at h
  refine ⟨h, fun hnone => ?_⟩
  rw [hnone] at h
  exact h

theorem didlmake_title_witness :
    (songmapOf ⟨[("uri".toList, "http://x/y.mp3".toList)], [], 0⟩ false).lookup
      "dc:title".toList = none ∧
    "<dc:title></dc:title>".toList <:+:
      didlmake ⟨[("uri".toList, "http://x/y.mp3".toList)], [], 0⟩ false :=
  ⟨by decide,
    (didlmake_title ⟨[("uri".toList, "http://x/y.mp3".toList)], [], 0⟩ false).2 (by decide)⟩

/-- C10: for every snapshot whose selected tag map binds `upnp:artist` to a non-empty
value `v`, the fragment returned by `didlmake` contains `<dc:creator>`, `xmlquote v`,
`</dc:creator><upnp:artist>`, `xmlquote v` and `</upnp:artist>` in a row; when `v` is
`A & B` it contains `<dc:creator>A &amp; B</dc:creator>` and
`<upnp:artist>A &amp; B</upnp:artist>`. -/
theorem didlmake_artist (mpds : MpdStatus) (next : Bool) (v : Str)
    (hv : (songmapOf mpds next).lookup "upnp:artist".toList = some v) (hne : v ≠ []) :
    ("<dc:creator>".toList ++ xmlquote v ++ "</dc:creator><upnp:artist>".toList ++ xmlquote v ++
        "</upnp:artist>".toList) <:+: didlmake mpds next ∧
    (v = "A & B".toList →
      "<dc:creator>A &amp; B</dc:creator>".toList <:+: didlmake mpds next ∧
      "<upnp:artist>A &amp; B</upnp:artist>".toList <:+: didlmake mpds next) := by
  have h := didlArtist_infix mpds next
  have hm : mapget (songmapOf mpds next) "upnp:artist".toList = v := by
    rw [mapget_eq_getD, hv]; rfl
  unfold didlArtist at h
  simp only [hm, ne_eq, hne, not_false_eq_true, if_true] at h
  have h1 : ("<dc:creator>".toList ++ xmlquote v ++ "</dc:creator><upnp:artist>".toList ++
      xmlquote v ++ "</upnp:artist>".toList) <:+: didlmake mpds next := by
    have e : "<dc:creator>".toList ++ xmlquote v ++ "</dc:creator><upnp:artist>".toList ++
        xmlquote v ++ "</upnp:artist>".toList =
        "<dc:creator>".toList ++ xmlquote v ++ "</dc:creator>".toList ++
          "<upnp:artist>".toList ++ xmlquote v ++ "</upnp:artist>".toList := by
      have : "</dc:creator><upnp:artist>".toList =
          "</dc:creator>".toList ++ "<upnp:artist>".toList := by decide
      rw [this]; simp only [List.append_assoc]
    rw [e]; exact h
  refine ⟨h1, fun hab => ?_⟩
  subst hab
  have hq : xmlquote "A & B".toList = "A &amp; B".toList := by decide
  rw [hq] at h
  constructor
  · refine List.IsInfix.trans ⟨[], "<upnp:artist>".toList ++ "A &amp; B".toList ++
      "</upnp:artist>".toList, ?_⟩ h
    decide
  · refine List.IsInfix.trans ⟨"<dc:creator>".toList ++ "A &amp; B".toList ++
      "</dc:creator>".toList, [], ?_⟩ h
    decide

theorem didlmake_artist_witness :
    (songmapOf ⟨[], [("upnp:artist".toList, "A & B".toList)], 1000⟩ true).lookup
      "upnp:artist".toList = some "A & B".toList ∧
    "A & B".toList ≠ [] ∧
    ("<dc:creator>A &amp; B</dc:creator><upnp:artist>A &amp; B</upnp:artist>".toList <:+:
      didlmake ⟨[], [("upnp:artist".toList, "A & B".toList)], 1000⟩ true) ∧
    "<dc:creator>A &amp; B</dc:creator>".toList <:+:
      didlmake ⟨[], [("upnp:artist".toList, "A & B".toList)], 1000⟩ true ∧
    "<upnp:artist>A &amp; B</upnp:artist>".toList <:+:
      didlmake ⟨[], [("upnp:artist".toList, "A & B".toList)], 1000⟩ true :=
  ⟨by decide, by decide, (didlmake_artist ⟨[], [("upnp:artist".toList, "A & B".toList)], 1000⟩ true "A & B".toList
      (by decide) (by decide)).1,
    (didlmake_artist ⟨[], [("upnp:artist".toList, "A & B".toList)], 1000⟩ true "A & B".toList
      (by decide) (by decide)).2 rfl⟩

/-! ## Lemmas on the length of `xmlquote` -/

theorem escapeChar_length_pos (c : Char) : 1 ≤ (escapeChar c).length := by
  unfold escapeChar
  split_ifs <;> simp

theorem escapeChar_length_reserved (c : Char) (h : isReserved c = true) :
    1 < (escapeChar c).length := by
  unfold isReserved at h
  simp only [Bool.or_eq_true, decide_eq_true_eq] at h
  rcases h with (((h | h) | h) | h) | h <;> subst h <;> decide

theorem amp_mem_escapeChar (c : Char) (h : isReserved c = true) : '&' ∈ escapeChar c := by
  unfold isReserved at h
  simp only [Bool.or_eq_true, decide_eq_true_eq] at h
  rcases h with (((h | h) | h) | h) | h <;> subst h <;> decide

theorem xmlquote_cons (c : Char) (s : Str) : xmlquote (c :: s) = escapeChar c ++ xmlquote s := by
  rw [xmlquote_eq_flatMap, xmlquote_eq_flatMap, List.flatMap_cons]

theorem xmlquote_nil : xmlquote [] = [] := rfl

theorem xmlquote_length_le (s : Str) : s.length ≤ (xmlquote s).length := by
  induction s with
  | nil => simp [xmlquote_nil]
  | cons c s ih =>
    rw [xmlquote_cons, List.length_append, List.length_cons]
    have := escapeChar_length_pos c
    omega

theorem xmlquote_length_lt (s : Str) (h : ∃ c ∈ s, isReserved c = true) :
    s.length < (xmlquote s).length := by
  induction s with
  | nil => obtain ⟨c, hc, -⟩ := h; simp at hc
  | cons d s ih =>
    rw [xmlquote_cons, List.length_append, List.length_cons]
    obtain ⟨c, hc, hr⟩ := h
    rcases List.mem_cons.mp hc with rfl | hc
    · have h1 := escapeChar_length_reserved c hr
      have h2 := xmlquote_length_le s
      omega
    · have h1 := escapeChar_length_pos d
      have h2 := ih ⟨c, hc, hr⟩
      omega

theorem amp_mem_xmlquote (s : Str) (h : ∃ c ∈ s, isReserved c = true) : '&' ∈ xmlquote s := by
  obtain ⟨c, hc, hr⟩ := h
  rw [xmlquote_eq_flatMap, List.mem_flatMap]
  exact ⟨c, hc, amp_mem_escapeChar c hr⟩

/-! ## Lemmas on the shape of `xmlquote` -/

theorem escapeChar_cases (c : Char) :
    (c = '"' ∧ escapeChar c = ['&', 'q', 'u', 'o', 't', ';']) ∨
    (c = '&' ∧ escapeChar c = ['&', 'a', 'm', 'p', ';']) ∨
    (c = '<' ∧ escapeChar c = ['&', 'l', 't', ';']) ∨
    (c = '>' ∧ escapeChar c = ['&', 'g', 't', ';']) ∨
    (c = '\'' ∧ escapeChar c = ['&', 'a', 'p', 'o', 's', ';']) ∨
    (isReserved c = false ∧ escapeChar c = [c]) := by
  by_cases h1 : c = '"'
  · subst h1; exact Or.inl ⟨rfl, by decide⟩
  by_cases h2 : c = '&'
  · subst h2; exact Or.inr (Or.inl ⟨rfl, by decide⟩)
  by_cases h3 : c = '<'
  · subst h3; exact Or.inr (Or.inr (Or.inl ⟨rfl, by decide⟩))
  by_cases h4 : c = '>'
  · subst h4; exact Or.inr (Or.inr (Or.inr (Or.inl ⟨rfl, by decide⟩)))
  by_cases h5 : c = '\''
  · subst h5; exact Or.inr (Or.inr (Or.inr (Or.inr (Or.inl ⟨rfl, by decide⟩))))
  · exact Or.inr (Or.inr (Or.inr (Or.inr (Or.inr
      ⟨by simp [isReserved, h1, h2, h3, h4, h5], by simp [escapeChar, h1, h2, h3, h4, h5]⟩))))

theorem not_reserved_ne (c : Char) (h : isReserved c = false) :
    c ≠ '"' ∧ c ≠ '&' ∧ c ≠ '<' ∧ c ≠ '>' ∧ c ≠ '\'' := by
  unfold isReserved at h
  simp only [Bool.or_eq_false_iff, decide_eq_false_iff_not] at h
  obtain ⟨⟨⟨⟨h1, h2⟩, h3⟩, h4⟩, h5⟩ := h
  exact ⟨h1, h2, h3, h4, h5⟩

theorem escapeChar_cancel (c1 c2 : Char) (r1 r2 : Str)
    (h : escapeChar c1 ++ r1 = escapeChar c2 ++ r2) : c1 = c2 ∧ r1 = r2 := by
  rcases escapeChar_cases c1 with ⟨a1, e1⟩ | ⟨a1, e1⟩ | ⟨a1, e1⟩ | ⟨a1, e1⟩ | ⟨a1, e1⟩ | ⟨a1, e1⟩ <;>
  rcases escapeChar_cases c2 with ⟨a2, e2⟩ | ⟨a2, e2⟩ | ⟨a2, e2⟩ | ⟨a2, e2⟩ | ⟨a2, e2⟩ | ⟨a2, e2⟩ <;>
  rw [e1, e2] at h <;>
  simp only [List.cons_append, List.nil_append, List.cons.injEq, Char.reduceEq, false_and,
    and_false, true_and] at h <;>
  first
    | exact ⟨a1.trans a2.symm, h⟩
    | exact absurd h.1 (not_reserved_ne c1 a1).2.1
    | exact absurd h.1.symm (not_reserved_ne c2 a2).2.1
    | exact h

theorem escapeChar_ne_nil (c : Char) : escapeChar c ≠ [] := by
  intro h
  have := escapeChar_length_pos c
  rw [h] at this
  simp at this

theorem escapeChar_no_raw (c : Char) :
    ∀ x ∈ escapeChar c, x ≠ '"' ∧ x ≠ '<' ∧ x ≠ '>' ∧ x ≠ '\'' := by
  intro x hx
  rcases escapeChar_cases c with ⟨-, e⟩ | ⟨-, e⟩ | ⟨-, e⟩ | ⟨-, e⟩ | ⟨-, e⟩ | ⟨a, e⟩
  all_goals rw [e] at hx
  · simp only [List.mem_cons, List.mem_singleton, List.not_mem_nil, or_false] at hx
    rcases hx with rfl | rfl | rfl | rfl | rfl | rfl <;> decide
  · simp only [List.mem_cons, List.mem_singleton, List.not_mem_nil, or_false] at hx
    rcases hx with rfl | rfl | rfl | rfl | rfl <;> decide
  · simp only [List.mem_cons, List.mem_singleton, List.not_mem_nil, or_false] at hx
    rcases hx with rfl | rfl | rfl | rfl <;> decide
  · simp only [List.mem_cons, List.mem_singleton, List.not_mem_nil, or_false] at hx
    rcases hx with rfl | rfl | rfl | rfl <;> decide
  · simp only [List.mem_cons, List.mem_singleton, List.not_mem_nil, or_false] at hx
    rcases hx with rfl | rfl | rfl | rfl | rfl | rfl <;> decide
  · rw [List.mem_singleton] at hx
    subst hx
    obtain ⟨h1, -, h3, h4, h5⟩ := not_reserved_ne x a
    exact ⟨h1, h3, h4, h5⟩

theorem xmlquote_no_raw (s : Str) :
    ∀ x ∈ xmlquote s, x ≠ '"' ∧ x ≠ '<' ∧ x ≠ '>' ∧ x ≠ '\'' := by
  intro x hx
  rw [xmlquote_eq_flatMap, List.mem_flatMap] at hx
  obtain ⟨c, -, hc⟩ := hx
  exact escapeChar_no_raw c x hc

theorem escapeChar_amp_split (c : Char) (pre body : Str)
    (h : escapeChar c = pre ++ '&' :: body) :
    pre = [] ∧ (body = "quot;".toList ∨ body = "amp;".toList ∨ body = "lt;".toList ∨
      body = "gt;".toList ∨ body = "apos;".toList) := by
  have key : ∀ (t : Str), '&' ∉ t → '&' :: t = pre ++ '&' :: body → pre = [] ∧ body = t := by
    intro t ht e
    cases pre with
    | nil =>
      rw [List.nil_append, List.cons.injEq] at e
      exact ⟨rfl, e.2.symm⟩
    | cons p pre1 =>
      rw [List.cons_append, List.cons.injEq] at e
      exact absurd (by rw [e.2]; simp : '&' ∈ t) ht
  rcases escapeChar_cases c with ⟨-, e⟩ | ⟨-, e⟩ | ⟨-, e⟩ | ⟨-, e⟩ | ⟨-, e⟩ | ⟨a, e⟩
  · obtain ⟨h1, h2⟩ := key _ (by decide) (e.symm.trans h)
    exact ⟨h1, Or.inl h2⟩
  · obtain ⟨h1, h2⟩ := key _ (by decide) (e.symm.trans h)
    exact ⟨h1, Or.inr (Or.inl h2)⟩
  · obtain ⟨h1, h2⟩ := key _ (by decide) (e.symm.trans h)
    exact ⟨h1, Or.inr (Or.inr (Or.inl h2))⟩
  · obtain ⟨h1, h2⟩ := key _ (by decide) (e.symm.trans h)
    exact ⟨h1, Or.inr (Or.inr (Or.inr (Or.inl h2)))⟩
  · obtain ⟨h1, h2⟩ := key _ (by decide) (e.symm.trans h)
    exact ⟨h1, Or.inr (Or.inr (Or.inr (Or.inr h2)))⟩
  · rw [e] at h
    cases pre with
    | nil =>
      rw [List.nil_append, List.cons.injEq] at h
      exact absurd h.1 (not_reserved_ne c a).2.1
    | cons p pre1 =>
      rw [List.cons_append, List.cons.injEq] at h
      exact absurd h.2 (by simp)

theorem xmlquote_amp_followed (s : Str) : ∀ pre suf : Str, xmlquote s = pre ++ '&' :: suf →
    "quot;".toList <+: suf ∨ "amp;".toList <+: suf ∨ "lt;".toList <+: suf ∨
      "gt;".toList <+: suf ∨ "apos;".toList <+: suf := by
  induction s with
  | nil =>
    intro pre suf h
    rw [xmlquote_nil] at h
    exact absurd h.symm (by simp)
  | cons c s ih =>
    intro pre suf h
    rw [xmlquote_cons, List.append_eq_append_iff] at h
    rcases h with ⟨a1, -, h2⟩ | ⟨c1, h1, h2⟩
    · exact ih a1 suf h2
    · cases c1 with
      | nil =>
        rw [List.nil_append] at h2
        exact ih [] suf (by rw [List.nil_append]; exact h2.symm)
      | cons x c2 =>
        rw [List.cons_append, List.cons.injEq] at h2
        obtain ⟨hx, hsuf⟩ := h2
        subst hx
        obtain ⟨-, hb⟩ := escapeChar_amp_split c pre c2 h1
        rw [hsuf]
        rcases hb with hb | hb | hb | hb | hb <;> subst hb
        · exact Or.inl (List.prefix_append _ _)
        · exact Or.inr (Or.inl (List.prefix_append _ _))
        · exact Or.inr (Or.inr (Or.inl (List.prefix_append _ _)))
        · exact Or.inr (Or.inr (Or.inr (Or.inl (List.prefix_append _ _))))
        · exact Or.inr (Or.inr (Or.inr (Or.inr (List.prefix_append _ _))))

/-! ## Lemmas on occurrences -/

theorem isPrefixOf_append_right (pat s t : Str) (h : pat.isPrefixOf s = true) :
    pat.isPrefixOf (s ++ t) = true := by
  rw [List.isPrefixOf_iff_prefix] at h ⊢
  exact h.trans (List.prefix_append s t)

theorem clashB_no_match : ∀ (pat s t : Str), clashB pat s = true →
    pat.isPrefixOf (s ++ t) = false
  | [], _, _, h => by simp [clashB] at h
  | _ :: _, [], _, h => by simp [clashB] at h
  | p :: pat, c :: s, t, h => by
    rw [clashB, Bool.or_eq_true] at h
    rw [List.cons_append, List.isPrefixOf]
    rcases h with h | h
    · have hpc : (p == c) = false := by simpa using h
      rw [hpc, Bool.false_and]
    · rw [clashB_no_match pat s t h, Bool.and_false]

theorem occurrences_cons (pat : Str) (c : Char) (s : Str) :
    occurrences pat (c :: s) = (if pat.isPrefixOf (c :: s) then 1 else 0) + occurrences pat s :=
  rfl

/-- A literal whose positions are all decided adds its own occurrences. -/
theorem occurrences_lit (pat : Str) (hpat : pat ≠ []) : ∀ (lit t : Str), decidedB pat lit = true →
    occurrences pat (lit ++ t) = occurrences pat lit + occurrences pat t
  | [], t, _ => by
    have h0 : occurrences pat [] = 0 := by
      cases pat with
      | nil => exact absurd rfl hpat
      | cons p ps => rfl
    rw [List.nil_append, h0, Nat.zero_add]
  | c :: lit, t, h => by
    rw [decidedB, Bool.and_eq_true, Bool.or_eq_true] at h
    obtain ⟨h1, h2⟩ := h
    rw [List.cons_append, occurrences_cons, occurrences_cons, occurrences_lit pat hpat lit t h2]
    have e : pat.isPrefixOf (c :: (lit ++ t)) = pat.isPrefixOf (c :: lit) := by
      rcases h1 with h1 | h1
      · rw [h1, ← List.cons_append, isPrefixOf_append_right _ _ _ h1]
      · have a := clashB_no_match pat (c :: lit) t h1
        have b := clashB_no_match pat (c :: lit) [] h1
        rw [List.append_nil] at b
        rw [← List.cons_append, a, b]
    rw [e, Nat.add_assoc]

theorem occurrences_quiet (pat lit t : Str) (hpat : pat ≠ []) (h : quietB pat lit = true) :
    occurrences pat (lit ++ t) = occurrences pat t := by
  rw [quietB, Bool.and_eq_true, beq_iff_eq] at h
  rw [occurrences_lit pat hpat lit t h.1, h.2, Nat.zero_add]

/-- A text without the first character of the pattern adds no occurrence. -/
theorem occurrences_safe (x : Char) (pat : Str) : ∀ (a t : Str), (∀ c ∈ a, c ≠ x) →
    occurrences (x :: pat) (a ++ t) = occurrences (x :: pat) t
  | [], t, _ => by rw [List.nil_append]
  | c :: a, t, h => by
    have hc : (x == c) = false := by
      have := h c (by simp)
      simpa using fun e : x = c => this e.symm
    rw [List.cons_append, occurrences_cons, List.isPrefixOf, hc, Bool.false_and,
      occurrences_safe x pat a t (fun d hd => h d (List.mem_cons_of_mem c hd))]
    simp

theorem occurrences_pos_iff (pat : Str) : ∀ s : Str, 0 < occurrences pat s ↔ pat <:+: s
  | [] => by
    rw [occurrences]
    constructor
    · intro h
      split_ifs at h with hp
      · rw [List.isPrefixOf_iff_prefix] at hp
        exact hp.isInfix
      · omega
    · intro h
      have hp : pat = [] := List.eq_nil_of_infix_nil h
      subst hp
      simp
  | c :: s => by
    rw [occurrences_cons, List.infix_cons_iff, ← occurrences_pos_iff pat s]
    constructor
    · intro h
      by_cases hp : pat.isPrefixOf (c :: s) = true
      · exact Or.inl (List.isPrefixOf_iff_prefix.mp hp)
      · rw [if_neg hp] at h
        exact Or.inr (by omega)
    · rintro (h | h)
      · rw [if_pos (List.isPrefixOf_iff_prefix.mpr h)]
        omega
      · omega

/-! ## Lemmas on the occurrences of a tag in the fragment -/

theorem isdigit_ne_lt (c : Char) (h : isdigit c = true) : c ≠ '<' := by
  rintro rfl; exact absurd h (by decide)

theorem fmtDigits_no_lt (v : Int) : ∀ c ∈ fmtDigits v, c ≠ '<' :=
  fun c hc => isdigit_ne_lt c (toDigits_all_digits _ c hc)

theorem fmt_d_no_lt (v : Int) : ∀ c ∈ fmt_d v, c ≠ '<' := by
  intro c hc
  unfold fmt_d at hc
  split_ifs at hc
  · rcases List.mem_cons.mp hc with rfl | hc
    · decide
    · exact fmtDigits_no_lt v c hc
  · exact fmtDigits_no_lt v c hc

theorem fmt_02d_no_lt (v : Int) : ∀ c ∈ fmt_02d v, c ≠ '<' := by
  intro c hc
  unfold fmt_02d at hc
  simp only [List.mem_append] at hc
  rcases hc with (hc | hc) | hc
  · split_ifs at hc
    · rw [List.mem_singleton] at hc; subst hc; decide
    · simp at hc
  · rw [(List.mem_replicate.mp hc).2]; decide
  · exact fmtDigits_no_lt v c hc

theorem upnpduration_no_lt (ms : Int) : ∀ c ∈ upnpduration ms, c ≠ '<' := by
  intro c hc
  unfold upnpduration at hc
  simp only [List.mem_append] at hc
  rcases hc with (((hc | hc) | hc) | hc) | hc
  · exact fmt_d_no_lt _ c hc
  · have : c = ':' := by simpa using hc
    subst this; decide
  · exact fmt_02d_no_lt _ c hc
  · have : c = ':' := by simpa using hc
    subst this; decide
  · exact fmt_02d_no_lt _ c hc

theorem xmlquote_no_lt (s : Str) : ∀ c ∈ xmlquote s, c ≠ '<' :=
  fun c hc => (xmlquote_no_raw s c hc).2.1

theorem didlTitle_quiet (pat : Str) (sm : SongMap) (t : Str)
    (h1 : quietB ('<' :: pat) "<dc:title>".toList = true)
    (h2 : quietB ('<' :: pat) "</dc:title>".toList = true) :
    occurrences ('<' :: pat) (didlTitle sm ++ t) = occurrences ('<' :: pat) t := by
  unfold didlTitle
  rw [List.append_assoc, List.append_assoc, occurrences_quiet _ _ _ (by simp) h1,
    occurrences_safe _ _ _ _ (xmlquote_no_lt _), occurrences_quiet _ _ _ (by simp) h2]

theorem didlArtist_quiet (pat : Str) (sm : SongMap) (t : Str)
    (h1 : quietB ('<' :: pat) "<dc:creator>".toList = true)
    (h2 : quietB ('<' :: pat) "</dc:creator>".toList = true)
    (h3 : quietB ('<' :: pat) "<upnp:artist>".toList = true)
    (h4 : quietB ('<' :: pat) "</upnp:artist>".toList = true) :
    occurrences ('<' :: pat) (didlArtist sm ++ t) = occurrences ('<' :: pat) t := by
  unfold didlArtist
  by_cases hv : mapget sm "upnp:artist".toList = []
  · simp only [hv, ne_eq, not_true_eq_false, if_false, List.nil_append]
  · simp only [ne_eq, hv, not_false_eq_true, if_true, List.append_assoc]
    rw [occurrences_quiet _ _ _ (by simp) h1, occurrences_safe _ _ _ _ (xmlquote_no_lt _),
      occurrences_quiet _ _ _ (by simp) h2, occurrences_quiet _ _ _ (by simp) h3,
      occurrences_safe _ _ _ _ (xmlquote_no_lt _), occurrences_quiet _ _ _ (by simp) h4]

theorem didlAlbum_quiet (pat : Str) (sm : SongMap) (t : Str)
    (h1 : quietB ('<' :: pat) "<upnp:album>".toList = true)
    (h2 : quietB ('<' :: pat) "</upnp:album>".toList = true) :
    occurrences ('<' :: pat) (didlAlbum sm ++ t) = occurrences ('<' :: pat) t := by
  unfold didlAlbum
  by_cases hv : mapget sm "upnp:album".toList = []
  · simp only [hv, ne_eq, not_true_eq_false, if_false, List.nil_append]
  · simp only [ne_eq, hv, not_false_eq_true, if_true, List.append_assoc]
    rw [occurrences_quiet _ _ _ (by simp) h1, occurrences_safe _ _ _ _ (xmlquote_no_lt _),
      occurrences_quiet _ _ _ (by simp) h2]

theorem didlGenre_quiet (pat : Str) (sm : SongMap) (t : Str)
    (h1 : quietB ('<' :: pat) "<upnp:genre>".toList = true)
    (h2 : quietB ('<' :: pat) "</upnp:genre>".toList = true) :
    occurrences ('<' :: pat) (didlGenre sm ++ t) = occurrences ('<' :: pat) t := by
  unfold didlGenre
  by_cases hv : mapget sm "upnp:genre".toList = []
  · simp only [hv, ne_eq, not_true_eq_false, if_false, List.nil_append]
  · simp only [ne_eq, hv, not_false_eq_true, if_true, List.append_assoc]
    rw [occurrences_quiet _ _ _ (by simp) h1, occurrences_safe _ _ _ _ (xmlquote_no_lt _),
      occurrences_quiet _ _ _ (by simp) h2]

theorem didlTrack_quiet (pat : Str) (sm : SongMap) (t : Str)
    (hval : ∀ c ∈ mapget sm "upnp:originalTrackNumber".toList, c ≠ '<')
    (h1 : quietB ('<' :: pat) "<upnp:originalTrackNumber>".toList = true)
    (h2 : quietB ('<' :: pat) "</upnp:originalTrackNumber>".toList = true) :
    occurrences ('<' :: pat) (didlTrack sm ++ t) = occurrences ('<' :: pat) t := by
  unfold didlTrack
  by_cases hv : mapget sm "upnp:originalTrackNumber".toList = []
  · simp only [hv, ne_eq, not_true_eq_false, if_false, List.nil_append]
  · simp only [ne_eq, hv, not_false_eq_true, if_true, List.append_assoc]
    rw [occurrences_quiet _ _ _ (by simp) h1, occurrences_safe _ _ _ _ hval,
      occurrences_quiet _ _ _ (by simp) h2]

theorem didlRes_occurrences (pat : Str) (sm : SongMap) (len : Int)
    (h1 : quietB ('<' :: pat) "<res ".toList = true)
    (h2 : quietB ('<' :: pat) "duration=\"".toList = true)
    (h3 : quietB ('<' :: pat) "\" ".toList = true)
    (h4 : quietB ('<' :: pat) "sampleFrequency=\"44100\" audioChannels=\"2\" ".toList = true)
    (h5 : quietB ('<' :: pat)
      ("protocolInfo=\"http-get:*:audio/mpeg:DLNA.ORG_PN=MP3;DLNA.ORG_OP=01;DLNA.ORG_CI=0;" ++
        "DLNA.ORG_FLAGS=01700000000000000000000000000000\"").toList = true)
    (h6 : quietB ('<' :: pat) ">".toList = true)
    (h7 : quietB ('<' :: pat) "</res>".toList = true) :
    occurrences ('<' :: pat) (didlRes sm len) =
      occurrences ('<' :: pat) "</item></DIDL-Lite>".toList := by
  unfold didlRes
  simp only [List.append_assoc]
  rw [occurrences_quiet _ _ _ (by simp) h1, occurrences_quiet _ _ _ (by simp) h2,
    occurrences_safe _ _ _ _ (upnpduration_no_lt _), occurrences_quiet _ _ _ (by simp) h3,
    occurrences_quiet _ _ _ (by simp) h4, occurrences_quiet _ _ _ (by simp) h5,
    occurrences_quiet _ _ _ (by simp) h6, occurrences_safe _ _ _ _ (xmlquote_no_lt _),
    occurrences_quiet _ _ _ (by simp) h7]

theorem didlmake_occurrences (pat : Str) (mpds : MpdStatus) (next : Bool)
    (hhead : decidedB ('<' :: pat) didlHead = true)
    (htitle : ∀ t, occurrences ('<' :: pat) (didlTitle (songmapOf mpds next) ++ t) =
      occurrences ('<' :: pat) t)
    (hclass : quietB ('<' :: pat)
      "<upnp:class>object.item.audioItem.musicTrack</upnp:class>".toList = true)
    (hartist : ∀ t, occurrences ('<' :: pat) (didlArtist (songmapOf mpds next) ++ t) =
      occurrences ('<' :: pat) t)
    (halbum : ∀ t, occurrences ('<' :: pat) (didlAlbum (songmapOf mpds next) ++ t) =
      occurrences ('<' :: pat) t)
    (hgenre : ∀ t, occurrences ('<' :: pat) (didlGenre (songmapOf mpds next) ++ t) =
      occurrences ('<' :: pat) t)
    (htrack : ∀ t, occurrences ('<' :: pat) (didlTrack (songmapOf mpds next) ++ t) =
      occurrences ('<' :: pat) t) :
    occurrences ('<' :: pat) (didlmake mpds next) =
      occurrences ('<' :: pat) didlHead +
        occurrences ('<' :: pat) (didlRes (songmapOf mpds next) mpds.songlenms) := by
  rw [didlmake_eq, occurrences_lit _ (by simp) _ _ hhead, htitle,
    occurrences_quiet _ _ _ (by simp) hclass, hartist, halbum, hgenre, htrack]

theorem didlHead_leads (mpds : MpdStatus) (next : Bool) : didlHead <+: didlmake mpds next := by
  rw [didlmake_eq]
  exact List.prefix_append _ _

theorem didlRes_trails (mpds : MpdStatus) (next : Bool) :
    didlRes (songmapOf mpds next) mpds.songlenms <:+ didlmake mpds next := by
  unfold didlmake
  exact List.suffix_append _ _

theorem didlClose_trails (sm : SongMap) (len : Int) :
    "</item></DIDL-Lite>".toList <:+ didlRes sm len := by
  unfold didlRes
  exact List.suffix_append _ _

/-- With a track number free of `<`, the fragment has one opening and one closing tag of
the item. -/
theorem didlmake_item_count (mpds : MpdStatus) (next : Bool)
    (hval : ∀ c ∈ mapget (songmapOf mpds next) "upnp:originalTrackNumber".toList, c ≠ '<') :
    occurrences "<item".toList (didlmake mpds next) = 1 ∧
    occurrences "</item>".toList (didlmake mpds next) = 1 := by
  constructor
  · have e : "<item".toList = '<' :: "item".toList := by decide
    rw [e, didlmake_occurrences "item".toList mpds next (by decide!)
      (fun t => didlTitle_quiet _ _ t (by decide) (by decide)) (by decide!)
      (fun t => didlArtist_quiet _ _ t (by decide) (by decide) (by decide) (by decide))
      (fun t => didlAlbum_quiet _ _ t (by decide) (by decide))
      (fun t => didlGenre_quiet _ _ t (by decide) (by decide))
      (fun t => didlTrack_quiet _ _ t hval (by decide!) (by decide!)),
      didlRes_occurrences _ _ _ (by decide) (by decide) (by decide) (by decide!) (by decide!)
        (by decide) (by decide)]
    decide!
  · have e : "</item>".toList = '<' :: "/item>".toList := by decide
    rw [e, didlmake_occurrences "/item>".toList mpds next (by decide!)
      (fun t => didlTitle_quiet _ _ t (by decide) (by decide)) (by decide!)
      (fun t => didlArtist_quiet _ _ t (by decide) (by decide) (by decide) (by decide))
      (fun t => didlAlbum_quiet _ _ t (by decide) (by decide))
      (fun t => didlGenre_quiet _ _ t (by decide) (by decide))
      (fun t => didlTrack_quiet _ _ t hval (by decide!) (by decide!)),
      didlRes_occurrences _ _ _ (by decide) (by decide) (by decide) (by decide!) (by decide!)
        (by decide) (by decide)]
    decide!

theorem didlArtist_nil (sm : SongMap) (h : mapget sm "upnp:artist".toList = []) :
    didlArtist sm = [] := by
  unfold didlArtist
  simp only [h, ne_eq, not_true_eq_false, if_false]

theorem didlAlbum_nil (sm : SongMap) (h : mapget sm "upnp:album".toList = []) :
    didlAlbum sm = [] := by
  unfold didlAlbum
  simp only [h, ne_eq, not_true_eq_false, if_false]

theorem didlGenre_nil (sm : SongMap) (h : mapget sm "upnp:genre".toList = []) :
    didlGenre sm = [] := by
  unfold didlGenre
  simp only [h, ne_eq, not_true_eq_false, if_false]

theorem didlTrack_nil (sm : SongMap) (h : mapget sm "upnp:originalTrackNumber".toList = []) :
    didlTrack sm = [] := by
  unfold didlTrack
  simp only [h, ne_eq, not_true_eq_false, if_false]

theorem not_infix_of_occurrences (pat s : Str) (h : occurrences pat s = 0) : ¬ pat <:+: s := by
  rw [← occurrences_pos_iff, h]
  exact Nat.lt_irrefl 0

/-- With a track number free of `<`, a conditional tag that is absent or empty leaves no
opening tag of its element in the fragment. -/
theorem didlmake_absent_tags (mpds : MpdStatus) (next : Bool)
    (hval : ∀ c ∈ mapget (songmapOf mpds next) "upnp:originalTrackNumber".toList, c ≠ '<') :
    (mapget (songmapOf mpds next) "upnp:artist".toList = [] →
      ¬ "<dc:creator>".toList <:+: didlmake mpds next ∧
      ¬ "<upnp:artist>".toList <:+: didlmake mpds next) ∧
    (mapget (songmapOf mpds next) "upnp:album".toList = [] →
      ¬ "<upnp:album>".toList <:+: didlmake mpds next) ∧
    (mapget (songmapOf mpds next) "upnp:genre".toList = [] →
      ¬ "<upnp:genre>".toList <:+: didlmake mpds next) ∧
    (mapget (songmapOf mpds next) "upnp:originalTrackNumber".toList = [] →
      ¬ "<upnp:originalTrackNumber>".toList <:+: didlmake mpds next) := by
  refine ⟨fun h => ⟨?_, ?_⟩, fun h => ?_, fun h => ?_, fun h => ?_⟩
  · apply not_infix_of_occurrences
    have e : "<dc:creator>".toList = '<' :: "dc:creator>".toList := by decide
    rw [e, didlmake_occurrences "dc:creator>".toList mpds next (by decide!)
      (fun t => didlTitle_quiet _ _ t (by decide) (by decide)) (by decide!)
      (fun t => by rw [didlArtist_nil _ h, List.nil_append])
      (fun t => didlAlbum_quiet _ _ t (by decide) (by decide))
      (fun t => didlGenre_quiet _ _ t (by decide) (by decide))
      (fun t => didlTrack_quiet _ _ t hval (by decide!) (by decide!)),
      didlRes_occurrences _ _ _ (by decide) (by decide) (by decide) (by decide!) (by decide!)
        (by decide) (by decide)]
    decide!
  · apply not_infix_of_occurrences
    have e : "<upnp:artist>".toList = '<' :: "upnp:artist>".toList := by decide
    rw [e, didlmake_occurrences "upnp:artist>".toList mpds next (by decide!)
      (fun t => didlTitle_quiet _ _ t (by decide) (by decide)) (by decide!)
      (fun t => by rw [didlArtist_nil _ h, List.nil_append])
      (fun t => didlAlbum_quiet _ _ t (by decide) (by decide))
      (fun t => didlGenre_quiet _ _ t (by decide) (by decide))
      (fun t => didlTrack_quiet _ _ t hval (by decide!) (by decide!)),
      didlRes_occurrences _ _ _ (by decide) (by decide) (by decide) (by decide!) (by decide!)
        (by decide) (by decide)]
    decide!
  · apply not_infix_of_occurrences
    have e : "<upnp:album>".toList = '<' :: "upnp:album>".toList := by decide
    rw [e, didlmake_occurrences "upnp:album>".toList mpds next (by decide!)
      (fun t => didlTitle_quiet _ _ t (by decide) (by decide)) (by decide!)
      (fun t => didlArtist_quiet _ _ t (by decide) (by decide) (by decide) (by decide))
      (fun t => by rw [didlAlbum_nil _ h, List.nil_append])
      (fun t => didlGenre_quiet _ _ t (by decide) (by decide))
      (fun t => didlTrack_quiet _ _ t hval (by decide!) (by decide!)),
      didlRes_occurrences _ _ _ (by decide) (by decide) (by decide) (by decide!) (by decide!)
        (by decide) (by decide)]
    decide!
  · apply not_infix_of_occurrences
    have e : "<upnp:genre>".toList = '<' :: "upnp:genre>".toList := by decide
    rw [e, didlmake_occurrences "upnp:genre>".toList mpds next (by decide!)
      (fun t => didlTitle_quiet _ _ t (by decide) (by decide)) (by decide!)
      (fun t => didlArtist_quiet _ _ t (by decide) (by decide) (by decide) (by decide))
      (fun t => didlAlbum_quiet _ _ t (by decide) (by decide))
      (fun t => by rw [didlGenre_nil _ h, List.nil_append])
      (fun t => didlTrack_quiet _ _ t hval (by decide!) (by decide!)),
      didlRes_occurrences _ _ _ (by decide) (by decide) (by decide) (by decide!) (by decide!)
        (by decide) (by decide)]
    decide!
  · apply not_infix_of_occurrences
    have e : "<upnp:originalTrackNumber>".toList = '<' :: "upnp:originalTrackNumber>".toList := by
      decide
    rw [e, didlmake_occurrences "upnp:originalTrackNumber>".toList mpds next (by decide!)
      (fun t => didlTitle_quiet _ _ t (by decide) (by decide)) (by decide!)
      (fun t => didlArtist_quiet _ _ t (by decide) (by decide) (by decide) (by decide))
      (fun t => didlAlbum_quiet _ _ t (by decide) (by decide))
      (fun t => didlGenre_quiet _ _ t (by decide) (by decide))
      (fun t => by rw [didlTrack_nil _ h, List.nil_append]),
      didlRes_occurrences _ _ _ (by decide) (by decide) (by decide) (by decide!) (by decide!)
        (by decide) (by decide)]
    decide!

/-! ## Lemmas on rounding in a range -/

theorem pow2_le_pow2 (a b : Int) (h : a ≤ b) : pow2 a ≤ pow2 b := by
  rw [pow2_eq_zpow, pow2_eq_zpow]
  exact zpow_le_zpow_right₀ (by norm_num) h

theorem pow2_succ (a : Int) : pow2 (a + 1) = 2 * pow2 a := by
  rw [pow2_eq_zpow, pow2_eq_zpow, zpow_add_one₀ (by norm_num : (2 : ℚ) ≠ 0)]
  ring

/-- Below `2 ^ k`, rounding gives a finite value within `2 ^ (k - prec) / 2` of the exact
one. -/
theorem roundFmt_near (f : Fmt) (q : ℚ) (k : Int) (hk1 : 2 - f.emax ≤ k) (hk2 : k ≤ f.emax)
    (hq : |q| < pow2 k) :
    ∃ r : ℚ, roundFmt f q = Fp.fin r ∧ |r - q| ≤ pow2 (k - f.prec) / 2 := by
  have hkpos : 0 < pow2 (k - f.prec) := pow2_pos _
  by_cases hq0 : q = 0
  · refine ⟨0, by simp [roundFmt, hq0], ?_⟩
    rw [hq0, sub_zero, abs_zero]
    positivity
  have habs : 0 < |q| := abs_pos.mpr hq0
  obtain ⟨hE1, -⟩ := ilog2_spec _ habs
  have hE : ilog2 |q| < k := pow2_lt_pow2 _ _ (lt_of_le_of_lt hE1 hq)
  have hX : max (ilog2 |q|) (1 - f.emax) - ((f.prec : Int) - 1) ≤ k - f.prec := by
    rcases max_cases (ilog2 |q|) (1 - f.emax) with ⟨h, -⟩ | ⟨h, -⟩ <;> rw [h] <;> omega
  set ulp := pow2 (max (ilog2 |q|) (1 - f.emax) - ((f.prec : Int) - 1)) with hulp
  have hpos : 0 < ulp := pow2_pos _
  have hule : ulp ≤ pow2 (k - f.prec) := pow2_le_pow2 _ _ hX
  have hne := roundNE_spec (q / ulp)
  have e : (roundNE (q / ulp) : ℚ) * ulp - q = ((roundNE (q / ulp) : ℚ) - q / ulp) * ulp := by
    field_simp
  have herr : |(roundNE (q / ulp) : ℚ) * ulp - q| ≤ pow2 (k - f.prec) / 2 := by
    rw [e, abs_mul, abs_of_pos hpos]
    calc |(roundNE (q / ulp) : ℚ) - q / ulp| * ulp ≤ 1 / 2 * ulp :=
          mul_le_mul_of_nonneg_right hne hpos.le
      _ ≤ 1 / 2 * pow2 (k - f.prec) := by linarith
      _ = pow2 (k - f.prec) / 2 := by ring
  have hkk : pow2 (k - f.prec) ≤ pow2 k := pow2_le_pow2 _ _ (by omega)
  have hbig : pow2 (k + 1) ≤ pow2 (f.emax + 1) := pow2_le_pow2 _ _ (by omega)
  have hr : |(roundNE (q / ulp) : ℚ) * ulp| < pow2 (f.emax + 1) := by
    have h1 : |(roundNE (q / ulp) : ℚ) * ulp| ≤
        |(roundNE (q / ulp) : ℚ) * ulp - q| + |q| := by
      have := abs_add ((roundNE (q / ulp) : ℚ) * ulp - q) q
      rwa [sub_add_cancel] at this
    have h2 := pow2_succ k
    have h3 := pow2_pos k
    linarith
  refine ⟨(roundNE (q / ulp) : ℚ) * ulp, ?_, herr⟩
  unfold roundFmt
  rw [if_neg hq0]
  simp only [← hulp]
  rw [if_neg (not_le.mpr hr)]

theorem ilog2_unique (q : ℚ) (e : Int) (h1 : pow2 e ≤ q) (h2 : q < pow2 (e + 1)) :
    ilog2 q = e := by
  have hq : 0 < q := lt_of_lt_of_le (pow2_pos e) h1
  obtain ⟨a, b⟩ := ilog2_spec q hq
  have c1 : ilog2 q < e + 1 := pow2_lt_pow2 _ _ (lt_of_le_of_lt a h2)
  have c2 : e < ilog2 q + 1 := pow2_lt_pow2 _ _ (lt_of_le_of_lt h1 b)
  omega

theorem roundNE_of_near (x : ℚ) (m : Int) (h : |x - m| < 1 / 2) : roundNE x = m := by
  rw [abs_lt] at h
  obtain ⟨h1, h2⟩ := h
  have hfl : (Rat.floor x : ℚ) ≤ x := Int.floor_le x
  have hfu : x < (Rat.floor x : ℚ) + 1 := Int.lt_floor_add_one x
  by_cases hx : (m : ℚ) ≤ x
  · have hf : Rat.floor x = m := by
      have a : m ≤ Rat.floor x := Int.le_floor.mpr hx
      have b : Rat.floor x < m + 1 := by
        have : (Rat.floor x : ℚ) < ((m + 1 : Int) : ℚ) := by push_cast; linarith
        exact_mod_cast this
      omega
    unfold roundNE
    simp only [hf]
    rw [if_pos (by linarith)]
  · have hf : Rat.floor x = m - 1 := by
      have a0 : ((m - 1 : Int) : ℚ) ≤ x := by push_cast; linarith
      have a : m - 1 ≤ Rat.floor x := Int.le_floor.mpr a0
      have b : Rat.floor x < m := by
        have : (Rat.floor x : ℚ) < (m : ℚ) := by linarith
        exact_mod_cast this
      omega
    unfold roundNE
    simp only [hf]
    rw [if_neg (by push_cast; linarith), if_pos (by push_cast; linarith)]
    ring

/-- A positive value in the binade of `2 ^ e` whose scaled value is nearer to the integer
`m` than to any other rounds to `m * 2 ^ (e - (prec - 1))`. -/
theorem roundFmt_of_near (f : Fmt) (q : ℚ) (e m : Int) (he : 1 - f.emax ≤ e)
    (h1 : pow2 e ≤ q) (h2 : q < pow2 (e + 1))
    (hm : |q / pow2 (e - ((f.prec : Int) - 1)) - m| < 1 / 2)
    (hmax : |(m : ℚ) * pow2 (e - ((f.prec : Int) - 1))| < pow2 (f.emax + 1)) :
    roundFmt f q = Fp.fin ((m : ℚ) * pow2 (e - ((f.prec : Int) - 1))) := by
  have hq : 0 < q := lt_of_lt_of_le (pow2_pos e) h1
  have habs : |q| = q := abs_of_pos hq
  have hi : ilog2 |q| = e := by rw [habs]; exact ilog2_unique q e h1 h2
  unfold roundFmt
  rw [if_neg hq.ne']
  simp only [hi, max_eq_left he]
  rw [roundNE_of_near _ m hm, if_neg (not_le.mpr hmax)]

/-! ## Lemmas on the range of the volume conversions -/

theorem ratio_within : ∀ n : Nat, n < 100 →
    Fp.within (9999 / 100000000) 1 (Fp.round binary32 (Fp.divPos binary64
      (Fp.mul binary32 (Fp.ofInt binary32 ((n + 1 : Nat) : Int))
        (Fp.ofInt binary32 ((n + 1 : Nat) : Int))) 10000)) = true ∧
    Fp.round binary32 (Fp.round binary32 (Fp.divPos binary64
      (Fp.mul binary32 (Fp.ofInt binary32 ((n + 1 : Nat) : Int))
        (Fp.ofInt binary32 ((n + 1 : Nat) : Int))) 10000)) =
      Fp.round binary32 (Fp.divPos binary64
        (Fp.mul binary32 (Fp.ofInt binary32 ((n + 1 : Nat) : Int))
          (Fp.ofInt binary32 ((n + 1 : Nat) : Int))) 10000) := by
  decide!

theorem within_elim (lo hi : ℚ) (x : Fp) (h : Fp.within lo hi x = true) :
    ∃ q : ℚ, x = Fp.fin q ∧ lo ≤ q ∧ q ≤ hi := by
  cases x with
  | fin q =>
    rw [Fp.within, Bool.and_eq_true, decide_eq_true_eq, decide_eq_true_eq] at h
    exact ⟨q, rfl, h.1, h.2⟩
  | pinf => exact absurd h (by simp [Fp.within])
  | ninf => exact absurd h (by simp [Fp.within])
  | nan => exact absurd h (by simp [Fp.within])

theorem toInt_of_range (w : ℚ) (h1 : -10241 < w) (h2 : w < 1) :
    ∃ t : Int, Fp.toInt (Fp.fin w) = some t ∧ -10240 ≤ t ∧ t ≤ 0 := by
  have hd : (0 : ℚ) < w.den := by exact_mod_cast w.den_pos
  have hdz : (0 : Int) < w.den := by exact_mod_cast w.den_pos
  have hw : (w.num : ℚ) / w.den = w := Rat.num_div_den w
  have a1 : -10241 * (w.den : Int) < w.num := by
    have : (-10241 : ℚ) * w.den < w.num := by
      rw [← hw, lt_div_iff₀ hd] at h1
      exact h1
    exact_mod_cast this
  have a2 : w.num < w.den := by
    have : (w.num : ℚ) < w.den := by
      rw [← hw, div_lt_iff₀ hd, one_mul] at h2
      exact h2
    exact_mod_cast this
  have key : -10240 ≤ Int.tdiv w.num w.den ∧ Int.tdiv w.num w.den ≤ 0 := by
    by_cases hn : 0 ≤ w.num
    · rw [Int.tdiv_eq_ediv hn hdz.le, Int.ediv_eq_zero_of_lt hn a2]
      omega
    · obtain ⟨p, hp⟩ : ∃ p : Int, w.num = -p := ⟨-w.num, by ring⟩
      have hp0 : 0 ≤ p := by omega
      rw [hp, Int.neg_tdiv, Int.tdiv_eq_ediv hp0 hdz.le]
      have b1 : p / (w.den : Int) < 10241 := by
        apply Int.ediv_lt_of_lt_mul hdz
        linarith
      have b2 : 0 ≤ p / (w.den : Int) := Int.ediv_nonneg hp0 hdz.le
      omega
  refine ⟨Int.tdiv w.num w.den, ?_, key⟩
  unfold Fp.toInt
  simp only
  rw [if_pos ⟨by omega, by omega⟩]

/-- The scaling and conversion of `percentodbvalue` keep a logarithm between
`-(4 + 1/4096)` and `1/4096` within `[-10240, 0]`. -/
theorem encode_range (y : ℚ) (h1 : -(4 + 1 / 4096) ≤ y) (h2 : y ≤ 1 / 4096) :
    ∃ t : Int, Fp.toInt (Fp.mul binary32 (Fp.ofInt binary32 256)
      (Fp.mul binary32 (Fp.ofInt binary32 10) (Fp.fin y))) = some t ∧ -10240 ≤ t ∧ t ≤ 0 := by
  have e10 : Fp.ofInt binary32 10 = Fp.fin 10 := by decide!
  have e256 : Fp.ofInt binary32 256 = Fp.fin 256 := by decide!
  have p6 : pow2 6 = 64 := by decide!
  have p14 : pow2 14 = 16384 := by decide!
  have p18 : pow2 (6 - (binary32.prec : Int)) = 1 / 262144 := by decide!
  have p10 : pow2 (14 - (binary32.prec : Int)) = 1 / 1024 := by decide!
  have hy : |10 * y| < pow2 6 := by
    rw [p6, abs_lt]; constructor <;> linarith
  obtain ⟨d, hd, hderr⟩ := roundFmt_near binary32 (10 * y) 6 (by decide) (by decide) hy
  rw [p18, abs_le] at hderr
  have hdz : |256 * d| < pow2 14 := by
    rw [p14, abs_lt]; constructor <;> linarith
  obtain ⟨w, hw, hwerr⟩ := roundFmt_near binary32 (256 * d) 14 (by decide) (by decide) hdz
  rw [p10, abs_le] at hwerr
  have hmul1 : Fp.mul binary32 (Fp.fin 10) (Fp.fin y) = Fp.fin d := hd
  have hmul2 : Fp.mul binary32 (Fp.fin 256) (Fp.fin d) = Fp.fin w := hw
  rw [e10, e256, hmul1, hmul2]
  exact toInt_of_range w (by linarith) (by linarith)

theorem db_zero :
    Fp.divPos binary32 (Fp.round binary32 (Fp.divPos binary64 (Fp.ofInt binary32 0) 256)) 10 =
      Fp.fin 0 := by
  decide!

theorem db_silence :
    Fp.divPos binary32 (Fp.round binary32 (Fp.divPos binary64 (Fp.ofInt binary32 (-10240)) 256))
      10 = Fp.fin (-4) := by
  decide!

/-- Every value within `10 ^ (-12)` of `10 ^ (-4)` rounds to the same `float`, which is below
`10 ^ (-4)`. -/
theorem round_tenth_of_milli (v : ℚ) (hv : |v - 1 / 10000| ≤ 1 / 1000000000000) :
    roundFmt binary32 v = Fp.fin (13743895 / 137438953472) := by
  rw [abs_le] at hv
  have p14 : pow2 (-14) = 1 / 16384 := by decide!
  have p13 : pow2 (-14 + 1) = 1 / 8192 := by decide!
  have p37 : pow2 (-14 - ((binary32.prec : Int) - 1)) = 1 / 137438953472 := by decide!
  have pmax : (13743895 : ℚ) / 137438953472 < pow2 (binary32.emax + 1) := by decide!
  have h := roundFmt_of_near binary32 v (-14) 13743895 (by decide)
    (by rw [p14]; linarith) (by rw [p13]; linarith)
    (by
      rw [p37, abs_lt]
      constructor <;> push_cast <;> linarith)
    (by
      rw [p37]
      push_cast
      rw [abs_of_pos (by norm_num)]
      calc (13743895 : ℚ) * (1 / 137438953472) = 13743895 / 137438953472 := by ring
        _ < pow2 (binary32.emax + 1) := pmax)
  rw [h, p37]
  congr 1
  push_cast
  ring

theorem decode_full :
    (match Fp.toInt (Fp.floor (Fp.sqrt binary64
        (Fp.mul binary64 (Fp.round binary32 (Fp.fin 1)) (Fp.fin 10000)))) with
      | none => none
      | some percent =>
        some (if (if percent < 0 then 0 else percent) > 100 then 100
          else (if percent < 0 then 0 else percent))) = some 100 := by
  decide!

theorem decode_silence :
    (match Fp.toInt (Fp.floor (Fp.sqrt binary64
        (Fp.mul binary64 (Fp.fin (13743895 / 137438953472)) (Fp.fin 10000)))) with
      | none => none
      | some percent =>
        some (if (if percent < 0 then 0 else percent) > 100 then 100
          else (if percent < 0 then 0 else percent))) = some 0 := by
  decide!

/-! ## Lemmas on the duration round trip -/

theorem pad2_eq_decZ (n : Nat) : pad2 n = decZ (if n < 10 then 1 else 0) n := by
  unfold pad2 decZ
  split_ifs <;> rfl

theorem dec_eq_decZ (n : Nat) : dec n = decZ 0 n := rfl

/-! ## Lemmas on tag maps -/

theorem lookup_two (k k1 k2 v1 v2 : Str) :
    List.lookup k [(k1, v1), (k2, v2)] =
      if k = k1 then some v1 else if k = k2 then some v2 else none := by
  by_cases h1 : k = k1
  · have b1 : (k == k1) = true := by simpa using h1
    rw [if_pos h1, List.lookup, b1]
  · have b1 : (k == k1) = false := by simpa using h1
    rw [if_neg h1, List.lookup, b1]
    by_cases h2 : k = k2
    · have b2 : (k == k2) = true := by simpa using h2
      rw [if_pos h2]
      simp only [List.lookup, b2]
    · have b2 : (k == k2) = false := by simpa using h2
      rw [if_neg h2]
      simp only [List.lookup, b2]

/-! ## The fragment: conditional tags, selection of the map, shape -/

/-- C11, at the input where the source departs from it: the snapshot `albumInTrack` has no
`upnp:album` tag, yet the fragment contains the opening tag `<upnp:album>`, carried by the
track number that `didlmake` writes unescaped. -/
theorem didlmake_absent_album_present :
    (songmapOf albumInTrack false).lookup "upnp:album".toList = none ∧
    mapget (songmapOf albumInTrack false) "upnp:album".toList = [] ∧
    "<upnp:album>".toList <:+: didlmake albumInTrack false := by
  refine ⟨by decide, by decide, by decide!⟩

/-- C12: two snapshots with the same `nextsong` tag map and the same `songlenms` give the
same fragment when `next` is true, whatever their `currentsong` tag maps are. -/
theorem didlmake_next_only (m1 m2 : MpdStatus) (hnext : m1.nextsong = m2.nextsong)
    (hlen : m1.songlenms = m2.songlenms) : didlmake m1 true = didlmake m2 true := by
  unfold didlmake songmapOf
  simp only [if_true, hnext, hlen]

theorem didlmake_next_only_witness :
    (MpdStatus.mk [("dc:title".toList, "A".toList)] [("dc:title".toList, "N".toList)] 7).nextsong =
      (MpdStatus.mk [("upnp:artist".toList, "B".toList)] [("dc:title".toList, "N".toList)]
        7).nextsong ∧
    (MpdStatus.mk [("dc:title".toList, "A".toList)] [("dc:title".toList, "N".toList)] 7).songlenms =
      (MpdStatus.mk [("upnp:artist".toList, "B".toList)] [("dc:title".toList, "N".toList)]
        7).songlenms ∧
    didlmake ⟨[("dc:title".toList, "A".toList)], [("dc:title".toList, "N".toList)], 7⟩ true =
      didlmake ⟨[("upnp:artist".toList, "B".toList)], [("dc:title".toList, "N".toList)], 7⟩ true :=
  ⟨rfl, rfl, didlmake_next_only _ _ rfl rfl⟩

/-- C13: when `currentsong` binds exactly `dc:title` to `t` and `uri` to `u`, `didlmake`
with `next` false returns the DIDL-Lite opening tag with its four namespace declarations,
`<item restricted="1">`, the escaped title between `<dc:title>` tags, the class element,
and the `res` element with the duration `upnpduration songlenms`, the fixed sample
frequency, channel count and `protocolInfo`, and the escaped URI, then the closing tags.
For the title `Song`, the URI `http://x/y.mp3` and 125000 milliseconds the fragment
contains `<dc:title>Song</dc:title>`, `duration="0:02:05"` and the URI followed by
`</res>`, and no `<upnp:artist>`. -/
theorem didlmake_title_uri_only (mpds : MpdStatus) (t u : Str)
    (hkeys : ∀ k : Str, mpds.currentsong.lookup k =
      if k = "dc:title".toList then some t else if k = "uri".toList then some u else none) :
    didlmake mpds false =
      ("<DIDL-Lite xmlns:dc=\"http://purl.org/dc/elements/1.1/\" " ++
        "xmlns:upnp=\"urn:schemas-upnp-org:metadata-1-0/upnp/\" " ++
        "xmlns=\"urn:schemas-upnp-org:metadata-1-0/DIDL-Lite/\" " ++
        "xmlns:dlna=\"urn:schemas-dlna-org:metadata-1-0/\">").toList ++
      "<item restricted=\"1\">".toList ++
      "<dc:title>".toList ++ xmlquote t ++ "</dc:title>".toList ++
      "<upnp:class>object.item.audioItem.musicTrack</upnp:class>".toList ++
      "<res duration=\"".toList ++ upnpduration mpds.songlenms ++
      ("\" sampleFrequency=\"44100\" audioChannels=\"2\" " ++
        "protocolInfo=\"http-get:*:audio/mpeg:DLNA.ORG_PN=MP3;DLNA.ORG_OP=01;DLNA.ORG_CI=0;" ++
        "DLNA.ORG_FLAGS=01700000000000000000000000000000\">").toList ++
      xmlquote u ++ "</res></item></DIDL-Lite>".toList ∧
    "<dc:title>Song</dc:title>".toList <:+: didlmake songOnly false ∧
    "duration=\"0:02:05\"".toList <:+: didlmake songOnly false ∧
    ">http://x/y.mp3</res>".toList <:+: didlmake songOnly false ∧
    ¬ "<upnp:artist>".toList <:+: didlmake songOnly false := by
  refine ⟨?_, by decide!, by decide!, by decide!, by decide!⟩
  have ht : mapget mpds.currentsong "dc:title".toList = t := by
    rw [mapget_eq_getD, hkeys]; rfl
  have hu : mapget mpds.currentsong "uri".toList = u := by
    rw [mapget_eq_getD, hkeys, if_neg (by decide)]; rfl
  have ha : mapget mpds.currentsong "upnp:artist".toList = [] := by
    rw [mapget_eq_getD, hkeys, if_neg (by decide), if_neg (by decide)]; rfl
  have hb : mapget mpds.currentsong "upnp:album".toList = [] := by
    rw [mapget_eq_getD, hkeys, if_neg (by decide), if_neg (by decide)]; rfl
  have hg : mapget mpds.currentsong "upnp:genre".toList = [] := by
    rw [mapget_eq_getD, hkeys, if_neg (by decide), if_neg (by decide)]; rfl
  have hn : mapget mpds.currentsong "upnp:originalTrackNumber".toList = [] := by
    rw [mapget_eq_getD, hkeys, if_neg (by decide), if_neg (by decide)]; rfl
  have hs : songmapOf mpds false = mpds.currentsong := rfl
  rw [didlmake_eq, hs, didlArtist_nil _ ha, didlAlbum_nil _ hb, didlGenre_nil _ hg,
    didlTrack_nil _ hn]
  unfold didlTitle didlRes
  rw [ht, hu]
  have e1 : didlHead =
      ("<DIDL-Lite xmlns:dc=\"http://purl.org/dc/elements/1.1/\" " ++
        "xmlns:upnp=\"urn:schemas-upnp-org:metadata-1-0/upnp/\" " ++
        "xmlns=\"urn:schemas-upnp-org:metadata-1-0/DIDL-Lite/\" " ++
        "xmlns:dlna=\"urn:schemas-dlna-org:metadata-1-0/\">").toList ++
      "<item restricted=\"1\">".toList := by decide!
  have e2 : "<res duration=\"".toList = "<res ".toList ++ "duration=\"".toList := by decide
  have e3 : ("\" sampleFrequency=\"44100\" audioChannels=\"2\" " ++
        "protocolInfo=\"http-get:*:audio/mpeg:DLNA.ORG_PN=MP3;DLNA.ORG_OP=01;DLNA.ORG_CI=0;" ++
        "DLNA.ORG_FLAGS=01700000000000000000000000000000\">").toList =
      "\" ".toList ++ ("sampleFrequency=\"44100\" audioChannels=\"2\" ".toList ++
      (("protocolInfo=\"http-get:*:audio/mpeg:DLNA.ORG_PN=MP3;DLNA.ORG_OP=01;DLNA.ORG_CI=0;" ++
        "DLNA.ORG_FLAGS=01700000000000000000000000000000\"").toList ++ ">".toList)) := by decide!
  have e4 : "</res></item></DIDL-Lite>".toList =
      "</res>".toList ++ "</item></DIDL-Lite>".toList := by decide
  rw [e1, e2, e3, e4]
  simp only [List.append_assoc, List.nil_append]

theorem didlmake_title_uri_only_witness :
    (∀ k : Str, songOnly.currentsong.lookup k =
      if k = "dc:title".toList then some "Song".toList
      else if k = "uri".toList then some "http://x/y.mp3".toList else none) ∧
    "<dc:title>Song</dc:title>".toList <:+: didlmake songOnly false ∧
    "duration=\"0:02:05\"".toList <:+: didlmake songOnly false ∧
    ">http://x/y.mp3</res>".toList <:+: didlmake songOnly false ∧
    ¬ "<upnp:artist>".toList <:+: didlmake songOnly false :=
  have hk : ∀ k : Str, songOnly.currentsong.lookup k =
      if k = "dc:title".toList then some "Song".toList
      else if k = "uri".toList then some "http://x/y.mp3".toList else none :=
    fun k => lookup_two k _ _ _ _
  ⟨hk, (didlmake_title_uri_only songOnly "Song".toList "http://x/y.mp3".toList hk).2⟩

/-- C14: for every snapshot whose selected tag map has `upnp:originalTrackNumber` absent,
empty or made of decimal digits only, and either value of `next`, the fragment starts with
`<DIDL-Lite `, ends with `</item></DIDL-Lite>`, and `<item` and `</item>` each occur at
exactly one position of it. -/
theorem didlmake_single_item (mpds : MpdStatus) (next : Bool)
    (hdig : ∀ v : Str, (songmapOf mpds next).lookup "upnp:originalTrackNumber".toList = some v →
      ∀ c ∈ v, isdigit c = true) :
    "<DIDL-Lite ".toList <+: didlmake mpds next ∧
    "</item></DIDL-Lite>".toList <:+ didlmake mpds next ∧
    occurrences "<item".toList (didlmake mpds next) = 1 ∧
    occurrences "</item>".toList (didlmake mpds next) = 1 := by
  have hval : ∀ c ∈ mapget (songmapOf mpds next) "upnp:originalTrackNumber".toList, c ≠ '<' := by
    intro c hc
    rw [mapget_eq_getD] at hc
    cases hl : (songmapOf mpds next).lookup "upnp:originalTrackNumber".toList with
    | none => rw [hl] at hc; simp at hc
    | some v =>
      rw [hl] at hc
      exact isdigit_ne_lt c (hdig v hl c hc)
  have hpre : "<DIDL-Lite ".toList <+: didlHead := by decide!
  exact ⟨hpre.trans (didlHead_leads mpds next),
    (didlClose_trails _ _).trans (didlRes_trails mpds next),
    didlmake_item_count mpds next hval⟩

theorem didlmake_single_item_witness :
    (∀ v : Str, (songmapOf markupTags true).lookup "upnp:originalTrackNumber".toList = some v →
      ∀ c ∈ v, isdigit c = true) ∧
    "<DIDL-Lite ".toList <+: didlmake markupTags true ∧
    "</item></DIDL-Lite>".toList <:+ didlmake markupTags true ∧
    occurrences "<item".toList (didlmake markupTags true) = 1 ∧
    occurrences "</item>".toList (didlmake markupTags true) = 1 :=
  have hd : ∀ v : Str,
      (songmapOf markupTags true).lookup "upnp:originalTrackNumber".toList = some v →
      ∀ c ∈ v, isdigit c = true := by
    intro v hv c hc
    have e : (songmapOf markupTags true).lookup "upnp:originalTrackNumber".toList =
        some "12".toList := by decide
    rw [e, Option.some.injEq] at hv
    subst hv
    have : c = '1' ∨ c = '2' := by simpa using hc
    rcases this with rfl | rfl <;> decide
  ⟨hd, didlmake_single_item markupTags true hd⟩

/-! ## Escaping: algebraic properties -/

/-- C15: for every string `s` with at least one of the five reserved characters,
`xmlquote (xmlquote s)` differs from `xmlquote s`. -/
theorem xmlquote_not_idempotent (s : Str) (h : ∃ c ∈ s, isReserved c = true) :
    xmlquote (xmlquote s) ≠ xmlquote s := by
  intro heq
  have hamp : ∃ c ∈ xmlquote s, isReserved c = true :=
    ⟨'&', amp_mem_xmlquote s h, by decide⟩
  have hlt := xmlquote_length_lt (xmlquote s) hamp
  rw [heq] at hlt
  exact Nat.lt_irrefl _ hlt

theorem xmlquote_not_idempotent_witness :
    (∃ c ∈ "a\"b&c<d>e'f".toList, isReserved c = true) ∧
    xmlquote (xmlquote "a\"b&c<d>e'f".toList) ≠ xmlquote "a\"b&c<d>e'f".toList :=
  ⟨⟨'&', by decide, by decide⟩,
    xmlquote_not_idempotent "a\"b&c<d>e'f".toList ⟨'&', by decide, by decide⟩⟩

/-! ## Volume: range and endpoints -/

/-- C16: for every `value` with `0 ≤ value ≤ 100`, `percentodbvalue value` is defined and lies
in `[-10240, 0]`, for every C library whose `log10` maps the values of type `float` in
`[0.00009999, 1]` into `[-4 - 1/4096, 1/4096]` (the exact logarithm lies in `[-4.00005, 0]`
there). -/
theorem percentodbvalue_in_range (L : Libm)
    (hlog : ∀ q : ℚ, roundFmt binary32 q = Fp.fin q → 9999 / 100000000 ≤ q → q ≤ 1 →
      ∃ y : ℚ, L.log10f (Fp.fin q) = Fp.fin y ∧ -(4 + 1 / 4096) ≤ y ∧ y ≤ 1 / 4096)
    (value : Int) (h0 : 0 ≤ value) (h100 : value ≤ 100) :
    ∃ r : Int, percentodbvalue L value = some r ∧ -10240 ≤ r ∧ r ≤ 0 := by
  by_cases hz : value = 0
  · exact ⟨-10240, by rw [hz]; rfl, le_refl _, by decide⟩
  · obtain ⟨n, hn, rfl⟩ : ∃ n : Nat, n < 100 ∧ value = ((n + 1 : Nat) : Int) :=
      ⟨(value - 1).toNat, by omega, by omega⟩
    obtain ⟨hwithin, hfloat⟩ := ratio_within n hn
    obtain ⟨q, hq, hq1, hq2⟩ := within_elim _ _ _ hwithin
    rw [hq] at hfloat
    obtain ⟨y, hy, hy1, hy2⟩ := hlog q hfloat hq1 hq2
    unfold percentodbvalue
    rw [if_neg hz]
    simp only [hq, hy]
    exact encode_range y hy1 hy2

theorem percentodbvalue_in_range_witness :
    (∀ q : ℚ, roundFmt binary32 q = Fp.fin q → 9999 / 100000000 ≤ q → q ≤ 1 →
      ∃ y : ℚ, coarseLibm.log10f (Fp.fin q) = Fp.fin y ∧ -(4 + 1 / 4096) ≤ y ∧ y ≤ 1 / 4096) ∧
    (0 : Int) ≤ 50 ∧ (50 : Int) ≤ 100 ∧
    ∃ r : Int, percentodbvalue coarseLibm 50 = some r ∧ -10240 ≤ r ∧ r ≤ 0 :=
  have hl : ∀ q : ℚ, roundFmt binary32 q = Fp.fin q → 9999 / 100000000 ≤ q → q ≤ 1 →
      ∃ y : ℚ, coarseLibm.log10f (Fp.fin q) = Fp.fin y ∧ -(4 + 1 / 4096) ≤ y ∧
        y ≤ 1 / 4096 := by
    intro q _ h1 h2
    have hq : 0 < q := by linarith
    refine ⟨0, ?_, by norm_num, by norm_num⟩
    simp only [coarseLibm]
    rw [if_neg (not_lt.mpr hq.le), if_neg hq.ne']
  ⟨hl, by decide, by decide, percentodbvalue_in_range coarseLibm hl 50 (by decide) (by decide)⟩

/-- C17: `dbvaluetopercent (-10240)` is `0` and `dbvaluetopercent 0` is `100`, for every C
library whose `exp10` maps `0` to `1` and `-4` to a value within `10 ^ (-12)` of
`10 ^ (-4)`: the `float` nearest to such a value is below `10 ^ (-4)`, so the square root
that is floored is below `1`. -/
theorem dbvaluetopercent_endpoints (L : Libm) (hzero : L.exp10 (Fp.fin 0) = Fp.fin 1)
    (hfour : ∃ v : ℚ, L.exp10 (Fp.fin (-4)) = Fp.fin v ∧
      |v - 1 / 10000| ≤ 1 / 1000000000000) :
    dbvaluetopercent L (-10240) = some 0 ∧ dbvaluetopercent L 0 = some 100 := by
  obtain ⟨v, hv, hverr⟩ := hfour
  constructor
  · unfold dbvaluetopercent
    simp only [db_silence, hv]
    have hr : Fp.round binary32 (Fp.fin v) = Fp.fin (13743895 / 137438953472) :=
      round_tenth_of_milli v hverr
    rw [hr]
    exact decode_silence
  · unfold dbvaluetopercent
    simp only [db_zero, hzero]
    exact decode_full

theorem dbvaluetopercent_endpoints_witness :
    decadeLibm.exp10 (Fp.fin 0) = Fp.fin 1 ∧
    (∃ v : ℚ, decadeLibm.exp10 (Fp.fin (-4)) = Fp.fin v ∧
      |v - 1 / 10000| ≤ 1 / 1000000000000) ∧
    dbvaluetopercent decadeLibm (-10240) = some 0 ∧ dbvaluetopercent decadeLibm 0 = some 100 :=
  have h4 : ∃ v : ℚ, decadeLibm.exp10 (Fp.fin (-4)) = Fp.fin v ∧
      |v - 1 / 10000| ≤ 1 / 1000000000000 :=
    ⟨7378697629483821 / 73786976294838206464, by decide!, by
      rw [abs_le]; constructor <;> norm_num⟩
  ⟨by decide!, h4, dbvaluetopercent_endpoints decadeLibm (by decide!) h4⟩

/-! ## Escaping: injectivity and shape of the result -/

/-- C18: `xmlquote` is injective: two strings with the same escaped form are equal. -/
theorem xmlquote_injective (s1 s2 : Str) (h : xmlquote s1 = xmlquote s2) : s1 = s2 := by
  induction s1 generalizing s2 with
  | nil =>
    cases s2 with
    | nil => rfl
    | cons c s =>
      rw [xmlquote_cons, xmlquote_nil] at h
      exact absurd (List.append_eq_nil.mp h.symm).1 (escapeChar_ne_nil c)
  | cons c1 t1 ih =>
    cases s2 with
    | nil =>
      rw [xmlquote_cons, xmlquote_nil] at h
      exact absurd (List.append_eq_nil.mp h).1 (escapeChar_ne_nil c1)
    | cons c2 t2 =>
      rw [xmlquote_cons, xmlquote_cons] at h
      obtain ⟨hc, hr⟩ := escapeChar_cancel c1 c2 _ _ h
      rw [hc, ih t2 hr]

theorem xmlquote_injective_witness :
    xmlquote "a<b".toList = xmlquote ("a".toList ++ "<b".toList) ∧
    "a<b".toList = "a".toList ++ "<b".toList :=
  ⟨by decide, xmlquote_injective "a<b".toList ("a".toList ++ "<b".toList) (by decide)⟩

/-- C19: for every string `s`, none of the characters `"`, `<`, `>`, `'` occurs in
`xmlquote s`, and every `&` of `xmlquote s` is immediately followed by `quot;`, `amp;`,
`lt;`, `gt;` or `apos;`. -/
theorem xmlquote_output_shape (s : Str) :
    (∀ c ∈ xmlquote s, c ≠ '"' ∧ c ≠ '<' ∧ c ≠ '>' ∧ c ≠ '\'') ∧
    (∀ pre suf : Str, xmlquote s = pre ++ '&' :: suf →
      "quot;".toList <+: suf ∨ "amp;".toList <+: suf ∨ "lt;".toList <+: suf ∨
        "gt;".toList <+: suf ∨ "apos;".toList <+: suf) :=
  ⟨xmlquote_no_raw s, xmlquote_amp_followed s⟩

theorem xmlquote_output_shape_witness :
    xmlquote "a&b<".toList = "a&amp;b".toList ++ '&' :: "lt;".toList ∧
    ("quot;".toList <+: "lt;".toList ∨ "amp;".toList <+: "lt;".toList ∨
      "lt;".toList <+: "lt;".toList ∨ "gt;".toList <+: "lt;".toList ∨
      "apos;".toList <+: "lt;".toList) :=
  ⟨by decide, (xmlquote_output_shape "a&b<".toList).2 "a&amp;b".toList "lt;".toList (by decide)⟩

/-! ## Duration round trip -/

/-- C20: for every `ms` with `0 ≤ ms < 2^31`, and whatever the locals hold before the scan,
`upnpdurationtos (upnpduration ms)` is `ms / 1000`. -/
theorem upnpdurationtos_upnpduration (hours0 minutes0 seconds0 : Int) (ms : Nat)
    (hms : ms < 2147483648) :
    upnpdurationtos hours0 minutes0 seconds0 (upnpduration (ms : Int)) =
      ((ms / 1000 : Nat) : Int) := by
  have h1 : ((ms : Int) / 3600000).toNat = ms / 3600000 := by omega
  have h2 : ((ms : Int) / 60000 % 60).toNat = ms / 60000 % 60 := by omega
  have h3 : ((ms : Int) / 1000 % 60).toNat = ms / 1000 % 60 := by omega
  rw [upnpduration_fields (ms : Int) (by omega), h1, h2, h3, dec_eq_decZ, pad2_eq_decZ,
    pad2_eq_decZ]
  have e : ∀ a b c : Str, a ++ ":".toList ++ b ++ ":".toList ++ c = a ++ ':' :: (b ++ ':' :: c) := by
    intro a b c
    simp [List.append_assoc]
  rw [e, upnpdurationtos_fields hours0 minutes0 seconds0 _ _ _ _ _ _ (by omega)]
  omega

theorem upnpdurationtos_upnpduration_witness :
    (3725999 : Nat) < 2147483648 ∧
    upnpdurationtos 9 9 9 (upnpduration ((3725999 : Nat) : Int)) = ((3725999 / 1000 : Nat) : Int) :=
  ⟨by decide, upnpdurationtos_upnpduration 9 9 9 3725999 (by decide)⟩

/-! ## Lemmas on truncation -/

theorem truncQ_near (w : ℚ) :
    |(truncQ w : ℚ) - w| < 1 ∧ (0 ≤ w → (truncQ w : ℚ) ≤ w) ∧ (w ≤ 0 → w ≤ (truncQ w : ℚ)) := by
  have h1 : (Rat.floor w : ℚ) ≤ w := Int.floor_le w
  have h2 : w < (Rat.floor w : ℚ) + 1 := Int.lt_floor_add_one w
  have h3 : (Rat.floor (-w) : ℚ) ≤ -w := Int.floor_le (-w)
  have h4 : -w < (Rat.floor (-w) : ℚ) + 1 := Int.lt_floor_add_one (-w)
  unfold truncQ
  by_cases hw : 0 ≤ w
  · rw [if_pos hw]
    refine ⟨by rw [abs_lt]; constructor <;> linarith, fun _ => h1, fun hw0 => ?_⟩
    have : w = 0 := le_antisymm hw0 hw
    subst this
    have hf : Rat.floor (0 : ℚ) = 0 := by decide
    rw [hf]; simp
  · rw [if_neg hw]
    push_cast
    refine ⟨by rw [abs_lt]; constructor <;> linarith, fun h => absurd h hw, fun _ => by linarith⟩

theorem tdiv_eq_truncQ (w : ℚ) : Int.tdiv w.num w.den = truncQ w := by
  have hd : (0 : Int) ≤ w.den := Int.ofNat_nonneg _
  unfold truncQ
  by_cases hw : 0 ≤ w
  · rw [if_pos hw, Int.tdiv_eq_ediv (Rat.num_nonneg.mpr hw) hd, Rat.floor_def']
  · rw [if_neg hw, Rat.floor_def', Rat.neg_num, Rat.neg_den]
    have hn : w.num < 0 := Rat.num_neg.mpr (not_le.mp hw)
    obtain ⟨p, hp⟩ : ∃ p : Int, w.num = -p := ⟨-w.num, by ring⟩
    have hp0 : 0 ≤ p := by omega
    rw [hp, Int.neg_tdiv, Int.tdiv_eq_ediv hp0 hd, neg_neg]

theorem toInt_truncQ (w : ℚ) (h : |w| < 2147483648) :
    Fp.toInt (Fp.fin w) = some (truncQ w) := by
  obtain ⟨h1, -, -⟩ := truncQ_near w
  rw [abs_lt] at h h1
  have lo : (-2147483648 : ℚ) - 1 < (truncQ w : ℚ) := by linarith
  have hi : (truncQ w : ℚ) < 2147483648 + 1 := by linarith
  have lo' : -2147483648 - 1 < truncQ w := by exact_mod_cast lo
  have hi' : truncQ w < 2147483648 + 1 := by exact_mod_cast hi
  have hi'' : truncQ w ≤ 2147483647 ∨ truncQ w = 2147483648 := by omega
  have hlo'' : -2147483648 ≤ truncQ w := by omega
  have hne : truncQ w ≠ 2147483648 := by
    intro e
    obtain ⟨-, a, -⟩ := truncQ_near w
    by_cases hw : 0 ≤ w
    · have := a hw
      rw [e] at this
      push_cast at this
      linarith
    · rw [e] at h1
      push_cast at h1
      linarith [not_le.mp hw]
  unfold Fp.toInt
  simp only [tdiv_eq_truncQ]
  rw [if_pos ⟨hlo'', by omega⟩]

/-- The scaling of `percentodbvalue` applied to a logarithm `y` gives `2560 * y` up to two
roundings to `float`. -/
theorem encode_value (y : ℚ) (hy : |y| ≤ 17) :
    ∃ w : ℚ, Fp.mul binary32 (Fp.ofInt binary32 256)
      (Fp.mul binary32 (Fp.ofInt binary32 10) (Fp.fin y)) = Fp.fin w ∧
      |w - 256 * (10 * y)| ≤ 1 / 256 := by
  rw [abs_le] at hy
  have e10 : Fp.ofInt binary32 10 = Fp.fin 10 := by decide!
  have e256 : Fp.ofInt binary32 256 = Fp.fin 256 := by decide!
  have p8 : pow2 8 = 256 := by decide!
  have p16 : pow2 16 = 65536 := by decide!
  have p17 : pow2 (8 - (binary32.prec : Int)) = 1 / 65536 := by decide!
  have p9 : pow2 (16 - (binary32.prec : Int)) = 1 / 256 := by decide!
  have hy8 : |10 * y| < pow2 8 := by
    rw [p8, abs_lt]; constructor <;> linarith
  obtain ⟨d, hd, hderr⟩ := roundFmt_near binary32 (10 * y) 8 (by decide) (by decide) hy8
  rw [p17, abs_le] at hderr
  have hdz : |256 * d| < pow2 16 := by
    rw [p16, abs_lt]; constructor <;> linarith
  obtain ⟨w, hw, hwerr⟩ := roundFmt_near binary32 (256 * d) 16 (by decide) (by decide) hdz
  rw [p9, abs_le] at hwerr
  have hmul1 : Fp.mul binary32 (Fp.fin 10) (Fp.fin y) = Fp.fin d := hd
  have hmul2 : Fp.mul binary32 (Fp.fin 256) (Fp.fin d) = Fp.fin w := hw
  refine ⟨w, by rw [e10, e256, hmul1, hmul2], ?_⟩
  rw [abs_le]
  constructor <;> linarith

/-! ## Lemmas on the exact logarithm -/

theorem log_ten_bounds :
    485 / 146 * Real.log 2 < Real.log 10 ∧ Real.log 10 < 196 / 59 * Real.log 2 := by
  have h1 : Real.log ((2 : ℝ) ^ 485) < Real.log ((10 : ℝ) ^ 146) :=
    Real.log_lt_log (by positivity) (by norm_num)
  have h2 : Real.log ((10 : ℝ) ^ 59) < Real.log ((2 : ℝ) ^ 196) :=
    Real.log_lt_log (by positivity) (by norm_num)
  rw [Real.log_pow, Real.log_pow] at h1 h2
  push_cast at h1 h2
  constructor <;> linarith

theorem log_ten_gt_two : 2 < Real.log 10 := by
  have h := log_ten_bounds.1
  have h2 := Real.log_two_gt_d9
  linarith

theorem logb_two_bounds : 59 / 196 < Real.logb 10 2 ∧ Real.logb 10 2 < 146 / 485 := by
  have h10 : 0 < Real.log 10 := by linarith [log_ten_gt_two]
  obtain ⟨h1, h2⟩ := log_ten_bounds
  unfold Real.logb
  constructor
  · rw [lt_div_iff₀ h10]; linarith
  · rw [div_lt_iff₀ h10]; linarith

theorem logb_quarter_bounds :
    -(292 / 485) < Real.logb 10 (1 / 4) ∧ Real.logb 10 (1 / 4) < -(118 / 196) := by
  have e : Real.logb 10 (1 / 4) = -(2 * Real.logb 10 2) := by
    have h4 : (1 / 4 : ℝ) = ((2 : ℝ) ^ 2)⁻¹ := by norm_num
    rw [h4, Real.logb_inv, Real.logb_pow]
    push_cast
    ring
  obtain ⟨h1, h2⟩ := logb_two_bounds
  rw [e]
  constructor <;> linarith

/-- A relative change of one millionth of the argument changes the base-10 logarithm by at
most two millionths. -/
theorem logb_perturb (q r : ℝ) (hr : 0 < r) (h : |q - r| ≤ r / 1000000) :
    |Real.logb 10 q - Real.logb 10 r| ≤ 1 / 500000 := by
  rw [abs_le] at h
  have hq : 0 < q := by linarith
  have h10 : 2 < Real.log 10 := log_ten_gt_two
  have e : Real.logb 10 q - Real.logb 10 r = Real.log (q / r) / Real.log 10 := by
    unfold Real.logb
    rw [Real.log_div hq.ne' hr.ne']
    ring
  have ht : 0 < q / r := div_pos hq hr
  have ht1 : q / r ≤ 1 + 1 / 1000000 := by
    rw [div_le_iff₀ hr]; linarith
  have ht2 : 1 - 1 / 1000000 ≤ q / r := by
    rw [le_div_iff₀ hr]; linarith
  have hup : Real.log (q / r) ≤ q / r - 1 := Real.log_le_sub_one_of_pos ht
  have hlo : 1 - (q / r)⁻¹ ≤ Real.log (q / r) := Real.one_sub_inv_le_log_of_pos ht
  have hinv : (q / r)⁻¹ ≤ 1 + 2 / 1000000 := by
    rw [inv_le_comm₀ ht (by norm_num)]
    refine le_trans ?_ ht2
    norm_num
  rw [e, abs_le]
  constructor
  · rw [le_div_iff₀ (by linarith)]
    nlinarith
  · rw [div_le_iff₀ (by linarith)]
    nlinarith

theorem logb_range (r : ℝ) (h1 : 1 / 10000 ≤ r) (h2 : r ≤ 1000000000000000) :
    -4 ≤ Real.logb 10 r ∧ Real.logb 10 r ≤ 15 := by
  have hr : 0 < r := by linarith
  constructor
  · rw [Real.le_logb_iff_rpow_le (by norm_num) hr]
    have e : (10 : ℝ) ^ (-4 : ℝ) = 1 / 10000 := by
      rw [Real.rpow_neg (by norm_num)]
      have : (10 : ℝ) ^ (4 : ℝ) = 10000 := by
        rw [show (4 : ℝ) = ((4 : ℕ) : ℝ) by norm_num, Real.rpow_natCast]
        norm_num
      rw [this]; norm_num
    rw [e]; exact h1
  · rw [Real.logb_le_iff_le_rpow (by norm_num) hr]
    have e : (10 : ℝ) ^ (15 : ℝ) = 1000000000000000 := by
      rw [show (15 : ℝ) = ((15 : ℕ) : ℝ) by norm_num, Real.rpow_natCast]
      norm_num
    rw [e]; exact h2

/-! ## Lemmas on the round trip of the volume conversions -/

theorem pow2_ge_of_le (k : Int) (h : 31 ≤ k) : 2147483648 ≤ pow2 k := by
  have e : pow2 31 = 2147483648 := by decide!
  rw [← e]
  exact pow2_le_pow2 _ _ h

theorem pow2_add (a b : Int) : pow2 (a + b) = pow2 a * pow2 b := by
  rw [pow2_eq_zpow, pow2_eq_zpow, pow2_eq_zpow, zpow_add₀ (by norm_num : (2 : ℚ) ≠ 0)]

/-- A finite result of `roundFmt` is a value of the format: rounding it again changes
nothing. -/
theorem roundFmt_idem (f : Fmt) (hp : 0 < f.prec) (q r : ℚ) (h : roundFmt f q = Fp.fin r) :
    roundFmt f r = Fp.fin r := by
  by_cases hq : q = 0
  · subst hq
    have h0 : roundFmt f 0 = Fp.fin 0 := by simp [roundFmt]
    rw [h0, Fp.fin.injEq] at h
    rw [← h, h0]
  have habs : 0 < |q| := abs_pos.mpr hq
  obtain ⟨-, hE2⟩ := ilog2_spec _ habs
  unfold roundFmt at h
  rw [if_neg hq] at h
  simp only at h
  split_ifs at h with c1 c2
  rw [Fp.fin.injEq] at h
  set e := max (ilog2 |q|) (1 - f.emax) with he
  set ulp := pow2 (e - ((f.prec : Int) - 1)) with hulp
  have hpos : 0 < ulp := pow2_pos _
  have hee : ilog2 |q| + 1 ≤ e + 1 := by
    have := le_max_left (ilog2 |q|) (1 - f.emax)
    omega
  have hemin : 1 - f.emax ≤ e := le_max_right _ _
  have hqlt : |q| < pow2 (e + 1) := lt_of_lt_of_le hE2 (pow2_le_pow2 _ _ hee)
  have hsplit : pow2 (e + 1) = pow2 (f.prec : Int) * ulp := by
    rw [hulp, ← pow2_add]
    congr 1; ring
  have hP : pow2 (f.prec : Int) = ((2 ^ f.prec : ℕ) : ℚ) := by
    rw [pow2_eq_zpow, zpow_natCast]; push_cast; rfl
  have hx : |q / ulp| < pow2 (f.prec : Int) := by
    rw [abs_div, abs_of_pos hpos, div_lt_iff₀ hpos, ← hsplit]
    exact hqlt
  have hM := roundNE_spec (q / ulp)
  set M := roundNE (q / ulp) with hMdef
  have hMabs : |(M : ℚ)| < pow2 (f.prec : Int) + 1 := by
    have h1 : |(M : ℚ)| ≤ |(M : ℚ) - q / ulp| + |q / ulp| := by
      have := abs_add ((M : ℚ) - q / ulp) (q / ulp)
      rwa [sub_add_cancel] at this
    linarith
  have hMnat : M.natAbs ≤ 2 ^ f.prec := by
    have h1 : |(M : ℚ)| = ((M.natAbs : ℕ) : ℚ) := by
      rw [← Int.cast_abs, Int.abs_eq_natAbs, Int.cast_natCast]
    rw [h1, hP] at hMabs
    have h2 : ((M.natAbs : ℕ) : ℚ) < ((2 ^ f.prec + 1 : ℕ) : ℚ) := by
      push_cast; push_cast at hMabs; exact hMabs
    have h3 : M.natAbs < 2 ^ f.prec + 1 := by exact_mod_cast h2
    omega
  have hmaxr : |(M : ℚ) * ulp| < pow2 (f.emax + 1) := not_le.mp c1
  rw [← h]
  rcases Nat.lt_or_ge M.natAbs (2 ^ f.prec) with hlt | hge
  · exact roundFmt_exact f M (e - ((f.prec : Int) - 1)) hlt (by omega) hmaxr
  · have heq : M.natAbs = 2 ^ f.prec := le_antisymm hMnat hge
    have hone : (1 : Int).natAbs < 2 ^ f.prec := by
      have : 2 ^ 1 ≤ 2 ^ f.prec := Nat.pow_le_pow_right (by norm_num) hp
      have e1 : (1 : Int).natAbs = 1 := rfl
      omega
    have hone' : (-1 : Int).natAbs < 2 ^ f.prec := hone
    rcases Int.natAbs_eq M with hM1 | hM1
    · have e1 : (M : ℚ) * ulp = ((1 : Int) : ℚ) * pow2 (e + 1) := by
        rw [hsplit, hP, hM1, heq]; push_cast; ring
      rw [e1] at hmaxr ⊢
      exact roundFmt_exact f 1 (e + 1) hone (by omega) hmaxr
    · have e1 : (M : ℚ) * ulp = ((-1 : Int) : ℚ) * pow2 (e + 1) := by
        rw [hsplit, hP, hM1, heq]; push_cast; ring
      rw [e1] at hmaxr ⊢
      exact roundFmt_exact f (-1) (e + 1) hone' (by omega) hmaxr

/-- The first steps of `dbvaluetopercent`: the division by `256` is exact and the
division by `10` is rounded to a value of type `float`. -/
theorem decode_entry (d : Int) (h1 : -16000 ≤ d) (h2 : d ≤ 16000) :
    ∃ x : ℚ, Fp.divPos binary32
      (Fp.round binary32 (Fp.divPos binary64 (Fp.ofInt binary32 d) 256)) 10 = Fp.fin x ∧
      roundFmt binary32 x = Fp.fin x ∧ |x - (d : ℚ) / 2560| ≤ 1 / 4194304 := by
  have hdq1 : (-16000 : ℚ) ≤ d := by exact_mod_cast h1
  have hdq2 : (d : ℚ) ≤ 16000 := by exact_mod_cast h2
  have hnat : d.natAbs < 2 ^ 24 := by norm_num; omega
  have hnat' : d.natAbs < 2 ^ 53 := by norm_num; omega
  have p0 : pow2 0 = 1 := by decide!
  have p8 : pow2 (-8) = 1 / 256 := by decide!
  have p3 : pow2 3 = 8 := by decide!
  have p21 : pow2 (3 - (binary32.prec : Int)) = 1 / 2097152 := by decide!
  have big32 : (2147483648 : ℚ) ≤ pow2 (binary32.emax + 1) := pow2_ge_of_le _ (by decide)
  have big64 : (2147483648 : ℚ) ≤ pow2 (binary64.emax + 1) := pow2_ge_of_le _ (by decide)
  have a1 : Fp.ofInt binary32 d = Fp.fin d := by
    have := roundFmt_exact binary32 d 0 hnat (by decide) (by
      rw [p0, mul_one, abs_lt]; constructor <;> linarith)
    rwa [p0, mul_one] at this
  have a2 : Fp.divPos binary64 (Fp.fin d) 256 = Fp.fin ((d : ℚ) / 256) := by
    have := roundFmt_exact binary64 d (-8) hnat' (by decide) (by
      rw [p8, abs_lt]; constructor <;> linarith)
    rw [p8] at this
    have e : (d : ℚ) / 256 = (d : ℚ) * (1 / 256) := by ring
    show roundFmt binary64 ((d : ℚ) / 256) = _
    rw [e]; exact this
  have a3 : Fp.round binary32 (Fp.fin ((d : ℚ) / 256)) = Fp.fin ((d : ℚ) / 256) := by
    have := roundFmt_exact binary32 d (-8) hnat (by decide) (by
      rw [p8, abs_lt]; constructor <;> linarith)
    rw [p8] at this
    have e : (d : ℚ) / 256 = (d : ℚ) * (1 / 256) := by ring
    show roundFmt binary32 ((d : ℚ) / 256) = _
    rw [e]; exact this
  have hlt : |(d : ℚ) / 256 / 10| < pow2 3 := by
    rw [p3, abs_lt]; constructor <;> linarith
  obtain ⟨x, hx, hxerr⟩ := roundFmt_near binary32 ((d : ℚ) / 256 / 10) 3 (by decide)
    (by decide) hlt
  rw [p21] at hxerr
  refine ⟨x, ?_, roundFmt_idem binary32 (by decide) _ x hx, ?_⟩
  · rw [a1, a2, a3]; exact hx
  · have e : (d : ℚ) / 2560 = (d : ℚ) / 256 / 10 := by ring
    rw [e]
    refine le_trans hxerr ?_
    norm_num

/-! ## Lemmas on the relative error of rounding -/

/-- Rounding a value in the normal range of a format changes it by a relative error of at
most `2 ^ (-prec)`. -/
theorem roundFmt_rel (f : Fmt) (q : ℚ) (a b : Int) (h1 : pow2 a ≤ |q|) (h2 : |q| < pow2 b)
    (ha : 1 - f.emax ≤ a) (hb : b ≤ f.emax) :
    ∃ r : ℚ, roundFmt f q = Fp.fin r ∧ |r - q| ≤ |q| * pow2 (-(f.prec : Int)) := by
  have hpos : 0 < |q| := lt_of_lt_of_le (pow2_pos a) h1
  obtain ⟨hE1, hE2⟩ := ilog2_spec _ hpos
  have hak : a < ilog2 |q| + 1 := pow2_lt_pow2 _ _ (lt_of_le_of_lt h1 hE2)
  have hkb : ilog2 |q| < b := pow2_lt_pow2 _ _ (lt_of_le_of_lt hE1 h2)
  obtain ⟨r, hr, herr⟩ := roundFmt_near f q (ilog2 |q| + 1) (by omega) (by omega) hE2
  refine ⟨r, hr, le_trans herr ?_⟩
  have e1 : pow2 (ilog2 |q| + 1 - (f.prec : Int)) =
      2 * (pow2 (ilog2 |q|) * pow2 (-(f.prec : Int))) := by
    rw [← pow2_add, ← pow2_succ]
    congr 1; ring
  rw [e1]
  have := mul_le_mul_of_nonneg_right hE1 (pow2_pos (-(f.prec : Int))).le
  linarith

/-- One rounding step on a value known up to a relative error: `x` in `[l * X, u * X]` is
rounded to a value in `[l1 * X, u1 * X]`. -/
theorem round_step (f : Fmt) (X x l u l1 u1 e : ℚ) (a b : Int) (hX : 0 < X) (hl : 0 ≤ l)
    (h1 : l * X ≤ x) (h2 : x ≤ u * X) (hlo : pow2 a ≤ l * X) (hhi : u * X < pow2 b)
    (ha : 1 - f.emax ≤ a) (hb : b ≤ f.emax) (he : pow2 (-(f.prec : Int)) = e) (he1 : e ≤ 1)
    (hl1 : l1 ≤ l * (1 - e)) (hu1 : u * (1 + e) ≤ u1) :
    ∃ y : ℚ, roundFmt f x = Fp.fin y ∧ l1 * X ≤ y ∧ y ≤ u1 * X := by
  have hx0 : 0 ≤ x := le_trans (mul_nonneg hl hX.le) h1
  have he0 : 0 ≤ e := by rw [← he]; exact (pow2_pos _).le
  obtain ⟨y, hy, herr⟩ := roundFmt_rel f x a b (by rw [abs_of_nonneg hx0]; linarith)
    (by rw [abs_of_nonneg hx0]; linarith) ha hb
  rw [he, abs_of_nonneg hx0, abs_le] at herr
  have a1 : l * X * (1 - e) ≤ x * (1 - e) := mul_le_mul_of_nonneg_right h1 (by linarith)
  have a2 : x * (1 + e) ≤ u * X * (1 + e) := mul_le_mul_of_nonneg_right h2 (by linarith)
  have a3 : l1 * X ≤ l * (1 - e) * X := mul_le_mul_of_nonneg_right hl1 hX.le
  have a4 : u * (1 + e) * X ≤ u1 * X := mul_le_mul_of_nonneg_right hu1 hX.le
  refine ⟨y, hy, ?_, ?_⟩
  · have e1 : l * (1 - e) * X = l * X * (1 - e) := by ring
    have e2 : x * (1 - e) = x - x * e := by ring
    linarith
  · have e1 : u * (1 + e) * X = u * X * (1 + e) := by ring
    have e2 : x * (1 + e) = x + x * e := by ring
    linarith

theorem square_rel (s t : ℚ) (ht : 0 ≤ t) (h1 : t * (1 - 1 / 16777216) ≤ s)
    (h2 : s ≤ t * (1 + 1 / 16777216)) :
    (1 - 2 / 16777216) * (t * t) ≤ s * s ∧ s * s ≤ (1 + 3 / 16777216) * (t * t) := by
  have hs : 0 ≤ s := le_trans (mul_nonneg ht (by norm_num)) h1
  have a1 := mul_le_mul h1 h1 (mul_nonneg ht (by norm_num)) hs
  have a2 := mul_le_mul h2 h2 hs (mul_nonneg ht (by norm_num))
  have htt : 0 ≤ t * t := mul_nonneg ht ht
  constructor <;> nlinarith

/-- The square of the `float` nearest to a nonzero `int`. -/
theorem ratio_square (value : Int) (h0 : value ≠ 0) (h1 : -2147483648 ≤ value)
    (h2 : value ≤ 2147483647) :
    ∃ a : ℚ, Fp.ofInt binary32 value = Fp.fin a ∧
      (1 - 2 / 16777216) * ((value : ℚ) * value) ≤ a * a ∧
      a * a ≤ (1 + 3 / 16777216) * ((value : ℚ) * value) := by
  have hv1 : (1 : ℚ) ≤ |(value : ℚ)| := by
    have : (1 : Int) ≤ |value| := Int.one_le_abs h0
    exact_mod_cast this
  have hv2 : |(value : ℚ)| ≤ 2147483648 := by
    have : |value| ≤ 2147483648 := by rw [abs_le]; constructor <;> omega
    exact_mod_cast this
  have p0 : pow2 0 = 1 := by decide!
  have p32 : pow2 32 = 4294967296 := by decide!
  have e24 : pow2 (-(binary32.prec : Int)) = 1 / 16777216 := by decide!
  obtain ⟨a, ha, haerr⟩ := roundFmt_rel binary32 (value : ℚ) 0 32 (by rw [p0]; exact hv1)
    (by rw [p32]; linarith) (by decide) (by decide)
  rw [e24] at haerr
  have haabs1 : |(value : ℚ)| * (1 - 1 / 16777216) ≤ |a| := by
    have := abs_sub_abs_le_abs_sub (value : ℚ) a
    rw [abs_sub_comm] at this
    linarith
  have haabs2 : |a| ≤ |(value : ℚ)| * (1 + 1 / 16777216) := by
    have := abs_sub_abs_le_abs_sub a (value : ℚ)
    linarith
  have hP : a * a = |a| * |a| := (abs_mul_abs_self a).symm
  have hV : (value : ℚ) * value = |(value : ℚ)| * |(value : ℚ)| :=
    (abs_mul_abs_self (value : ℚ)).symm
  refine ⟨a, ha, ?_⟩
  rw [hP, hV]
  exact square_rel _ _ (abs_nonneg _) haabs1 haabs2

/-- The ratio computed by `percentodbvalue` for a nonzero `int` is the exact ratio
`value * value / 10000` up to a relative error of one millionth. -/
theorem ratio_general (value : Int) (h0 : value ≠ 0) (h1 : -2147483648 ≤ value)
    (h2 : value ≤ 2147483647) :
    ∃ q : ℚ, Fp.round binary32 (Fp.divPos binary64
        (Fp.mul binary32 (Fp.ofInt binary32 value) (Fp.ofInt binary32 value)) 10000) =
        Fp.fin q ∧ roundFmt binary32 q = Fp.fin q ∧
      |q - (value : ℚ) * value / 10000| ≤ (value : ℚ) * value / 10000 / 1000000 := by
  have hv1 : (1 : ℚ) ≤ |(value : ℚ)| := by
    have : (1 : Int) ≤ |value| := Int.one_le_abs h0
    exact_mod_cast this
  have hv2 : |(value : ℚ)| ≤ 2147483648 := by
    have : |value| ≤ 2147483648 := by rw [abs_le]; constructor <;> omega
    exact_mod_cast this
  obtain ⟨a, ha, hP1, hP2⟩ := ratio_square value h0 h1 h2
  have hVabs : (value : ℚ) * value = |(value : ℚ)| * |(value : ℚ)| :=
    (abs_mul_abs_self (value : ℚ)).symm
  have hV1 : 1 ≤ (value : ℚ) * value := by
    rw [hVabs]
    have := mul_le_mul hv1 hv1 (by norm_num) (abs_nonneg (value : ℚ))
    linarith
  have hV2 : (value : ℚ) * value ≤ 4611686018427387904 := by
    rw [hVabs]
    have := mul_le_mul hv2 hv2 (abs_nonneg (value : ℚ)) (by norm_num)
    linarith
  revert hP1 hP2 hV1 hV2
  generalize (value : ℚ) * value = V
  intro hP1 hP2 hV1 hV2
  have pm1 : pow2 (-1) = 1 / 2 := by decide!
  have p63 : pow2 63 = 9223372036854775808 := by decide!
  have pm14 : pow2 (-14) = 1 / 16384 := by decide!
  have p50 : pow2 50 = 1125899906842624 := by decide!
  have e24 : pow2 (-(binary32.prec : Int)) = 1 / 16777216 := by decide!
  have e53 : pow2 (-(binary64.prec : Int)) = 1 / 9007199254740992 := by decide!
  -- the product, rounded to `float`
  obtain ⟨b, hb, hb1, hb2⟩ := round_step binary32 V (a * a) (1 - 2 / 16777216)
    (1 + 3 / 16777216) (1 - 3 / 16777216) (1 + 5 / 16777216) (1 / 16777216) (-1) 63
    (by linarith) (by norm_num) hP1 hP2 (by rw [pm1]; linarith) (by rw [p63]; linarith)
    (by decide) (by decide) e24 (by norm_num) (by norm_num) (by norm_num)
  -- the division by `10000.0`, in `double`
  have hc1' : (1 - 3 / 16777216) * (V / 10000) ≤ b / 10000 := by linarith
  have hc2' : b / 10000 ≤ (1 + 5 / 16777216) * (V / 10000) := by linarith
  obtain ⟨c, hc, hc1, hc2⟩ := round_step binary64 (V / 10000) (b / 10000) (1 - 3 / 16777216)
    (1 + 5 / 16777216) (1 - 4 / 16777216) (1 + 6 / 16777216) (1 / 9007199254740992) (-14) 50
    (by linarith) (by norm_num) hc1' hc2' (by rw [pm14]; linarith) (by rw [p50]; linarith)
    (by decide) (by decide) e53 (by norm_num) (by norm_num) (by norm_num)
  -- the conversion of the quotient to `float`
  obtain ⟨q, hq, hq1, hq2⟩ := round_step binary32 (V / 10000) c (1 - 4 / 16777216)
    (1 + 6 / 16777216) (1 - 6 / 16777216) (1 + 8 / 16777216) (1 / 16777216) (-14) 50
    (by linarith) (by norm_num) hc1 hc2 (by rw [pm14]; linarith) (by rw [p50]; linarith)
    (by decide) (by decide) e24 (by norm_num) (by norm_num) (by norm_num)
  refine ⟨q, ?_, roundFmt_idem binary32 (by decide) c q hq, ?_⟩
  · have s1 : Fp.ofInt binary32 value = Fp.fin a := ha
    have s2 : Fp.mul binary32 (Fp.fin a) (Fp.fin a) = Fp.fin b := hb
    have s3 : Fp.divPos binary64 (Fp.fin b) 10000 = Fp.fin c := hc
    have s4 : Fp.round binary32 (Fp.fin c) = Fp.fin q := hq
    rw [s1, s2, s3, s4]
  · rw [abs_le]
    constructor <;> linarith

theorem rat_le_real (a b : ℚ) : a ≤ b ↔ (a : ℝ) ≤ (b : ℝ) := Rat.cast_le.symm

theorem rat_lt_real (a b : ℚ) : a < b ↔ (a : ℝ) < (b : ℝ) := Rat.cast_lt.symm

theorem ratio_50 :
    Fp.round binary32 (Fp.divPos binary64
      (Fp.mul binary32 (Fp.ofInt binary32 50) (Fp.ofInt binary32 50)) 10000) =
      Fp.fin (1 / 4) := by
  decide!

/-- The nonzero branch of `percentodbvalue`: the result is the truncation toward zero of
a value `w` within `2560 * δ + 1 / 100` of `256 * 10 * log10 (value * value / 10000)`,
where `δ` bounds the error of the library's `log10` at the ratio `q`. -/
theorem encode_general (L : Libm) (value : Int) (h0 : value ≠ 0) (q y : ℚ) (δ : ℝ)
    (hq : Fp.round binary32 (Fp.divPos binary64
      (Fp.mul binary32 (Fp.ofInt binary32 value) (Fp.ofInt binary32 value)) 10000) =
      Fp.fin q)
    (hr1 : 1 ≤ (value : ℚ) * value) (hr2 : (value : ℚ) * value ≤ 4611686018427387904)
    (herr : |q - (value : ℚ) * value / 10000| ≤ (value : ℚ) * value / 10000 / 1000000)
    (hy : L.log10f (Fp.fin q) = Fp.fin y) (hacc : |(y : ℝ) - Real.logb 10 (q : ℝ)| ≤ δ)
    (hδ : δ ≤ 1) :
    ∃ w : ℚ, percentodbvalue L value = some (truncQ w) ∧
      |(w : ℝ) - 256 * (10 * Real.logb 10 ((value : ℝ) * value / 10000))| ≤
        2560 * δ + 1 / 100 := by
  have herrR : |(q : ℝ) - (value : ℝ) * value / 10000| ≤
      (value : ℝ) * value / 10000 / 1000000 := by
    have h := (rat_le_real _ _).mp herr
    push_cast at h
    exact h
  have hr1R : (1 : ℝ) ≤ (value : ℝ) * value := by
    have h := (rat_le_real _ _).mp hr1
    push_cast at h
    exact h
  have hr2R : (value : ℝ) * value ≤ 4611686018427387904 := by
    have h := (rat_le_real _ _).mp hr2
    push_cast at h
    exact h
  have hpert := logb_perturb (q : ℝ) ((value : ℝ) * value / 10000) (by linarith) herrR
  obtain ⟨hl1, hl2⟩ := logb_range ((value : ℝ) * value / 10000) (by linarith) (by linarith)
  rw [abs_le] at hacc hpert
  have hy6R : |(y : ℝ)| ≤ 17 := by
    rw [abs_le]; constructor <;> linarith
  have hy6 : |y| ≤ 17 := by
    have h : ((|y| : ℚ) : ℝ) ≤ ((17 : ℚ) : ℝ) := by push_cast; exact hy6R
    exact (rat_le_real _ _).mpr h
  obtain ⟨w, hw, hwerr⟩ := encode_value y hy6
  have hwerrR : |(w : ℝ) - 256 * (10 * (y : ℝ))| ≤ 1 / 256 := by
    have h := (rat_le_real _ _).mp hwerr
    push_cast at h
    exact h
  rw [abs_le] at hwerr hy6 hwerrR
  have hwabs : |w| < 2147483648 := by
    rw [abs_lt]; constructor <;> linarith
  refine ⟨w, ?_, ?_⟩
  · unfold percentodbvalue
    rw [if_neg h0]
    simp only [hq, hy, hw]
    exact toInt_truncQ w hwabs
  · rw [abs_le]
    constructor <;> linarith

theorem square_range (value : Int) (h0 : value ≠ 0) (h1 : -2147483648 ≤ value)
    (h2 : value ≤ 2147483647) :
    1 ≤ (value : ℚ) * value ∧ (value : ℚ) * value ≤ 4611686018427387904 := by
  have hv1 : (1 : ℚ) ≤ |(value : ℚ)| := by
    have : (1 : Int) ≤ |value| := Int.one_le_abs h0
    exact_mod_cast this
  have hv2 : |(value : ℚ)| ≤ 2147483648 := by
    have : |value| ≤ 2147483648 := by rw [abs_le]; constructor <;> omega
    exact_mod_cast this
  have hVabs : (value : ℚ) * value = |(value : ℚ)| * |(value : ℚ)| :=
    (abs_mul_abs_self (value : ℚ)).symm
  rw [hVabs]
  have a1 := mul_le_mul hv1 hv1 (by norm_num) (abs_nonneg (value : ℚ))
  have a2 := mul_le_mul hv2 hv2 (abs_nonneg (value : ℚ)) (by norm_num)
  constructor <;> linarith

/-! ## Volume: percent to decibels -/

/-- C4: `percentodbvalue 0` is `-10240` and `percentodbvalue 100` is `0`, exactly, for every
C library whose `log10` maps `1` to `0`; and for every nonzero `value` of type `int` the
function returns `256 * 10 * log10 (value * value / 10000)` truncated toward zero, up to
the accuracy of the arithmetic: the ratio `q` of type `float` is within one millionth of
`value * value / 10000`, and where the library's `log10` returns at `q` a value within
`δ ≤ 1` of the exact logarithm of `q`, the result is the truncation toward zero of a `w`
that lies within `2560 * δ + 1 / 100` of `256 * 10 * log10 (value * value / 10000)`. In
particular `percentodbvalue 50` is `-1541` for every library whose `log10` returns at
`1/4` a value within `1 / 20000` of the exact logarithm. -/
theorem percentodbvalue_endpoints (L : Libm) (hlog : L.log10f (Fp.fin 1) = Fp.fin 0) :
    percentodbvalue L 0 = some (-10240) ∧ percentodbvalue L 100 = some 0 ∧
    (∀ value : Int, value ≠ 0 → -2147483648 ≤ value → value ≤ 2147483647 →
      ∃ q : ℚ,
        Fp.round binary32 (Fp.divPos binary64
          (Fp.mul binary32 (Fp.ofInt binary32 value) (Fp.ofInt binary32 value)) 10000) =
          Fp.fin q ∧
        |q - (value : ℚ) * value / 10000| ≤ (value : ℚ) * value / 10000 / 1000000 ∧
        ∀ (y : ℚ) (δ : ℝ), L.log10f (Fp.fin q) = Fp.fin y →
          |(y : ℝ) - Real.logb 10 (q : ℝ)| ≤ δ → δ ≤ 1 →
          ∃ w : ℚ, percentodbvalue L value = some (truncQ w) ∧
            |(w : ℝ) - 256 * (10 * Real.logb 10 ((value : ℝ) * value / 10000))| ≤
              2560 * δ + 1 / 100) ∧
    (∀ y : ℚ, L.log10f (Fp.fin (1 / 4)) = Fp.fin y →
      |(y : ℝ) - Real.logb 10 (1 / 4)| ≤ 1 / 20000 →
      percentodbvalue L 50 = some (-1541)) := by
  refine ⟨rfl, ?_, ?_, ?_⟩
  · unfold percentodbvalue
    rw [if_neg (by decide)]
    simp only [ratio_100, hlog, encode_zero]
  · intro value h0 h1 h2
    obtain ⟨q, hq, -, herr⟩ := ratio_general value h0 h1 h2
    obtain ⟨hr1, hr2⟩ := square_range value h0 h1 h2
    exact ⟨q, hq, herr, fun y δ hy hacc hδ =>
      encode_general L value h0 q y δ hq hr1 hr2 herr hy hacc hδ⟩
  · intro y hy hacc
    obtain ⟨hb1, hb2⟩ := logb_quarter_bounds
    rw [abs_le] at hacc
    have hy1 : -(6022 / 10000 : ℚ) ≤ y := by
      rw [rat_le_real]; push_cast; linarith
    have hy2 : y ≤ -(60198 / 100000 : ℚ) := by
      rw [rat_le_real]; push_cast; linarith
    obtain ⟨w, hw, hwerr⟩ := encode_value y (by rw [abs_le]; constructor <;> linarith)
    rw [abs_le] at hwerr
    have hwabs : |w| < 2147483648 := by
      rw [abs_lt]; constructor <;> linarith
    obtain ⟨hn, -, hneg⟩ := truncQ_near w
    have hneg1 := hneg (by linarith)
    rw [abs_lt] at hn
    have ht1 : ((-1542 : Int) : ℚ) < (truncQ w : ℚ) := by push_cast; linarith
    have ht2 : (truncQ w : ℚ) < ((-1540 : Int) : ℚ) := by push_cast; linarith
    have ht1i : -1542 < truncQ w := Int.cast_lt.mp ht1
    have ht2i : truncQ w < -1540 := Int.cast_lt.mp ht2
    have ht : truncQ w = -1541 := by omega
    unfold percentodbvalue
    rw [if_neg (by decide)]
    simp only [ratio_50, hy, hw]
    rw [toInt_truncQ w hwabs, ht]

theorem percentodbvalue_endpoints_witness :
    quarterLibm.log10f (Fp.fin 1) = Fp.fin 0 ∧
    percentodbvalue quarterLibm 0 = some (-10240) ∧
    percentodbvalue quarterLibm 100 = some 0 ∧
    percentodbvalue quarterLibm 50 = some (-1541) :=
  have h := percentodbvalue_endpoints quarterLibm (by decide!)
  have hacc : |((-10100891 / 16777216 : ℚ) : ℝ) - Real.logb 10 (1 / 4)| ≤ 1 / 20000 := by
    obtain ⟨hb1, hb2⟩ := logb_quarter_bounds
    rw [abs_le]
    push_cast
    constructor <;> linarith
  ⟨by decide!, h.1, h.2.1, h.2.2.2 (-10100891 / 16777216) (by decide!) hacc⟩

theorem truncQ_intCast (k : Int) : truncQ (k : ℚ) = k := by
  have hf : Rat.floor (k : ℚ) = k := @Int.floor_intCast ℚ _ _ k
  have hg : Rat.floor (-(k : ℚ)) = -k := by
    have e : -(k : ℚ) = ((-k : Int) : ℚ) := by push_cast; ring
    rw [e]
    exact @Int.floor_intCast ℚ _ _ (-k)
  unfold truncQ
  split_ifs
  · exact hf
  · rw [hg, neg_neg]

/-- The result of `roundSqrt` is one of the two multiples of the unit in the last place
that enclose the square root. -/
theorem roundSqrt_cases (f : Fmt) (q : ℚ) :
    ∃ m1 : Nat,
      (m1 = natSqrt (Rat.floor (q / (pow2 (max (Int.fdiv (ilog2 q) 2) (1 - f.emax) -
          ((f.prec : Int) - 1)) * pow2 (max (Int.fdiv (ilog2 q) 2) (1 - f.emax) -
          ((f.prec : Int) - 1))))).toNat ∨
        m1 = natSqrt (Rat.floor (q / (pow2 (max (Int.fdiv (ilog2 q) 2) (1 - f.emax) -
          ((f.prec : Int) - 1)) * pow2 (max (Int.fdiv (ilog2 q) 2) (1 - f.emax) -
          ((f.prec : Int) - 1))))).toNat + 1) ∧
      roundSqrt f q =
        if pow2 (f.emax + 1) ≤ (m1 : ℚ) * pow2 (max (Int.fdiv (ilog2 q) 2) (1 - f.emax) -
            ((f.prec : Int) - 1))
        then Fp.pinf
        else Fp.fin ((m1 : ℚ) * pow2 (max (Int.fdiv (ilog2 q) 2) (1 - f.emax) -
            ((f.prec : Int) - 1))) := by
  unfold roundSqrt
  simp only
  refine ⟨_, ?_, rfl⟩
  split_ifs <;> simp

/-- The correctly rounded square root of a positive `w` below `2 ^ 14` lies between any
lower and any upper bound of the exact square root, up to `2 ^ (-46)`. -/
theorem roundSqrt_bounds (w a b : ℚ) (hw : 0 < w) (hw2 : w < 16384) (ha0 : 0 ≤ a)
    (ha : a * a ≤ w) (hb0 : 0 ≤ b) (hb : w ≤ b * b) :
    ∃ s : ℚ, roundSqrt binary64 w = Fp.fin s ∧ a - 1 / 70368744177664 ≤ s ∧
      s ≤ b + 1 / 70368744177664 := by
  obtain ⟨hE1, -⟩ := ilog2_spec w hw
  have p14 : pow2 14 = 16384 := by decide!
  have p46 : pow2 (-46) = 1 / 70368744177664 := by decide!
  have hE : ilog2 w < 14 := pow2_lt_pow2 _ _ (by rw [p14]; linarith)
  have hfd : Int.fdiv (ilog2 w) 2 = ilog2 w / 2 := Int.fdiv_eq_ediv _ (by norm_num)
  obtain ⟨m1, hm1, hs⟩ := roundSqrt_cases binary64 w
  rw [natSqrt_eq] at hm1
  have he : max (Int.fdiv (ilog2 w) 2) (1 - binary64.emax) - ((binary64.prec : Int) - 1) ≤
      -46 := by
    have h1 : (binary64.prec : Int) = 53 := rfl
    have h2 : binary64.emax = 1023 := rfl
    rw [hfd, h1, h2]
    rcases max_cases (ilog2 w / 2) (1 - 1023) with ⟨h, -⟩ | ⟨h, -⟩ <;> rw [h] <;> omega
  revert hm1 hs
  generalize max (Int.fdiv (ilog2 w) 2) (1 - binary64.emax) - ((binary64.prec : Int) - 1) = ee
    at he
  intro hm1 hs
  have hulp : 0 < pow2 ee := pow2_pos ee
  have hulp2 : pow2 ee ≤ 1 / 70368744177664 := by
    rw [← p46]; exact pow2_le_pow2 _ _ he
  revert hm1 hs
  generalize pow2 ee = ulp at hulp hulp2
  intro hm1 hs
  have hx0 : 0 < w / (ulp * ulp) := div_pos hw (mul_pos hulp hulp)
  have hfl0 : 0 ≤ Rat.floor (w / (ulp * ulp)) := Int.floor_nonneg.mpr hx0.le
  have hF1 : ((Rat.floor (w / (ulp * ulp))).toNat : ℚ) ≤ w / (ulp * ulp) := by
    have h1 : (((Rat.floor (w / (ulp * ulp))).toNat : Int) : ℚ) =
        (Rat.floor (w / (ulp * ulp)) : ℚ) := by rw [Int.toNat_of_nonneg hfl0]
    rw [Int.cast_natCast] at h1
    rw [h1]
    exact Int.floor_le _
  have hF2 : w / (ulp * ulp) < ((Rat.floor (w / (ulp * ulp))).toNat : ℚ) + 1 := by
    have h1 : (((Rat.floor (w / (ulp * ulp))).toNat : Int) : ℚ) =
        (Rat.floor (w / (ulp * ulp)) : ℚ) := by rw [Int.toNat_of_nonneg hfl0]
    rw [Int.cast_natCast] at h1
    rw [h1]
    exact Int.lt_floor_add_one _
  revert hm1
  generalize (Rat.floor (w / (ulp * ulp))).toNat = F at hF1 hF2
  intro hm1
  have hs1 : Nat.sqrt F * Nat.sqrt F ≤ F := Nat.sqrt_le F
  have hs2 : F + 1 ≤ (Nat.sqrt F + 1) * (Nat.sqrt F + 1) := Nat.lt_succ_sqrt F
  have hs1q : (Nat.sqrt F : ℚ) * (Nat.sqrt F : ℚ) ≤ (F : ℚ) := by exact_mod_cast hs1
  have hs2q : (F : ℚ) + 1 ≤ ((Nat.sqrt F : ℚ) + 1) * ((Nat.sqrt F : ℚ) + 1) := by
    exact_mod_cast hs2
  revert hm1
  generalize Nat.sqrt F = m at hs1q hs2q
  intro hm1
  have hm0 : (0 : ℚ) ≤ m := Nat.cast_nonneg m
  have hu2 : 0 < ulp * ulp := mul_pos hulp hulp
  have hlow : ((m : ℚ) * ulp) * ((m : ℚ) * ulp) ≤ w := by
    have h1 : (m : ℚ) * m ≤ w / (ulp * ulp) := le_trans hs1q hF1
    rw [le_div_iff₀ hu2] at h1
    linarith
  have hupp : w < (((m : ℚ) + 1) * ulp) * (((m : ℚ) + 1) * ulp) := by
    have h1 : w / (ulp * ulp) < ((m : ℚ) + 1) * ((m : ℚ) + 1) := lt_of_lt_of_le hF2 hs2q
    rw [div_lt_iff₀ hu2] at h1
    linarith
  have hmu0 : 0 ≤ (m : ℚ) * ulp := mul_nonneg hm0 hulp.le
  have hA : a < ((m : ℚ) + 1) * ulp := by
    by_contra hc
    have hc' := not_lt.mp hc
    have : (((m : ℚ) + 1) * ulp) * (((m : ℚ) + 1) * ulp) ≤ a * a :=
      mul_le_mul hc' hc' (by positivity) ha0
    linarith
  have hB : (m : ℚ) * ulp ≤ b := by
    by_contra hc
    have hc' := not_le.mp hc
    have : b * b < ((m : ℚ) * ulp) * ((m : ℚ) * ulp) :=
      mul_lt_mul'' hc' hc' hb0 hb0
    linarith
  have h128 : (m : ℚ) * ulp < 128 := by
    by_contra hc
    have hc' := not_lt.mp hc
    have : (128 : ℚ) * 128 ≤ ((m : ℚ) * ulp) * ((m : ℚ) * ulp) :=
      mul_le_mul hc' hc' (by norm_num) hmu0
    linarith
  have hm1c : (m1 : ℚ) = (m : ℚ) ∨ (m1 : ℚ) = (m : ℚ) + 1 := by
    rcases hm1 with h | h
    · left; rw [h]
    · right; rw [h]; push_cast; rfl
  have hm1lo : (m : ℚ) * ulp ≤ (m1 : ℚ) * ulp := by
    rcases hm1c with h | h
    · rw [h]
    · rw [h]; linarith
  have hm1hi : (m1 : ℚ) * ulp ≤ ((m : ℚ) + 1) * ulp := by
    rcases hm1c with h | h
    · rw [h]; linarith
    · rw [h]
  have big : (2147483648 : ℚ) ≤ pow2 (binary64.emax + 1) := pow2_ge_of_le _ (by decide)
  rw [if_neg (not_le.mpr (by linarith))] at hs
  refine ⟨_, hs, by linarith, by linarith⟩

/-- The last steps of `dbvaluetopercent`: where the power of ten `v` satisfies
`(p - 0.9) ^ 2 ≤ 10000 * v ≤ (p + 1.9) ^ 2` for a percentage `p` from `1` to `99`, the
floored square root is `p - 1`, `p` or `p + 1`, and it is not clamped. -/
theorem decode_sqrt (v : ℚ) (p : Int) (hp1 : 1 ≤ p) (hp99 : p ≤ 99)
    (hlo : ((p : ℚ) - 9 / 10) * ((p : ℚ) - 9 / 10) ≤ 10000 * v)
    (hhi : 10000 * v ≤ ((p : ℚ) + 19 / 10) * ((p : ℚ) + 19 / 10)) :
    ∃ r : Int,
      (match Fp.toInt (Fp.floor (Fp.sqrt binary64
          (Fp.mul binary64 (Fp.round binary32 (Fp.fin v)) (Fp.fin 10000)))) with
        | none => none
        | some percent =>
          some (if (if percent < 0 then 0 else percent) > 100 then 100
            else (if percent < 0 then 0 else percent))) = some r ∧
      p - 1 ≤ r ∧ r ≤ p + 1 := by
  have hpq1 : (1 : ℚ) ≤ p := by exact_mod_cast hp1
  have hpq2 : (p : ℚ) ≤ 99 := by exact_mod_cast hp99
  have p1 : pow2 1 = 2 := by decide!
  have p14 : pow2 14 = 16384 := by decide!
  have p23 : pow2 (1 - (binary32.prec : Int)) = 1 / 8388608 := by decide!
  have p39 : pow2 (14 - (binary64.prec : Int)) = 1 / 549755813888 := by decide!
  have hv0 : 0 < v := by nlinarith
  have hv2 : v < 2 := by nlinarith
  obtain ⟨v1, hv1, hv1err⟩ := roundFmt_near binary32 v 1 (by decide) (by decide)
    (by rw [p1, abs_lt]; constructor <;> linarith)
  rw [p23, abs_le] at hv1err
  obtain ⟨w1, hw1, hw1err⟩ := roundFmt_near binary64 (v1 * 10000) 14 (by decide) (by decide)
    (by rw [p14, abs_lt]; constructor <;> nlinarith)
  rw [p39, abs_le] at hw1err
  have hw1lo : ((p : ℚ) - 95 / 100) * ((p : ℚ) - 95 / 100) ≤ w1 := by nlinarith
  have hw1hi : w1 ≤ ((p : ℚ) + 195 / 100) * ((p : ℚ) + 195 / 100) := by nlinarith
  have hw0 : 0 < w1 := by nlinarith
  have hw2 : w1 < 16384 := by nlinarith
  obtain ⟨s, hs, hs1, hs2⟩ := roundSqrt_bounds w1 ((p : ℚ) - 95 / 100) ((p : ℚ) + 195 / 100)
    hw0 hw2 (by linarith) hw1lo (by linarith) hw1hi
  have e1 : Fp.round binary32 (Fp.fin v) = Fp.fin v1 := hv1
  have e2 : Fp.mul binary64 (Fp.fin v1) (Fp.fin 10000) = Fp.fin w1 := hw1
  have e3 : Fp.sqrt binary64 (Fp.fin w1) = Fp.fin s := by
    show (if w1 < 0 then Fp.nan else if w1 = 0 then Fp.fin 0 else roundSqrt binary64 w1) = _
    rw [if_neg (not_lt.mpr hw0.le), if_neg hw0.ne', hs]
  have e4 : Fp.floor (Fp.fin s) = Fp.fin ((Rat.floor s : Int) : ℚ) := rfl
  have hf1 : p - 1 ≤ Rat.floor s := by
    have a0 : ((p - 1 : Int) : ℚ) ≤ s := by push_cast; linarith
    exact Int.le_floor.mpr a0
  have hf2 : Rat.floor s < p + 2 := by
    have a0 : s < ((p + 2 : Int) : ℚ) := by push_cast; linarith
    exact Int.floor_lt.mpr a0
  have hfq1 : (-1 : ℚ) ≤ (Rat.floor s : ℚ) := by
    have : ((-1 : Int) : ℚ) ≤ ((Rat.floor s : Int) : ℚ) := Int.cast_le.mpr (by omega)
    simpa using this
  have hfq2 : (Rat.floor s : ℚ) ≤ 101 := by
    have : ((Rat.floor s : Int) : ℚ) ≤ ((101 : Int) : ℚ) := Int.cast_le.mpr (by omega)
    simpa using this
  have e5 : Fp.toInt (Fp.fin ((Rat.floor s : Int) : ℚ)) = some (Rat.floor s) := by
    rw [toInt_truncQ _ (by rw [abs_lt]; constructor <;> linarith), truncQ_intCast]
  refine ⟨Rat.floor s, ?_, hf1, by omega⟩
  rw [e1, e2, e3, e4, e5]
  simp only
  rw [if_neg (by omega), if_neg (by omega)]

/-- The function `dbvaluetopercent` at a value `d` whose power of ten is `v`. -/
theorem decode_value (L : Libm) (d : Int) (x v : ℚ) (p : Int)
    (hx : Fp.divPos binary32
      (Fp.round binary32 (Fp.divPos binary64 (Fp.ofInt binary32 d) 256)) 10 = Fp.fin x)
    (hv : L.exp10 (Fp.fin x) = Fp.fin v) (hp1 : 1 ≤ p) (hp99 : p ≤ 99)
    (hlo : ((p : ℚ) - 9 / 10) * ((p : ℚ) - 9 / 10) ≤ 10000 * v)
    (hhi : 10000 * v ≤ ((p : ℚ) + 19 / 10) * ((p : ℚ) + 19 / 10)) :
    ∃ r : Int, dbvaluetopercent L d = some r ∧ p - 1 ≤ r ∧ r ≤ p + 1 := by
  unfold dbvaluetopercent
  simp only [hx, hv]
  exact decode_sqrt v p hp1 hp99 hlo hhi

/-! ## Lemmas on the exact power of ten -/

theorem rpow_ten_small (t : ℝ) (h1 : -(1 / 600) ≤ t) (h2 : t ≤ 1 / 600) :
    200 / 201 ≤ (10 : ℝ) ^ t ∧ (10 : ℝ) ^ t ≤ 201 / 200 := by
  have hroot : (10 : ℝ) ^ ((600 : ℕ) : ℝ)⁻¹ ≤ 201 / 200 := by
    have h10 : (10 : ℝ) ≤ (201 / 200 : ℝ) ^ 600 := by norm_num
    have := Real.rpow_le_rpow (by norm_num) h10
      (by positivity : (0 : ℝ) ≤ ((600 : ℕ) : ℝ)⁻¹)
    rwa [Real.pow_rpow_inv_natCast (by norm_num) (by norm_num)] at this
  have e600 : ((600 : ℕ) : ℝ)⁻¹ = 1 / 600 := by norm_num
  rw [e600] at hroot
  have hpos : 0 < (10 : ℝ) ^ (1 / 600 : ℝ) := Real.rpow_pos_of_pos (by norm_num) _
  constructor
  · have hmono : (10 : ℝ) ^ (-(1 / 600) : ℝ) ≤ (10 : ℝ) ^ t :=
      Real.rpow_le_rpow_of_exponent_le (by norm_num) h1
    rw [Real.rpow_neg (by norm_num)] at hmono
    refine le_trans ?_ hmono
    rw [le_inv_comm₀ (by norm_num) hpos]
    refine le_trans hroot ?_
    norm_num
  · exact le_trans (Real.rpow_le_rpow_of_exponent_le (by norm_num) h2) hroot

theorem logb_le_of_le (r : ℝ) (h0 : 0 < r) (h : r ≤ 9801 / 10000) :
    Real.logb 10 r ≤ -(1 / 125) := by
  rw [Real.logb_le_iff_le_rpow (by norm_num) h0]
  refine le_trans h ?_
  have hroot : (9801 / 10000 : ℝ) ≤ ((10 : ℝ)⁻¹) ^ ((125 : ℕ) : ℝ)⁻¹ := by
    have h10 : (9801 / 10000 : ℝ) ^ 125 ≤ (10 : ℝ)⁻¹ := by norm_num
    have := Real.rpow_le_rpow (by positivity) h10
      (by positivity : (0 : ℝ) ≤ ((125 : ℕ) : ℝ)⁻¹)
    rwa [Real.pow_rpow_inv_natCast (by norm_num) (by norm_num)] at this
  have e : ((10 : ℝ)⁻¹) ^ ((125 : ℕ) : ℝ)⁻¹ = (10 : ℝ) ^ (-(1 / 125) : ℝ) := by
    rw [Real.inv_rpow (by norm_num), ← Real.rpow_neg (by norm_num)]
    norm_num
  rw [← e]
  exact hroot

/-! ## Lemmas on the library computed by series -/

theorem pow2_cast_real (k : Int) : ((pow2 k : ℚ) : ℝ) = (2 : ℝ) ^ k := by
  rw [pow2_eq_zpow]; push_cast; rfl

theorem log_ten_near : (230257 / 100000 : ℝ) < Real.log 10 ∧ Real.log 10 < 230266 / 100000 := by
  obtain ⟨h1, h2⟩ := log_ten_bounds
  have a := Real.log_two_gt_d9
  have b := Real.log_two_lt_d9
  constructor <;> linarith

theorem inv_log_ten_near :
    (43427 / 100000 : ℝ) ≤ (Real.log 10)⁻¹ ∧ (Real.log 10)⁻¹ ≤ 43431 / 100000 := by
  obtain ⟨hc1, hc2⟩ := log_ten_near
  have hc0 : 0 < Real.log 10 := by linarith
  constructor
  · rw [le_inv_comm₀ (by norm_num) hc0]
    refine le_trans hc2.le ?_
    norm_num
  · rw [inv_le_comm₀ hc0 (by norm_num)]
    refine le_trans ?_ hc1.le
    norm_num

theorem logSeries_cast (x : ℚ) :
    ((logSeries x : ℚ) : ℝ) =
      Finset.sum (Finset.range 12) (fun i => (x : ℝ) ^ (i + 1) / ((i : ℝ) + 1)) := by
  unfold logSeries
  push_cast
  rfl

theorem logSeries_near (m : ℝ) (hm1 : 1 / 2 ≤ m) (hm2 : m < 1) :
    |Finset.sum (Finset.range 12) (fun i => (1 - m) ^ (i + 1) / ((i : ℝ) + 1)) + Real.log m| ≤
      1 / 4096 := by
  have hmpos : 0 < m := by linarith
  have habs : |1 - m| < 1 := by
    rw [abs_lt]; constructor <;> linarith
  have hser := Real.abs_log_sub_add_sum_range_le habs 12
  have hx0 : 0 ≤ 1 - m := by linarith
  rw [abs_of_nonneg hx0] at hser
  have hone : 1 - (1 - m) = m := by ring
  rw [hone] at hser
  have hbound : (1 - m) ^ (12 + 1) / m ≤ 1 / 4096 := by
    rw [div_le_iff₀ hmpos]
    have hp : (1 - m) ^ (12 + 1) ≤ (1 / 2 : ℝ) ^ (12 + 1) :=
      pow_le_pow_left₀ hx0 (by linarith) _
    have e : (1 / 2 : ℝ) ^ (12 + 1) = 1 / 8192 := by norm_num
    rw [e] at hp
    linarith
  exact le_trans hser hbound

theorem log_combine (k S lam lm ic : ℝ) (hk1 : -13 ≤ k) (hk2 : k ≤ 1)
    (hS : |S + lm| ≤ 1 / 4096) (hl1 : 59 / 196 < lam) (hl2 : lam < 146 / 485)
    (hm1 : -(7 / 10) ≤ lm) (hm2 : lm ≤ 0) (hi1 : 43427 / 100000 ≤ ic)
    (hi2 : ic ≤ 43431 / 100000) :
    |k * (30103 / 100000) - 43429 / 100000 * S - (k * lam + lm * ic)| ≤ 1 / 1000 := by
  have e : k * (30103 / 100000) - 43429 / 100000 * S - (k * lam + lm * ic) =
      k * (30103 / 100000 - lam) - 43429 / 100000 * (S + lm) +
        lm * (43429 / 100000 - ic) := by ring
  rw [e]
  have t1 : |k * (30103 / 100000 - lam)| ≤ 13 * (1 / 100000) := by
    rw [abs_mul]
    refine mul_le_mul ?_ ?_ (abs_nonneg _) (by norm_num)
    · rw [abs_le]; constructor <;> linarith
    · rw [abs_le]; constructor <;> linarith
  have t3 : |lm * (43429 / 100000 - ic)| ≤ 7 / 10 * (2 / 100000) := by
    rw [abs_mul]
    refine mul_le_mul ?_ ?_ (abs_nonneg _) (by norm_num)
    · rw [abs_le]; constructor <;> linarith
    · rw [abs_le]; constructor <;> linarith
  rw [abs_le] at t1 t3 hS ⊢
  constructor <;> linarith

theorem series_log_real (k : Int) (m : ℚ) (hk1 : -13 ≤ k) (hk2 : k ≤ 1) (hm1 : 1 / 2 ≤ m)
    (hm2 : m < 1) :
    |(((k : ℚ) * (30103 / 100000) - 43429 / 100000 * logSeries (1 - m) : ℚ) : ℝ) -
      Real.logb 10 ((pow2 k * m : ℚ) : ℝ)| ≤ 1 / 1000 := by
  have hm1R : (1 : ℝ) / 2 ≤ (m : ℝ) := by
    have h := (rat_le_real _ _).mp hm1
    push_cast at h
    exact h
  have hm2R : (m : ℝ) < 1 := by
    have h := (rat_lt_real _ _).mp hm2
    push_cast at h
    exact h
  have hmpos : (0 : ℝ) < (m : ℝ) := by linarith
  have h2k : (0 : ℝ) < (2 : ℝ) ^ k := zpow_pos (by norm_num) k
  have hlogq : Real.log ((pow2 k * m : ℚ) : ℝ) = (k : ℝ) * Real.log 2 + Real.log (m : ℝ) := by
    push_cast
    rw [pow2_cast_real, Real.log_mul h2k.ne' hmpos.ne', Real.log_zpow]
  have hser := logSeries_near (m : ℝ) hm1R hm2R
  have hlm1 : -(7 / 10) ≤ Real.log (m : ℝ) := by
    have : Real.log (1 / 2 : ℝ) ≤ Real.log (m : ℝ) := Real.log_le_log (by norm_num) hm1R
    have e : Real.log (1 / 2 : ℝ) = -Real.log 2 := by
      rw [one_div, Real.log_inv]
    have := Real.log_two_lt_d9
    linarith
  have hlm2 : Real.log (m : ℝ) ≤ 0 := Real.log_nonpos hmpos.le hm2R.le
  obtain ⟨hb1, hb2⟩ := logb_two_bounds
  obtain ⟨hi1, hi2⟩ := inv_log_ten_near
  have hlogb : Real.logb 10 ((pow2 k * m : ℚ) : ℝ) =
      (k : ℝ) * Real.logb 10 2 + Real.log (m : ℝ) * (Real.log 10)⁻¹ := by
    unfold Real.logb
    rw [hlogq]
    ring
  have hcast : (((1 - m : ℚ)) : ℝ) = 1 - (m : ℝ) := by push_cast; rfl
  have hcast2 : (((k : ℚ) * (30103 / 100000) - 43429 / 100000 * logSeries (1 - m) : ℚ) : ℝ) =
      (k : ℝ) * (30103 / 100000) - 43429 / 100000 *
        Finset.sum (Finset.range 12) (fun i => (1 - (m : ℝ)) ^ (i + 1) / ((i : ℝ) + 1)) := by
    rw [← hcast, ← logSeries_cast]
    push_cast
    rfl
  rw [hlogb, hcast2]
  exact log_combine _ _ _ _ _ (by exact_mod_cast hk1) (by exact_mod_cast hk2) hser hb1 hb2
    hlm1 hlm2 hi1 hi2

/-- The series logarithm is within `1 / 1000` of the exact base-10 logarithm on
`[0.00009999, 1]`. -/
theorem seriesLibm_log (q : ℚ) (h1 : 9999 / 100000000 ≤ q) (h2 : q ≤ 1) :
    ∃ y : ℚ, seriesLibm.log10f (Fp.fin q) = Fp.fin y ∧
      |(y : ℝ) - Real.logb 10 (q : ℝ)| ≤ 1 / 1000 := by
  have hq : 0 < q := by linarith
  obtain ⟨hE1, hE2⟩ := ilog2_spec q hq
  have p1 : pow2 1 = 2 := by decide!
  have pm14 : pow2 (-14) = 1 / 16384 := by decide!
  have hk1 : ilog2 q + 1 ≤ 1 := by
    have : ilog2 q < 1 := pow2_lt_pow2 _ _ (by rw [p1]; linarith)
    omega
  have hk2 : -13 ≤ ilog2 q + 1 := by
    have : -14 < ilog2 q + 1 := pow2_lt_pow2 _ _ (by rw [pm14]; linarith)
    omega
  have hsucc := pow2_succ (ilog2 q)
  have hP : 0 < pow2 (ilog2 q + 1) := pow2_pos _
  have hm1 : 1 / 2 ≤ q / pow2 (ilog2 q + 1) := by
    rw [le_div_iff₀ hP]; linarith
  have hm2 : q / pow2 (ilog2 q + 1) < 1 := by
    rw [div_lt_iff₀ hP]; linarith
  have hqm : pow2 (ilog2 q + 1) * (q / pow2 (ilog2 q + 1)) = q := by
    field_simp
  have key := series_log_real (ilog2 q + 1) (q / pow2 (ilog2 q + 1)) hk2 hk1 hm1 hm2
  rw [hqm] at key
  refine ⟨_, ?_, key⟩
  show (if q < 0 then Fp.nan else if q = 0 then Fp.ninf else _) = _
  rw [if_neg (not_lt.mpr hq.le), if_neg hq.ne']

theorem expSeries_cast (x : ℚ) :
    ((expSeries x : ℚ) : ℝ) =
      Finset.sum (Finset.range 8) (fun m => (x : ℝ) ^ m / (m.factorial : ℝ)) := by
  unfold expSeries
  push_cast
  rfl

theorem expSeries_near (u : ℝ) (h0 : 0 ≤ u) (h1 : u ≤ 1) :
    |Real.exp u - Finset.sum (Finset.range 8) (fun m => u ^ m / (m.factorial : ℝ))| ≤
      3 / 100000 := by
  have habs : |u| ≤ 1 := by rw [abs_le]; constructor <;> linarith
  have h := Real.exp_bound habs (by norm_num : 0 < 8)
  refine le_trans h ?_
  have hp : |u| ^ 8 ≤ 1 := pow_le_one₀ (abs_nonneg u) habs
  have e : (((8 : ℕ).succ : ℝ) / (((8 : ℕ).factorial : ℝ) * ((8 : ℕ) : ℝ))) = 9 / 322560 := by
    norm_num [Nat.factorial]
  rw [e]
  have : |u| ^ 8 * (9 / 322560) ≤ 1 * (9 / 322560) :=
    mul_le_mul_of_nonneg_right hp (by norm_num)
  linarith

theorem exp_small (c : ℝ) (h1 : -(5 / 10000) ≤ c) (h2 : c ≤ 5 / 100000) :
    999 / 1000 ≤ Real.exp c ∧ Real.exp c ≤ 1001 / 1000 := by
  have a := Real.add_one_le_exp c
  have b := Real.add_one_le_exp (-c)
  have hpos := Real.exp_pos c
  have hmul : Real.exp c * Real.exp (-c) = 1 := by
    rw [← Real.exp_add]; simp
  constructor
  · linarith
  · by_contra hcon
    have hcon' := not_le.mp hcon
    have : 1 < Real.exp c * Real.exp (-c) := by nlinarith
    linarith

theorem exp_combine (G U C E : ℝ) (hG : 0 < G) (hU : 1 ≤ U) (hC1 : 999 / 1000 ≤ C)
    (hC2 : C ≤ 1001 / 1000) (hE : |U - E| ≤ 3 / 100000) :
    |G * E - G * U * C| ≤ G * U * C / 200 := by
  rw [abs_le] at hE
  have hUC1 : U * (999 / 1000) ≤ U * C := mul_le_mul_of_nonneg_left hC1 (by linarith)
  have hUC2 : U * C ≤ U * (1001 / 1000) := mul_le_mul_of_nonneg_left hC2 (by linarith)
  have key : |E - U * C| ≤ U * C / 200 := by
    rw [abs_le]; constructor <;> linarith
  have e : G * E - G * U * C = G * (E - U * C) := by ring
  rw [e, abs_mul, abs_of_pos hG]
  have := mul_le_mul_of_nonneg_left key hG.le
  have e2 : G * (U * C / 200) = G * U * C / 200 := by ring
  linarith

theorem series_exp_real (x f : ℚ) (j : Int) (hx1 : -5 ≤ x) (hx2 : x ≤ 0) (hf0 : 0 ≤ f)
    (hf1 : f < 1) (hxf : x * (33219 / 10000) = j + f) :
    |((pow2 j * expSeries (f * (6931 / 10000)) : ℚ) : ℝ) - (10 : ℝ) ^ (x : ℝ)| ≤
      (10 : ℝ) ^ (x : ℝ) / 200 := by
  have hx1R : (-5 : ℝ) ≤ (x : ℝ) := by
    have h := (rat_le_real _ _).mp hx1
    push_cast at h
    exact h
  have hx2R : (x : ℝ) ≤ 0 := by
    have h := (rat_le_real _ _).mp hx2
    push_cast at h
    exact h
  have hf0R : (0 : ℝ) ≤ (f : ℝ) := by
    have h := (rat_le_real _ _).mp hf0
    push_cast at h
    exact h
  have hf1R : (f : ℝ) < 1 := by
    have h := (rat_lt_real _ _).mp hf1
    push_cast at h
    exact h
  have hxfR : (x : ℝ) * (33219 / 10000) = (j : ℝ) + (f : ℝ) := by
    have h := congrArg (fun r : ℚ => (r : ℝ)) hxf
    simp only at h
    push_cast at h
    exact h
  obtain ⟨hc1, hc2⟩ := log_ten_bounds
  have hL2a := Real.log_two_gt_d9
  have hL2b := Real.log_two_lt_d9
  obtain ⟨u, hu⟩ : ∃ u : ℝ, u = (f : ℝ) * (6931 / 10000) := ⟨_, rfl⟩
  have hu0 : 0 ≤ u := by rw [hu]; positivity
  have hu1 : u ≤ 1 := by rw [hu]; linarith
  obtain ⟨c, hc⟩ : ∃ c : ℝ, c = Real.log 10 * (x : ℝ) - (j : ℝ) * Real.log 2 - u := ⟨_, rfl⟩
  have hcform : c = (x : ℝ) * (Real.log 10 - 33219 / 10000 * Real.log 2) +
      (f : ℝ) * (Real.log 2 - 6931 / 10000) := by
    have : (j : ℝ) = (x : ℝ) * (33219 / 10000) - (f : ℝ) := by linarith
    rw [hc, hu, this]; ring
  have hg1 : 0 ≤ Real.log 10 - 33219 / 10000 * Real.log 2 := by linarith
  have hg2 : Real.log 10 - 33219 / 10000 * Real.log 2 ≤ 1 / 10000 := by linarith
  have hh1 : 0 ≤ Real.log 2 - 6931 / 10000 := by linarith
  have hh2 : Real.log 2 - 6931 / 10000 ≤ 5 / 100000 := by linarith
  have hcl : -(5 / 10000) ≤ c := by
    rw [hcform]
    have a1 : (x : ℝ) * (Real.log 10 - 33219 / 10000 * Real.log 2) ≥ -5 * (1 / 10000) := by
      nlinarith
    have a2 : 0 ≤ (f : ℝ) * (Real.log 2 - 6931 / 10000) := mul_nonneg hf0R hh1
    linarith
  have hcu : c ≤ 5 / 100000 := by
    rw [hcform]
    have a1 : (x : ℝ) * (Real.log 10 - 33219 / 10000 * Real.log 2) ≤ 0 :=
      mul_nonpos_of_nonpos_of_nonneg hx2R hg1
    have a2 : (f : ℝ) * (Real.log 2 - 6931 / 10000) ≤ 1 * (5 / 100000) :=
      mul_le_mul hf1R.le hh2 hh1 (by norm_num)
    linarith
  obtain ⟨hC1, hC2⟩ := exp_small c hcl hcu
  have hpow : (10 : ℝ) ^ (x : ℝ) = (2 : ℝ) ^ j * Real.exp u * Real.exp c := by
    rw [Real.rpow_def_of_pos (by norm_num)]
    have e1 : Real.log 10 * (x : ℝ) = (j : ℝ) * Real.log 2 + u + c := by rw [hc]; ring
    have e2 : Real.exp ((j : ℝ) * Real.log 2) = (2 : ℝ) ^ j := by
      rw [mul_comm, Real.exp_mul, Real.exp_log (by norm_num), Real.rpow_intCast]
    rw [e1, Real.exp_add, Real.exp_add, e2]
  have hcast : ((pow2 j * expSeries (f * (6931 / 10000)) : ℚ) : ℝ) =
      (2 : ℝ) ^ j * Finset.sum (Finset.range 8) (fun m => u ^ m / (m.factorial : ℝ)) := by
    have e3 : (((f * (6931 / 10000) : ℚ)) : ℝ) = u := by rw [hu]; push_cast; rfl
    rw [← e3, ← expSeries_cast]
    push_cast
    rw [pow2_cast_real]
  rw [hcast, hpow]
  exact exp_combine _ _ _ _ (zpow_pos (by norm_num) j) (Real.one_le_exp hu0) hC1 hC2
    (expSeries_near u hu0 hu1)

/-- The series power of ten is within a relative error of `1 / 200` of the exact power on
`[-5, 0]`. -/
theorem seriesLibm_exp (x : ℚ) (h1 : -5 ≤ x) (h2 : x ≤ 0) :
    ∃ v : ℚ, seriesLibm.exp10 (Fp.fin x) = Fp.fin v ∧
      |(v : ℝ) - (10 : ℝ) ^ (x : ℝ)| ≤ (10 : ℝ) ^ (x : ℝ) / 200 := by
  have hf0 : 0 ≤ x * (33219 / 10000) - (Rat.floor (x * (33219 / 10000)) : ℚ) := by
    have : ((Rat.floor (x * (33219 / 10000)) : Int) : ℚ) ≤ x * (33219 / 10000) :=
      Int.floor_le _
    linarith
  have hf1 : x * (33219 / 10000) - (Rat.floor (x * (33219 / 10000)) : ℚ) < 1 := by
    have : x * (33219 / 10000) < ((Rat.floor (x * (33219 / 10000)) : Int) : ℚ) + 1 :=
      Int.lt_floor_add_one _
    linarith
  have key := series_exp_real x (x * (33219 / 10000) - (Rat.floor (x * (33219 / 10000)) : ℚ))
    (Rat.floor (x * (33219 / 10000))) h1 h2 hf0 hf1 (by ring)
  refine ⟨_, ?_, key⟩
  show (if 309 ≤ x then Fp.pinf else if x ≤ -324 then Fp.fin 0 else _) = _
  rw [if_neg (by linarith), if_neg (by linarith)]

theorem square_window (u V : ℝ) (hu1 : 1 ≤ u) (hu2 : u ≤ 99) (h1 : 99 / 100 * (u * u) ≤ V)
    (h2 : V ≤ 10101 / 10000 * (u * u)) :
    (u - 9 / 10) * (u - 9 / 10) ≤ V ∧ V ≤ (u + 19 / 10) * (u + 19 / 10) := by
  have h := mul_nonneg (sub_nonneg.mpr hu1) (sub_nonneg.mpr hu2)
  constructor <;> nlinarith

/-! ## Volume: round trip -/

/-- C5: for every `p` from `1` to `99`, `percentodbvalue p` is a value `d`,
`dbvaluetopercent d` is a value `r`, and `r` differs from `p` by at most `1`; for every C
library whose `log10` is within `1 / 1000` of the exact base-10 logarithm at the values of
type `float` in `[0.00009999, 1]`, and whose `exp10` is within a relative error of
`1 / 200` of the exact power of ten at the values of type `float` in `[-5, 0]`. -/
theorem dbvaluetopercent_percentodbvalue (L : Libm)
    (hlog : ∀ q : ℚ, roundFmt binary32 q = Fp.fin q → 9999 / 100000000 ≤ q → q ≤ 1 →
      ∃ y : ℚ, L.log10f (Fp.fin q) = Fp.fin y ∧
        |(y : ℝ) - Real.logb 10 (q : ℝ)| ≤ 1 / 1000)
    (hexp : ∀ x : ℚ, roundFmt binary32 x = Fp.fin x → -5 ≤ x → x ≤ 0 →
      ∃ v : ℚ, L.exp10 (Fp.fin x) = Fp.fin v ∧
        |(v : ℝ) - (10 : ℝ) ^ (x : ℝ)| ≤ (10 : ℝ) ^ (x : ℝ) / 200)
    (p : Int) (h1 : 1 ≤ p) (h99 : p ≤ 99) :
    ∃ d r : Int, percentodbvalue L p = some d ∧ dbvaluetopercent L d = some r ∧
      |r - p| ≤ 1 := by
  obtain ⟨q, hq, hfloat, herr0⟩ := ratio_general p (by omega) (by omega) (by omega)
  obtain ⟨u, hu⟩ : ∃ u : ℚ, u = (p : ℚ) := ⟨_, rfl⟩
  have hpu : (p : ℚ) = u := hu.symm
  have hu1 : (1 : ℚ) ≤ u := by
    rw [hu]; exact_mod_cast h1
  have hu2 : u ≤ 99 := by
    rw [hu]; exact_mod_cast h99
  rw [hpu] at herr0
  have hmul := mul_nonneg (sub_nonneg.mpr hu1) (sub_nonneg.mpr hu2)
  have hr1 : 1 / 10000 ≤ u * u / 10000 := by
    rw [div_le_div_iff_of_pos_right (by norm_num)]; nlinarith
  have hr2 : u * u / 10000 ≤ 9801 / 10000 := by
    rw [div_le_div_iff_of_pos_right (by norm_num)]; nlinarith
  have herr : |q - u * u / 10000| ≤ u * u / 10000 / 1000000 := herr0
  rw [abs_le] at herr0
  have hq3 : 9999 / 100000000 ≤ q := by linarith
  have hq4 : q ≤ 1 := by linarith
  have herrR : |(q : ℝ) - (u : ℝ) * u / 10000| ≤ (u : ℝ) * u / 10000 / 1000000 := by
    have h := (rat_le_real _ _).mp herr
    push_cast at h
    exact h
  have hr1R : (1 : ℝ) / 10000 ≤ (u : ℝ) * u / 10000 := by
    have h := (rat_le_real _ _).mp hr1
    push_cast at h
    exact h
  have hr2R : (u : ℝ) * u / 10000 ≤ 9801 / 10000 := by
    have h := (rat_le_real _ _).mp hr2
    push_cast at h
    exact h
  have hrpos : (0 : ℝ) < (u : ℝ) * u / 10000 := by linarith
  have hpert := logb_perturb (q : ℝ) ((u : ℝ) * u / 10000) hrpos herrR
  obtain ⟨hl1, -⟩ := logb_range ((u : ℝ) * u / 10000) hr1R (by linarith)
  have hl2 := logb_le_of_le ((u : ℝ) * u / 10000) hrpos hr2R
  obtain ⟨y, hy, hacc⟩ := hlog q hfloat hq3 hq4
  rw [abs_le] at hacc hpert
  have hy6R : |(y : ℝ)| ≤ 6 := by
    rw [abs_le]; constructor <;> linarith
  have hy6 : |y| ≤ 6 := by
    have h : ((|y| : ℚ) : ℝ) ≤ ((6 : ℚ) : ℝ) := by push_cast; exact hy6R
    exact (rat_le_real _ _).mpr h
  obtain ⟨w, hw, hwerr⟩ := encode_value y (le_trans hy6 (by norm_num))
  rw [abs_le] at hwerr hy6
  have hwabs : |w| < 2147483648 := by
    rw [abs_lt]; constructor <;> linarith
  have hd : percentodbvalue L p = some (truncQ w) := by
    unfold percentodbvalue
    rw [if_neg (by omega)]
    simp only [hq, hy, hw]
    exact toInt_truncQ w hwabs
  obtain ⟨htr, -, -⟩ := truncQ_near w
  rw [abs_lt] at htr
  have hd1 : -16000 ≤ truncQ w := by
    have h : ((-16000 : Int) : ℚ) ≤ (truncQ w : ℚ) := by push_cast; linarith
    exact Int.cast_le.mp h
  have hd2 : truncQ w ≤ 16000 := by
    have h : (truncQ w : ℚ) ≤ ((16000 : Int) : ℚ) := by push_cast; linarith
    exact Int.cast_le.mp h
  obtain ⟨x, hx, hxfloat, hxerr⟩ := decode_entry (truncQ w) hd1 hd2
  rw [abs_le] at hxerr
  have hxy : |x - y| ≤ 4 / 10000 := by
    rw [abs_le]; constructor <;> linarith
  have hxyR : |(x : ℝ) - (y : ℝ)| ≤ 4 / 10000 := by
    have h := (rat_le_real _ _).mp hxy
    push_cast at h
    exact h
  rw [abs_le] at hxyR
  obtain ⟨t, ht⟩ : ∃ t : ℝ, t = (x : ℝ) - Real.logb 10 ((u : ℝ) * u / 10000) := ⟨_, rfl⟩
  have ht1 : -(1 / 600) ≤ t := by rw [ht]; linarith
  have ht2 : t ≤ 1 / 600 := by rw [ht]; linarith
  have hx5 : -5 ≤ x := by
    rw [rat_le_real]; push_cast; linarith
  have hx0 : x ≤ 0 := by
    rw [rat_le_real]; push_cast; linarith
  obtain ⟨v, hv, hverr⟩ := hexp x hxfloat hx5 hx0
  have hpow : (10 : ℝ) ^ (x : ℝ) = (u : ℝ) * u / 10000 * (10 : ℝ) ^ t := by
    have e : (x : ℝ) = Real.logb 10 ((u : ℝ) * u / 10000) + t := by rw [ht]; ring
    rw [e, Real.rpow_add (by norm_num), Real.rpow_logb (by norm_num) (by norm_num) hrpos]
  obtain ⟨hs1, hs2⟩ := rpow_ten_small t ht1 ht2
  rw [hpow, abs_le] at hverr
  have huR1 : (1 : ℝ) ≤ (u : ℝ) := by
    have h := (rat_le_real _ _).mp hu1
    push_cast at h
    exact h
  have huR2 : (u : ℝ) ≤ 99 := by
    have h := (rat_le_real _ _).mp hu2
    push_cast at h
    exact h
  have hvlo : (99 / 100 : ℝ) * ((u : ℝ) * u) ≤ 10000 * (v : ℝ) := by
    have hA : (u : ℝ) * u / 10000 * (200 / 201) ≤ (u : ℝ) * u / 10000 * (10 : ℝ) ^ t :=
      mul_le_mul_of_nonneg_left hs1 hrpos.le
    linarith
  have hvhi : 10000 * (v : ℝ) ≤ (10101 / 10000 : ℝ) * ((u : ℝ) * u) := by
    have hA : (u : ℝ) * u / 10000 * (10 : ℝ) ^ t ≤ (u : ℝ) * u / 10000 * (201 / 200) :=
      mul_le_mul_of_nonneg_left hs2 hrpos.le
    linarith
  obtain ⟨hloR, hhiR⟩ := square_window (u : ℝ) (10000 * (v : ℝ)) huR1 huR2 hvlo hvhi
  have hlo : ((p : ℚ) - 9 / 10) * ((p : ℚ) - 9 / 10) ≤ 10000 * v := by
    rw [hpu, rat_le_real]; push_cast; exact hloR
  have hhi : 10000 * v ≤ ((p : ℚ) + 19 / 10) * ((p : ℚ) + 19 / 10) := by
    rw [hpu, rat_le_real]; push_cast; exact hhiR
  obtain ⟨r, hr, hrlo, hrhi⟩ := decode_value L (truncQ w) x v p hx hv h1 h99 hlo hhi
  refine ⟨truncQ w, r, hd, hr, ?_⟩
  rw [abs_le]
  constructor <;> omega

theorem dbvaluetopercent_percentodbvalue_witness :
    (∀ q : ℚ, roundFmt binary32 q = Fp.fin q → 9999 / 100000000 ≤ q → q ≤ 1 →
      ∃ y : ℚ, seriesLibm.log10f (Fp.fin q) = Fp.fin y ∧
        |(y : ℝ) - Real.logb 10 (q : ℝ)| ≤ 1 / 1000) ∧
    (∀ x : ℚ, roundFmt binary32 x = Fp.fin x → -5 ≤ x → x ≤ 0 →
      ∃ v : ℚ, seriesLibm.exp10 (Fp.fin x) = Fp.fin v ∧
        |(v : ℝ) - (10 : ℝ) ^ (x : ℝ)| ≤ (10 : ℝ) ^ (x : ℝ) / 200) ∧
    (1 : Int) ≤ 50 ∧ (50 : Int) ≤ 99 ∧
    ∃ d r : Int, percentodbvalue seriesLibm 50 = some d ∧
      dbvaluetopercent seriesLibm d = some r ∧ |r - 50| ≤ 1 :=
  ⟨fun q _ h1 h2 => seriesLibm_log q h1 h2, fun x _ h1 h2 => seriesLibm_exp x h1 h2,
    by decide, by decide,
    dbvaluetopercent_percentodbvalue seriesLibm (fun q _ h1 h2 => seriesLibm_log q h1 h2)
      (fun x _ h1 h2 => seriesLibm_exp x h1 h2) 50 (by decide) (by decide)⟩

end Upmpd
